import Mathlib

/-!
# A best-fit free-list allocator (`malloc/malloc.c`)

Shallow embedding of `my_initialize`, `my_malloc`, `my_free`, `my_finalize` and the two
free-list helpers, followed by the properties proved about them.

Modelling conventions.

* Addresses and `size_t` values are natural numbers; `NULL` is `0`.  The subtractions of
  `size_t` values are taken modulo `2^64` (`size_t_sub`).  Addresses are not bounded: the
  pages are assumed to lie in the address space, so that pointer arithmetic inside a page
  does not wrap.
* The memory is a typed heap: `mem a` is the `my_metadata_t` record stored at address `a`, and
  a store to the header at `a` changes `mem a` only.  This agrees with the byte-addressed
  memory of the program on the states whose headers lie in the address space and are at
  least 16 bytes apart; the reachable states are such (invariant `Inv`), and the properties
  of the unlink, split and insert steps that are stated on arbitrary free lists assume it
  (`Separated`, `BlocksApart`).  The static object
  `my_heap.dummy` lives at an address `dummy` that is a parameter.  `State.free_head` is
  `my_heap.free_head`.
* `sizeof(my_metadata_t)` is 16 (a `size_t` and a pointer, 8 bytes each, LP64).
* `mmap_from_system` is external.  It is modelled by a function `sys : Nat → Nat`: `sys k` is
  the address returned by the call number `k` (counting from 0).  The sizes requested so far
  are logged in the state, latest first, so the number of calls is the length of the log.
* `assert` failing aborts the process: outcome `assert_fail`.
* The `while` loop of `my_malloc` takes a bound `fuel` on its iterations and the recursion
  of `my_malloc` a bound `depth` on the number of nested activations; running out of either
  is the outcome `out_of_fuel`.
* The lines that follow the closing brace of `my_malloc` in the source are a leftover copy of
  the end of that function (same unlink, split and return); they belong to no function and
  are not modelled.
-/

namespace Malloc

/-- Header `my_metadata_t`: usable size of the block and link to the next free block
(0 is `NULL`). -/
structure my_metadata_t where
  size : Nat
  next : Nat
deriving DecidableEq, Repr

/-- The value of `sizeof(my_metadata_t)`. -/
def sizeof_my_metadata_t : Nat := 16

/-- Outcome of a call: a value, an aborted process, or an exhausted bound of the model. -/
inductive Outcome (α : Type) where
  | ok (val : α)
  | assert_fail
  | out_of_fuel

/-- Sequencing of calls: the first failure ends the run. -/
def Outcome.bind {α β : Type} (x : Outcome α) (f : α → Outcome β) : Outcome β :=
  match x with
  | .ok a => f a
  | .assert_fail => .assert_fail
  | .out_of_fuel => .out_of_fuel

/-- Machine state: `my_heap.free_head`, the headers in memory, and the log of the sizes
passed to `mmap_from_system` (latest first). -/
structure State where
  free_head : Nat
  mem : Nat → my_metadata_t
  mmap_log : List Nat

/-- The store `a->size = v`. -/
def set_size (mem : Nat → my_metadata_t) (a v : Nat) : Nat → my_metadata_t :=
  fun x => if x = a then { size := v, next := (mem a).next } else mem x

/-- The store `a->next = v`. -/
def set_next (mem : Nat → my_metadata_t) (a v : Nat) : Nat → my_metadata_t :=
  fun x => if x = a then { size := (mem a).size, next := v } else mem x

/-- Subtraction of `size_t` values (64 bits, both operands below `2^64`): the difference
modulo `2^64`, so that it wraps around when `b > a`. -/
def size_t_sub (a b : Nat) : Nat :=
  (a + 2 ^ 64 - b) % 2 ^ 64

/-- Source `my_add_to_free_list`: asserts that the link of `metadata` is `NULL`, then makes
it the head of the free list. -/
def my_add_to_free_list (st : State) (metadata : Nat) : Outcome State :=
  if (st.mem metadata).next ≠ 0 then .assert_fail
  else .ok { st with mem := set_next st.mem metadata st.free_head, free_head := metadata }

/-- Source `my_remove_from_free_list`: unlinks `metadata` after `prev` (or at the head when
`prev` is `NULL`) and clears its link. -/
def my_remove_from_free_list (st : State) (metadata prev : Nat) : State :=
  let st1 : State :=
    if prev ≠ 0 then { st with mem := set_next st.mem prev (st.mem metadata).next }
    else { st with free_head := (st.mem metadata).next }
  { st1 with mem := set_next st1.mem metadata 0 }

/-- Source `my_initialize`: the free list becomes the sentinel `my_heap.dummy` alone. -/
def my_initialize (dummy : Nat) (st : State) : State :=
  { st with free_head := dummy, mem := set_next (set_size st.mem dummy 0) dummy 0 }

/-- The `while (cur != NULL)` loop of `my_malloc`; returns `(best, best_prev)`. -/
def best_fit_loop (mem : Nat → my_metadata_t) (size : Nat) :
    Nat → Nat → Nat → Nat → Nat → Outcome (Nat × Nat)
  | 0, _, _, _, _ => .out_of_fuel
  | fuel + 1, cur, prev, best, best_prev =>
    if cur = 0 then .ok (best, best_prev)
    else if size ≤ (mem cur).size ∧ (best = 0 ∨ (mem cur).size < (mem best).size) then
      best_fit_loop mem size fuel (mem cur).next cur cur prev
    else
      best_fit_loop mem size fuel (mem cur).next cur best best_prev

/-- The branch `best == NULL` of `my_malloc` up to the recursive call: a page of 4096 bytes
is requested and a block covering it is put in the free list. -/
def grow_heap (sys : Nat → Nat) (st : State) : Outcome State :=
  let buffer_size := 4096
  let new_block := sys st.mmap_log.length
  let st1 : State := { st with mmap_log := buffer_size :: st.mmap_log }
  let st2 : State :=
    { st1 with mem := set_size st1.mem new_block (size_t_sub buffer_size sizeof_my_metadata_t) }
  let st3 : State := { st2 with mem := set_next st2.mem new_block 0 }
  my_add_to_free_list st3 new_block

/-- The part of `my_malloc` after a block `best` was found: unlink it, split it when the rest
is larger than a header, return the payload address. -/
def take_block (st : State) (size best best_prev : Nat) : Outcome (Nat × State) :=
  let ptr := best + sizeof_my_metadata_t
  let remaining := size_t_sub (st.mem best).size size
  let st1 := my_remove_from_free_list st best best_prev
  if remaining > sizeof_my_metadata_t then
    let st2 : State := { st1 with mem := set_size st1.mem best size }
    let rest := ptr + size
    let st3 : State :=
      { st2 with mem := set_size st2.mem rest (size_t_sub remaining sizeof_my_metadata_t) }
    let st4 : State := { st3 with mem := set_next st3.mem rest 0 }
    (my_add_to_free_list st4 rest).bind fun st5 => .ok (ptr, st5)
  else
    .ok (ptr, st1)

/-- Source `my_malloc`. -/
def my_malloc (sys : Nat → Nat) (fuel : Nat) : Nat → State → Nat → Outcome (Nat × State)
  | 0, _, _ => .out_of_fuel
  | depth + 1, st, size =>
    (best_fit_loop st.mem size fuel st.free_head 0 0 0).bind fun r =>
      if r.1 = 0 then
        (grow_heap sys st).bind fun st1 => my_malloc sys fuel depth st1 size
      else
        take_block st size r.1 r.2

/-- Source `my_free`. -/
def my_free (st : State) (ptr : Nat) : Outcome State :=
  let metadata := ptr - sizeof_my_metadata_t
  my_add_to_free_list st metadata

/-- Source `my_finalize`: nothing is done. -/
def my_finalize (st : State) : State := st

/-! ## Specification vocabulary -/

/-- The nodes met when following `next` from `head` up to `NULL` are exactly `l`, in order. -/
def Chain (mem : Nat → my_metadata_t) : Nat → List Nat → Prop
  | head, [] => head = 0
  | head, a :: l => head = a ∧ a ≠ 0 ∧ Chain mem (mem a).next l

/-- Whether `l` is the chain from `head` can be computed. -/
instance Chain.decidable (mem : Nat → my_metadata_t) :
    ∀ (head : Nat) (l : List Nat), Decidable (Chain mem head l)
  | head, [] => inferInstanceAs (Decidable (head = 0))
  | head, a :: l =>
    have := Chain.decidable mem (mem a).next l
    inferInstanceAs (Decidable (head = a ∧ a ≠ 0 ∧ Chain mem (mem a).next l))

/-- The free list of the state `st`, head first, is `l`. -/
def FreeList (st : State) (l : List Nat) : Prop := Chain st.mem st.free_head l

/-- Whether `l` is the free list of `st` can be computed. -/
instance FreeList.decidable (st : State) (l : List Nat) : Decidable (FreeList st l) :=
  Chain.decidable st.mem st.free_head l

/-- Last element of `l`, or `d` when `l` is empty. -/
def lastD : List Nat → Nat → Nat
  | [], d => d
  | a :: l, _ => lastD l a

/-- The traversal of `my_malloc` on the successive nodes `l`, as a fold: `prev` is the node
before the first node of `l`, `(best, best_prev)` the candidate so far. -/
def scan (mem : Nat → my_metadata_t) (size : Nat) : List Nat → Nat → Nat → Nat → Nat × Nat
  | [], _, best, best_prev => (best, best_prev)
  | a :: l, prev, best, best_prev =>
    if size ≤ (mem a).size ∧ (best = 0 ∨ (mem a).size < (mem best).size) then
      scan mem size l a a prev
    else
      scan mem size l a best best_prev

/-- Best fit with first-encountered tie-break: `best` is a node of `l` that is large enough,
strictly smaller than every large-enough node before it and at most as large as every
large-enough node after it; `best_prev` is the node just before it (`NULL` at the head). -/
def Selected (mem : Nat → my_metadata_t) (size : Nat) (l : List Nat) (best best_prev : Nat) :
    Prop :=
  ∃ pre post, l = pre ++ best :: post ∧ best_prev = lastD pre 0 ∧
    size ≤ (mem best).size ∧
    (∀ a ∈ pre, size ≤ (mem a).size → (mem best).size < (mem a).size) ∧
    (∀ a ∈ post, size ≤ (mem a).size → (mem best).size ≤ (mem a).size)

/-- Sizes that the caller of `my_malloc` may pass: multiples of 8 from 8 to 4000. -/
def ValidSize (s : Nat) : Prop := 8 ∣ s ∧ 8 ≤ s ∧ s ≤ 4000

/-- Whether a size is valid can be computed. -/
instance ValidSize.decidable (s : Nat) : Decidable (ValidSize s) :=
  inferInstanceAs (Decidable (8 ∣ s ∧ 8 ≤ s ∧ s ≤ 4000))

/-- What is assumed of `mmap_from_system` and of the place of `my_heap.dummy`: every call
succeeds (non-null), the pages of 4096 bytes returned by different calls are disjoint, the
header of the sentinel is not at `NULL` and overlaps no page. -/
structure PagesOK (sys : Nat → Nat) (dummy : Nat) : Prop where
  nonnull : ∀ i, sys i ≠ 0
  disjoint : ∀ i j, i ≠ j → sys i + 4096 ≤ sys j ∨ sys j + 4096 ≤ sys i
  dummy_nonnull : dummy ≠ 0
  dummy_apart : ∀ i, dummy + sizeof_my_metadata_t ≤ sys i ∨ sys i + 4096 ≤ dummy

/-- The states reachable from `my_initialize` by calls of `my_malloc` with valid sizes and
calls of `my_free` on live pointers.  The second index lists the live pointers, each with the
size recorded in its header when `my_malloc` returned it. -/
inductive Reachable (sys : Nat → Nat) (dummy : Nat) : State → List (Nat × Nat) → Prop
  | init (st0 : State) : Reachable sys dummy ( my_initialize dummy st0) []
  | malloc {st : State} {live : List (Nat × Nat)} (fuel depth size p : Nat) (st1 : State) :
      Reachable sys dummy st live → ValidSize size →
      my_malloc sys fuel depth st size = .ok (p, st1) →
      Reachable sys dummy st1 ((p, (st1.mem (p - sizeof_my_metadata_t)).size) :: live)
  | free {st : State} {live : List (Nat × Nat)} (p r : Nat) (st1 : State) :
      Reachable sys dummy st live → (p, r) ∈ live → my_free st p = .ok st1 →
      Reachable sys dummy st1 (live.filter fun q => q.1 ≠ p)

/-- Address `a` is the header of a block: of a free one (a node of `fl`) or of an allocated
one (16 bytes before a live pointer). -/
def IsBlock (fl : List Nat) (live : List (Nat × Nat)) (a : Nat) : Prop :=
  a ∈ fl ∨ ∃ q ∈ live, q.1 = a + sizeof_my_metadata_t

/-- Heap invariant.  `fl` lists the free blocks other than the sentinel, `live` the live
pointers with their recorded sizes. -/
structure Inv (sys : Nat → Nat) (dummy : Nat) (st : State) (fl : List Nat)
    (live : List (Nat × Nat)) : Prop where
  chain : FreeList st (fl ++ [dummy])
  dummy_size : (st.mem dummy).size = 0
  live_nodup : (live.map Prod.fst).Nodup
  live_hdr : ∀ q ∈ live, sizeof_my_metadata_t ≤ q.1 ∧ q.1 - sizeof_my_metadata_t ∉ fl ∧
    (st.mem (q.1 - sizeof_my_metadata_t)).size = q.2 ∧
    (st.mem (q.1 - sizeof_my_metadata_t)).next = 0
  in_page : ∀ a, IsBlock fl live a → ∃ i, i < st.mmap_log.length ∧ sys i ≤ a ∧
    a + sizeof_my_metadata_t + (st.mem a).size ≤ sys i + 4096 ∧
    8 ∣ a - sys i ∧ 8 ∣ (st.mem a).size ∧ 8 ≤ (st.mem a).size
  apart : ∀ a b, IsBlock fl live a → IsBlock fl live b → a ≠ b →
    a + sizeof_my_metadata_t + (st.mem a).size ≤ b ∨
    b + sizeof_my_metadata_t + (st.mem b).size ≤ a

/-- What the traversal knows after the nodes `done`: nothing fits yet, or `best` is selected
among them. -/
def ScanInv (mem : Nat → my_metadata_t) (size : Nat) (done : List Nat) (best best_prev : Nat) :
    Prop :=
  (best = 0 ∧ ∀ a ∈ done, (mem a).size < size) ∨
  (best ≠ 0 ∧ Selected mem size done best best_prev)

/-! ## Concrete states used as examples -/

/-- Example of a page provider: the page number `k` starts at `4096 * (k + 1)`. -/
def page_at (k : Nat) : Nat := 4096 * (k + 1)

/-- Example of an address for `my_heap.dummy`. -/
def dummy_at : Nat := 64

/-- Example of a state before `my_initialize`: zeroed memory, no page requested. -/
def blank : State := ⟨0, fun _ => ⟨0, 0⟩, []⟩

/-- Example of a state: one page at 4096 whose free blocks are a block of 32 bytes at 4096
and a block of 64 bytes at 4144, followed by the sentinel at 64. -/
def two_free : State :=
  ⟨4096, fun a => if a = 4096 then ⟨32, 4144⟩ else if a = 4144 then ⟨64, 64⟩ else ⟨0, 0⟩,
    [4096]⟩

/-- Example of a state: one page at 4096 that is a single free block of 4080 bytes, followed
by the sentinel at 64. -/
def one_page : State :=
  ⟨4096, fun a => if a = 4096 then ⟨4080, 64⟩ else ⟨0, 0⟩, [4096]⟩

/-- The value of an outcome, `d` when the call did not return. -/
def Outcome.getD {α : Type} (x : Outcome α) (d : α) : α :=
  match x with
  | .ok a => a
  | .assert_fail => d
  | .out_of_fuel => d

/-- Example: the pointer and the state returned by `my_malloc 800` on the freshly
initialised heap `blank`. -/
def first_alloc : Nat × State :=
  (my_malloc page_at 3 2 ( my_initialize dummy_at blank) 800).getD (0, blank)

/-- The fragmentation scenario of the specification on the heap initialised from `st0`:
`a = my_malloc 800`, `b = my_malloc 800`, `my_free` of both (`a` first when `a_first`, else
`b` first), then `my_malloc 1600`.  The result lists `a`, `b`, the state before the last
call, the pointer returned by the last call and the final state. -/
def frag_scenario (sys : Nat → Nat) (dummy : Nat) (st0 : State) (fuel : Nat)
    (a_first : Bool) : Outcome (Nat × Nat × State × Nat × State) :=
  (my_malloc sys fuel 2 ( my_initialize dummy st0) 800).bind fun ra =>
  (my_malloc sys fuel 2 ra.2 800).bind fun rb =>
  (my_free rb.2 (if a_first then ra.1 else rb.1)).bind fun s1 =>
  (my_free s1 (if a_first then rb.1 else ra.1)).bind fun s2 =>
  (my_malloc sys fuel 2 s2 1600).bind fun rc => .ok (ra.1, rb.1, s2, rc.1, rc.2)

/-- Example: the state after `my_free` of the pointer returned by the first `my_malloc 800`
(`blank` when that call fails). -/
def first_freed : State :=
  (my_free first_alloc.2 first_alloc.1).getD blank

/-- Runs: `Run sys dummy st live st1 live1` says that the state `st1` with the live pointers
`live1` is reached from the state `st` with the live pointers `live` by a sequence of calls of
`my_malloc` with valid sizes and of `my_free` on live pointers. -/
inductive Run (sys : Nat → Nat) (dummy : Nat) (st : State) (live : List (Nat × Nat)) :
    State → List (Nat × Nat) → Prop
  | refl : Run sys dummy st live st live
  | malloc {st1 : State} {live1 : List (Nat × Nat)} (fuel depth size p : Nat) (st2 : State) :
      Run sys dummy st live st1 live1 → ValidSize size →
      my_malloc sys fuel depth st1 size = .ok (p, st2) →
      Run sys dummy st live st2 ((p, (st2.mem (p - sizeof_my_metadata_t)).size) :: live1)
  | free {st1 : State} {live1 : List (Nat × Nat)} (p r : Nat) (st2 : State) :
      Run sys dummy st live st1 live1 → (p, r) ∈ live1 → my_free st1 p = .ok st2 →
      Run sys dummy st live st2 (live1.filter fun q => q.1 ≠ p)

/-- The states reachable from `my_initialize` by calls of `my_malloc` with sizes of at least 8
(multiples of 8 or not, above 4000 or not) and calls of `my_free` on live pointers. -/
inductive Reachable8 (sys : Nat → Nat) (dummy : Nat) : State → List (Nat × Nat) → Prop
  | init (st0 : State) : Reachable8 sys dummy ( my_initialize dummy st0) []
  | malloc {st : State} {live : List (Nat × Nat)} (fuel depth size p : Nat) (st1 : State) :
      Reachable8 sys dummy st live → 8 ≤ size →
      my_malloc sys fuel depth st size = .ok (p, st1) →
      Reachable8 sys dummy st1 ((p, (st1.mem (p - sizeof_my_metadata_t)).size) :: live)
  | free {st : State} {live : List (Nat × Nat)} (p r : Nat) (st1 : State) :
      Reachable8 sys dummy st live → (p, r) ∈ live → my_free st p = .ok st1 →
      Reachable8 sys dummy st1 (live.filter fun q => q.1 ≠ p)

/-- Heap invariant without the facts on alignment and on minimal sizes: the one kept by
calls of `my_malloc` with any size of at least 8. -/
structure Inv0 (sys : Nat → Nat) (dummy : Nat) (st : State) (fl : List Nat)
    (live : List (Nat × Nat)) : Prop where
  chain : FreeList st (fl ++ [dummy])
  dummy_size : (st.mem dummy).size = 0
  live_nodup : (live.map Prod.fst).Nodup
  live_hdr : ∀ q ∈ live, sizeof_my_metadata_t ≤ q.1 ∧ q.1 - sizeof_my_metadata_t ∉ fl ∧
    (st.mem (q.1 - sizeof_my_metadata_t)).size = q.2 ∧
    (st.mem (q.1 - sizeof_my_metadata_t)).next = 0
  in_page : ∀ a, IsBlock fl live a → ∃ i, i < st.mmap_log.length ∧ sys i ≤ a ∧
    a + sizeof_my_metadata_t + (st.mem a).size ≤ sys i + 4096
  apart : ∀ a b, IsBlock fl live a → IsBlock fl live b → a ≠ b →
    a + sizeof_my_metadata_t + (st.mem a).size ≤ b ∨
    b + sizeof_my_metadata_t + (st.mem b).size ≤ a
/-- Example: the result of `my_malloc 9`, a size that is not a multiple of 8, on the heap
initialised from `blank` (`(0, blank)` when the call fails). -/
def odd_alloc : Nat × State :=
  (my_malloc page_at 3 2 ( my_initialize dummy_at blank) 9).getD (0, blank)

/-- Tiling: the blocks whose headers are listed in `bs`, in this order, are contiguous from
`start` to `stop`: the first one begins at `start`, each one is followed, after its header
and as many payload bytes as its header records, by the next one, and the last one ends at
`stop`. -/
def Tiling (mem : Nat → my_metadata_t) : Nat → List Nat → Nat → Prop
  | start, [], stop => start = stop
  | start, a :: bs, stop =>
    a = start ∧ Tiling mem (a + sizeof_my_metadata_t + (mem a).size) bs stop

instance Tiling.decidable (mem : Nat → my_metadata_t) :
    ∀ (start : Nat) (bs : List Nat) (stop : Nat), Decidable (Tiling mem start bs stop)
  | start, [], stop => inferInstanceAs (Decidable (start = stop))
  | start, a :: bs, stop =>
    have := Tiling.decidable mem (a + sizeof_my_metadata_t + (mem a).size) bs stop
    inferInstanceAs (Decidable (a = start ∧
      Tiling mem (a + sizeof_my_metadata_t + (mem a).size) bs stop))

/-- Page invariant.  `n0` is the number of pages requested before `my_initialize`: the pages
acquired by the allocator are the pages `sys i` with `n0 ≤ i < st.mmap_log.length`.  Every
block lies in an acquired page, and the blocks of every acquired page tile it. -/
structure Tiled (sys : Nat → Nat) (n0 : Nat) (st : State) (fl : List Nat)
    (live : List (Nat × Nat)) : Prop where
  base : n0 ≤ st.mmap_log.length
  home : ∀ a, IsBlock fl live a →
    ∃ i, n0 ≤ i ∧ i < st.mmap_log.length ∧ sys i ≤ a ∧ a < sys i + 4096
  tiles : ∀ i, n0 ≤ i → i < st.mmap_log.length →
    ∃ bs, Tiling st.mem (sys i) bs (sys i + 4096) ∧
      ∀ a, a ∈ bs ↔ (IsBlock fl live a ∧ sys i ≤ a ∧ a < sys i + 4096)

/-- Headers kept apart: the header of every node of `l` lies in the 64-bit address space, its
payload address included, and the headers of two distinct nodes do not overlap (the nodes
are at least `sizeof(my_metadata_t)` bytes apart).  On such nodes a store to a field of one
header changes no field of another header. -/
def Separated (l : List Nat) : Prop :=
  (∀ a ∈ l, a + sizeof_my_metadata_t < 2 ^ 64) ∧
  ∀ a ∈ l, ∀ b ∈ l, a ≠ b →
    a + sizeof_my_metadata_t ≤ b ∨ b + sizeof_my_metadata_t ≤ a

/-- Whether headers are kept apart can be computed. -/
instance Separated.decidable (l : List Nat) : Decidable (Separated l) :=
  inferInstanceAs (Decidable ((∀ a ∈ l, a + sizeof_my_metadata_t < 2 ^ 64) ∧
    ∀ a ∈ l, ∀ b ∈ l, a ≠ b →
      a + sizeof_my_metadata_t ≤ b ∨ b + sizeof_my_metadata_t ≤ a))

/-- Blocks kept apart: every block of `l`, header and payload of the recorded size, lies in
the 64-bit address space, and two distinct blocks of `l` do not overlap. -/
def BlocksApart (mem : Nat → my_metadata_t) (l : List Nat) : Prop :=
  (∀ a ∈ l, a + sizeof_my_metadata_t + (mem a).size < 2 ^ 64) ∧
  ∀ a ∈ l, ∀ b ∈ l, a ≠ b →
    a + sizeof_my_metadata_t + (mem a).size ≤ b ∨
    b + sizeof_my_metadata_t + (mem b).size ≤ a

/-- Whether blocks are kept apart can be computed. -/
instance BlocksApart.decidable (mem : Nat → my_metadata_t) (l : List Nat) :
    Decidable (BlocksApart mem l) :=
  inferInstanceAs (Decidable ((∀ a ∈ l, a + sizeof_my_metadata_t + (mem a).size < 2 ^ 64) ∧
    ∀ a ∈ l, ∀ b ∈ l, a ≠ b →
      a + sizeof_my_metadata_t + (mem a).size ≤ b ∨
      b + sizeof_my_metadata_t + (mem b).size ≤ a))

/-! ## Lemmas -/

@[simp] theorem set_size_size_same (mem : Nat → my_metadata_t) (a v : Nat) :
    (set_size mem a v a).size = v := by simp [set_size]

@[simp] theorem set_size_next (mem : Nat → my_metadata_t) (a v x : Nat) :
    (set_size mem a v x).next = (mem x).next := by
  unfold set_size; split
  · next h => subst h; rfl
  · rfl

theorem set_size_size_other (mem : Nat → my_metadata_t) {a x : Nat} (v : Nat) (h : x ≠ a) :
    (set_size mem a v x).size = (mem x).size := by simp [set_size, h]

@[simp] theorem set_next_next_same (mem : Nat → my_metadata_t) (a v : Nat) :
    (set_next mem a v a).next = v := by simp [set_next]

@[simp] theorem set_next_size (mem : Nat → my_metadata_t) (a v x : Nat) :
    (set_next mem a v x).size = (mem x).size := by
  unfold set_next; split
  · next h => subst h; rfl
  · rfl

theorem set_next_next_other (mem : Nat → my_metadata_t) {a x : Nat} (v : Nat) (h : x ≠ a) :
    (set_next mem a v x).next = (mem x).next := by simp [set_next, h]

theorem size_t_sub_of_le {a b : Nat} (h : b ≤ a) (ha : a < 2 ^ 64) :
    size_t_sub a b = a - b := by
  unfold size_t_sub
  have e : a + 2 ^ 64 - b = (a - b) + 2 ^ 64 := by omega
  rw [e, Nat.add_mod_right, Nat.mod_eq_of_lt (by omega)]

/-- A chain only depends on the links of its nodes. -/
theorem Chain.frame {mem mem1 : Nat → my_metadata_t} :
    ∀ {l : List Nat} {h : Nat}, (∀ a ∈ l, (mem1 a).next = (mem a).next) →
      Chain mem h l → Chain mem1 h l
  | [], _, _, hc => hc
  | a :: l, h, hf, hc => by
    obtain ⟨h1, h2, h3⟩ := hc
    refine ⟨h1, h2, ?_⟩
    rw [hf a (List.mem_cons_self a l)]
    exact Chain.frame (fun x hx => hf x (List.mem_cons_of_mem a hx)) h3

theorem Chain.ne_zero {mem : Nat → my_metadata_t} :
    ∀ {l : List Nat} {h : Nat}, Chain mem h l → ∀ a ∈ l, a ≠ 0
  | [], _, _, a, ha => by simp at ha
  | b :: l, h, hc, a, ha => by
    obtain ⟨_, h2, h3⟩ := hc
    rcases List.mem_cons.1 ha with rfl | ha
    · exact h2
    · exact Chain.ne_zero h3 a ha

/-- The list of nodes of a chain is determined by the memory and the head. -/
theorem Chain.unique {mem : Nat → my_metadata_t} :
    ∀ {l1 l2 : List Nat} {h : Nat}, Chain mem h l1 → Chain mem h l2 → l1 = l2
  | [], [], _, _, _ => rfl
  | [], b :: l2, h, h1, h2 => by
    obtain ⟨e, n, _⟩ := h2
    have h1 : h = 0 := h1
    omega
  | a :: l1, [], h, h1, h2 => by
    obtain ⟨e, n, _⟩ := h1
    have h2 : h = 0 := h2
    omega
  | a :: l1, b :: l2, h, h1, h2 => by
    obtain ⟨e1, _, c1⟩ := h1
    obtain ⟨e2, _, c2⟩ := h2
    have : a = b := by omega
    subst this
    rw [Chain.unique c1 c2]

theorem Chain.tail_of_mem {mem : Nat → my_metadata_t} :
    ∀ {l : List Nat} {h : Nat}, Chain mem h l → ∀ a ∈ l,
      ∃ t, Chain mem (mem a).next t ∧ t.length < l.length
  | [], _, _, a, ha => by simp at ha
  | b :: l, h, hc, a, ha => by
    obtain ⟨_, _, h3⟩ := hc
    rcases List.mem_cons.1 ha with rfl | ha
    · exact ⟨l, h3, by simp⟩
    · obtain ⟨t, ht, hlen⟩ := Chain.tail_of_mem h3 a ha
      exact ⟨t, ht, by simp; omega⟩

/-- A chain that reaches `NULL` visits no node twice. -/
theorem Chain.nodup {mem : Nat → my_metadata_t} :
    ∀ {l : List Nat} {h : Nat}, Chain mem h l → l.Nodup
  | [], _, _ => List.nodup_nil
  | a :: l, h, hc => by
    obtain ⟨_, _, h3⟩ := hc
    refine List.nodup_cons.2 ⟨?_, Chain.nodup h3⟩
    intro ha
    obtain ⟨t, ht, hlen⟩ := Chain.tail_of_mem h3 a ha
    have := Chain.unique ht h3
    subst this
    omega

/-- The loop of `my_malloc` on a chain computes the fold `scan`. -/
theorem best_fit_loop_eq_scan (mem : Nat → my_metadata_t) (size : Nat) :
    ∀ (l : List Nat) (fuel cur prev best best_prev : Nat), Chain mem cur l → l.length < fuel →
      best_fit_loop mem size fuel cur prev best best_prev
        = .ok (scan mem size l prev best best_prev)
  | [], fuel, cur, prev, best, best_prev, hc, hf => by
    have hc : cur = 0 := hc
    obtain ⟨f, rfl⟩ : ∃ f, fuel = f + 1 := ⟨fuel - 1, by simp at hf; omega⟩
    simp [best_fit_loop, scan, hc]
  | a :: l, fuel, cur, prev, best, best_prev, hc, hf => by
    obtain ⟨h1, h2, h3⟩ := hc
    subst h1
    obtain ⟨f, rfl⟩ : ∃ f, fuel = f + 1 := ⟨fuel - 1, by simp at hf; omega⟩
    have hf1 : l.length < f := by simp at hf; omega
    unfold best_fit_loop scan
    rw [if_neg h2]
    split
    · exact best_fit_loop_eq_scan mem size l f _ _ _ _ h3 hf1
    · exact best_fit_loop_eq_scan mem size l f _ _ _ _ h3 hf1

/-- More fuel does not change a result of the loop. -/
theorem best_fit_loop_mono (mem : Nat → my_metadata_t) (size : Nat) :
    ∀ (fuel fuel1 cur prev best best_prev : Nat) (r : Nat × Nat), fuel ≤ fuel1 →
      best_fit_loop mem size fuel cur prev best best_prev = .ok r →
      best_fit_loop mem size fuel1 cur prev best best_prev = .ok r
  | 0, _, _, _, _, _, _, _, h => by simp [best_fit_loop] at h
  | f + 1, fuel1, cur, prev, best, best_prev, r, hle, h => by
    obtain ⟨g, rfl⟩ : ∃ g, fuel1 = g + 1 := ⟨fuel1 - 1, by omega⟩
    unfold best_fit_loop at h ⊢
    split
    · next hc => simpa [hc] using h
    · next hc =>
      rw [if_neg hc] at h
      split
      · next hb =>
        rw [if_pos hb] at h
        exact best_fit_loop_mono mem size f g _ _ _ _ r (by omega) h
      · next hb =>
        rw [if_neg hb] at h
        exact best_fit_loop_mono mem size f g _ _ _ _ r (by omega) h

theorem lastD_concat : ∀ (l : List Nat) (a d : Nat), lastD (l ++ [a]) d = a
  | [], _, _ => rfl
  | b :: l, a, _ => lastD_concat l a b

theorem lastD_mem : ∀ (l : List Nat) (q : Nat), lastD l q ∈ q :: l
  | [], q => by simp [lastD]
  | a :: l, q => List.mem_cons_of_mem q (lastD_mem l a)

theorem ScanInv.step {mem : Nat → my_metadata_t} {size : Nat} {done : List Nat}
    {best bp : Nat} (a : Nat) (ha : a ≠ 0) (h : ScanInv mem size done best bp) :
    (size ≤ (mem a).size ∧ (best = 0 ∨ (mem a).size < (mem best).size) →
      ScanInv mem size (done ++ [a]) a (lastD done 0)) ∧
    (¬ (size ≤ (mem a).size ∧ (best = 0 ∨ (mem a).size < (mem best).size)) →
      ScanInv mem size (done ++ [a]) best bp) := by
  constructor
  · rintro ⟨h1, h2⟩
    refine Or.inr ⟨ha, done, [], rfl, rfl, h1, ?_, by simp⟩
    intro x hx hsx
    rcases h with ⟨_, hall⟩ | ⟨hb, pre, post, hl, _, hs, hpre, hpost⟩
    · have := hall x hx; omega
    · have hlt : (mem a).size < (mem best).size := by
        rcases h2 with h2 | h2
        · exact absurd h2 hb
        · exact h2
      rw [hl] at hx
      rcases List.mem_append.1 hx with hx | hx
      · have := hpre x hx hsx; omega
      · rcases List.mem_cons.1 hx with rfl | hx
        · exact hlt
        · have := hpost x hx hsx; omega
  · intro hn
    rcases h with ⟨hb, hall⟩ | ⟨hb, pre, post, hl, hbp, hs, hpre, hpost⟩
    · refine Or.inl ⟨hb, ?_⟩
      intro x hx
      rcases List.mem_append.1 hx with hx | hx
      · exact hall x hx
      · have : x = a := by simpa using hx
        subst this
        by_contra hc
        exact hn ⟨by omega, Or.inl hb⟩
    · refine Or.inr ⟨hb, pre, post ++ [a], by simp [hl], hbp, hs, hpre, ?_⟩
      intro x hx hsx
      rcases List.mem_append.1 hx with hx | hx
      · exact hpost x hx hsx
      · have : x = a := by simpa using hx
        subst this
        by_contra hc
        exact hn ⟨hsx, Or.inr (by omega)⟩

theorem scan_inv (mem : Nat → my_metadata_t) (size : Nat) :
    ∀ (l done : List Nat) (best bp : Nat), (∀ a ∈ l, a ≠ 0) →
      ScanInv mem size done best bp →
      ScanInv mem size (done ++ l) (scan mem size l (lastD done 0) best bp).1
        (scan mem size l (lastD done 0) best bp).2
  | [], done, best, bp, _, h => by simpa [scan] using h
  | a :: l, done, best, bp, hnz, h => by
    have ha : a ≠ 0 := hnz a (List.mem_cons_self a l)
    have hl : ∀ x ∈ l, x ≠ 0 := fun x hx => hnz x (List.mem_cons_of_mem a hx)
    have hlast : lastD (done ++ [a]) 0 = a := lastD_concat done a 0
    have happ : done ++ a :: l = (done ++ [a]) ++ l := by simp
    obtain ⟨s1, s2⟩ := ScanInv.step a ha h
    unfold scan
    split
    · next hc =>
      have := scan_inv mem size l (done ++ [a]) a (lastD done 0) hl (s1 hc)
      rw [hlast] at this
      rw [happ]; exact this
    · next hc =>
      have := scan_inv mem size l (done ++ [a]) best bp hl (s2 hc)
      rw [hlast] at this
      rw [happ]; exact this

/-- Specification of the search loop of `my_malloc` on a well-formed free list `l`: with more
fuel than nodes it returns, with `best = NULL` when no node is large enough and with the
best-fit node and its predecessor otherwise. -/
theorem best_fit_loop_spec {mem : Nat → my_metadata_t} {head : Nat} {l : List Nat}
    (size : Nat) (hc : Chain mem head l) :
    ∃ best bp, (∀ fuel, l.length < fuel →
        best_fit_loop mem size fuel head 0 0 0 = .ok (best, bp)) ∧
      ((best = 0 ∧ ∀ a ∈ l, (mem a).size < size) ∨
       (best ≠ 0 ∧ Selected mem size l best bp)) := by
  refine ⟨(scan mem size l 0 0 0).1, (scan mem size l 0 0 0).2, ?_, ?_⟩
  · intro fuel hf
    exact best_fit_loop_eq_scan mem size l fuel head 0 0 0 hc hf
  · have := scan_inv mem size l [] 0 0 (Chain.ne_zero hc) (Or.inl ⟨rfl, by simp⟩)
    simpa [ScanInv] using this

theorem Selected.minimum {mem : Nat → my_metadata_t} {s b bp : Nat} {l : List Nat}
    (h : Selected mem s l b bp) :
    b ∈ l ∧ s ≤ (mem b).size ∧ ∀ a ∈ l, s ≤ (mem a).size → (mem b).size ≤ (mem a).size := by
  obtain ⟨pre, post, rfl, _, hs, hpre, hpost⟩ := h
  refine ⟨by simp, hs, ?_⟩
  intro a ha hsa
  rcases List.mem_append.1 ha with h | h
  · exact Nat.le_of_lt (hpre a h hsa)
  · rcases List.mem_cons.1 h with rfl | h
    · exact le_refl _
    · exact hpost a h hsa

theorem set_next_other (mem : Nat → my_metadata_t) {a x : Nat} (v : Nat) (h : x ≠ a) :
    set_next mem a v x = mem x := by simp [set_next, h]

theorem set_size_other (mem : Nat → my_metadata_t) {a x : Nat} (v : Nat) (h : x ≠ a) :
    set_size mem a v x = mem x := by simp [set_size, h]

/-- Unlinking `b` after its predecessor in a chain. -/
theorem Chain.unlink {mem : Nat → my_metadata_t} {b : Nat} {post : List Nat} :
    ∀ (pre : List Nat) (q h : Nat), Chain mem h (q :: pre ++ b :: post) →
      (q :: pre ++ b :: post).Nodup →
      Chain (set_next (set_next mem (lastD pre q) (mem b).next) b 0) h (q :: pre ++ post)
  | [], q, h, hc, hn => by
    obtain ⟨h1, h2, h3, h4, h5⟩ := hc
    show Chain (set_next (set_next mem q (mem b).next) b 0) h (q :: post)
    have hqb : q ≠ b := by
      intro e; subst e; simp at hn
    refine ⟨h1, h2, ?_⟩
    have e : (set_next (set_next mem q (mem b).next) b 0 q).next = (mem b).next := by
      rw [set_next_next_other _ _ hqb]; simp
    show Chain _ (set_next (set_next mem q (mem b).next) b 0 q).next post
    rw [e]
    apply Chain.frame _ h5
    intro a ha
    have h1 : a ≠ b := by
      rintro rfl; simp at hn; exact hn.2.1 ha
    have h2 : a ≠ q := by
      rintro rfl; simp at hn; exact hn.1.2 ha
    rw [set_next_next_other _ _ h1, set_next_next_other _ _ h2]
  | p :: pre, q, h, hc, hn => by
    obtain ⟨h1, h2, h3⟩ := hc
    have hn1 : (p :: pre ++ b :: post).Nodup := (List.nodup_cons.1 hn).2
    have hq : q ∉ p :: pre ++ b :: post := (List.nodup_cons.1 hn).1
    have ih := Chain.unlink pre p (mem q).next h3 hn1
    refine ⟨h1, h2, ?_⟩
    have hqb : q ≠ b := by
      rintro rfl; simp at hq
    have hlast : lastD (p :: pre) q = lastD pre p := rfl
    have hmem : lastD pre p ∈ p :: pre := lastD_mem pre p
    have hql : q ≠ lastD pre p := by
      intro e
      apply hq
      have : lastD pre p ∈ p :: pre ++ b :: post := by
        have : lastD pre p ∈ (p :: pre) ++ b :: post := List.mem_append_left _ hmem
        simpa using this
      rw [e]; exact this
    show Chain _ (set_next (set_next mem (lastD (p :: pre) q) (mem b).next) b 0 q).next
      (p :: pre ++ post)
    rw [hlast, set_next_next_other _ _ hqb, set_next_next_other _ _ hql]
    exact ih

theorem remove_at_head (st : State) (b : Nat) :
    my_remove_from_free_list st b 0 =
      { free_head := (st.mem b).next, mem := set_next st.mem b 0, mmap_log := st.mmap_log } := by
  simp [my_remove_from_free_list]

theorem remove_after (st : State) (b : Nat) {prev : Nat} (h : prev ≠ 0) :
    my_remove_from_free_list st b prev =
      { free_head := st.free_head,
        mem := set_next (set_next st.mem prev (st.mem b).next) b 0,
        mmap_log := st.mmap_log } := by
  simp [my_remove_from_free_list, h]

/-- Effect of `my_remove_from_free_list` when `prev` is the predecessor of `b` in the free
list (`NULL` when `b` is the head): `b` leaves the list, its link is cleared, no size and no
other link outside the list changes. -/
theorem remove_spec {st : State} {pre post : List Nat} {b : Nat}
    (hc : FreeList st (pre ++ b :: post)) :
    FreeList (my_remove_from_free_list st b (lastD pre 0)) (pre ++ post) ∧
    (my_remove_from_free_list st b (lastD pre 0)).mem b = ⟨(st.mem b).size, 0⟩ ∧
    (∀ x, ((my_remove_from_free_list st b (lastD pre 0)).mem x).size = (st.mem x).size) ∧
    (∀ x, x ≠ b → x ∉ pre → (my_remove_from_free_list st b (lastD pre 0)).mem x = st.mem x) ∧
    (my_remove_from_free_list st b (lastD pre 0)).mmap_log = st.mmap_log := by
  have hnd : (pre ++ b :: post).Nodup := Chain.nodup hc
  cases pre with
  | nil =>
    obtain ⟨h1, h2, h3⟩ := hc
    have hb : b ∉ post := by simpa using (List.nodup_cons.1 hnd).1
    have hl : lastD [] 0 = 0 := rfl
    rw [hl, remove_at_head]
    refine ⟨?_, ?_, ?_, ?_, rfl⟩
    · show Chain (set_next st.mem b 0) (st.mem b).next post
      apply Chain.frame _ h3
      intro a ha
      have : a ≠ b := by rintro rfl; exact hb ha
      rw [set_next_next_other _ _ this]
    · simp [set_next]
    · intro x; simp
    · intro x hx _; simp [set_next, hx]
  | cons q pre =>
    have hne : lastD (q :: pre) 0 ≠ 0 :=
      Chain.ne_zero hc _ (List.mem_append_left _ (lastD_mem pre q))
    have hlast : lastD (q :: pre) 0 = lastD pre q := rfl
    have hbl : b ≠ lastD pre q := by
      intro e
      have hm : b ∈ q :: pre := by
        have := lastD_mem pre q
        rw [← e] at this; exact this
      have := List.disjoint_of_nodup_append hnd hm
      simp at this
    rw [remove_after st b hne, hlast]
    refine ⟨Chain.unlink pre q st.free_head hc hnd, ?_, ?_, ?_, rfl⟩
    · show set_next (set_next st.mem (lastD pre q) (st.mem b).next) b 0 b = _
      simp [set_next, hbl]
    · intro x; simp
    · intro x hx hxp
      have : x ≠ lastD pre q := by
        rintro rfl
        apply hxp
        exact lastD_mem pre q
      show set_next (set_next st.mem (lastD pre q) (st.mem b).next) b 0 x = _
      rw [set_next_other _ _ hx, set_next_other _ _ this]

/-- Effect of `my_add_to_free_list` on a node that is not in the free list and whose link
is `NULL`: the assertion holds and the node becomes the head. -/
theorem add_spec {st : State} {l : List Nat} {a : Nat} (hc : FreeList st l) (ha : a ∉ l)
    (ha0 : a ≠ 0) (hn : (st.mem a).next = 0) :
    my_add_to_free_list st a
      = .ok { st with mem := set_next st.mem a st.free_head, free_head := a } ∧
    FreeList { st with mem := set_next st.mem a st.free_head, free_head := a } (a :: l) := by
  refine ⟨by simp [my_add_to_free_list, hn], rfl, ha0, ?_⟩
  show Chain (set_next st.mem a st.free_head) (set_next st.mem a st.free_head a).next l
  rw [set_next_next_same]
  apply Chain.frame _ hc
  intro x hx
  have : x ≠ a := by rintro rfl; exact ha hx
  rw [set_next_next_other _ _ this]

/-- When the rest is not larger than a header, `take_block` only unlinks the block. -/
theorem take_block_whole {st : State} {size best best_prev : Nat}
    (h : ¬ size_t_sub (st.mem best).size size > sizeof_my_metadata_t) :
    take_block st size best best_prev =
      .ok (best + sizeof_my_metadata_t, my_remove_from_free_list st best best_prev) := by
  unfold take_block
  simp only [if_neg h]

/-- When the rest is larger than a header, `take_block` shrinks the block and puts the rest
at the head of the free list. -/
theorem take_block_split {st : State} {size best best_prev : Nat}
    (h : size_t_sub (st.mem best).size size > sizeof_my_metadata_t) :
    take_block st size best best_prev =
      .ok (best + sizeof_my_metadata_t,
        { free_head := best + sizeof_my_metadata_t + size,
          mem := set_next (set_next (set_size (set_size
              (my_remove_from_free_list st best best_prev).mem best size)
              (best + sizeof_my_metadata_t + size)
              (size_t_sub (size_t_sub (st.mem best).size size) sizeof_my_metadata_t))
              (best + sizeof_my_metadata_t + size) 0)
              (best + sizeof_my_metadata_t + size)
              (my_remove_from_free_list st best best_prev).free_head,
          mmap_log := (my_remove_from_free_list st best best_prev).mmap_log }) := by
  unfold take_block
  simp only [if_pos h, my_add_to_free_list, set_next_next_same, ne_eq, not_true_eq_false,
    if_false, Outcome.bind]

/-- Specification of `take_block` without split. -/
theorem take_block_whole_spec {st : State} {pre post : List Nat} {b size : Nat}
    (hc : FreeList st (pre ++ b :: post))
    (h : ¬ size_t_sub (st.mem b).size size > sizeof_my_metadata_t) :
    ∃ st1, take_block st size b (lastD pre 0) = .ok (b + sizeof_my_metadata_t, st1) ∧
      FreeList st1 (pre ++ post) ∧ st1.mem b = ⟨(st.mem b).size, 0⟩ ∧
      (∀ x, (st1.mem x).size = (st.mem x).size) ∧
      (∀ x, x ≠ b → x ∉ pre → st1.mem x = st.mem x) ∧
      st1.mmap_log = st.mmap_log :=
  ⟨_, take_block_whole h, remove_spec hc⟩

/-- Specification of `take_block` with split, when the header of the rest falls on no node of
the free list. -/
theorem take_block_split_spec {st : State} {pre post : List Nat} {b size : Nat}
    (hc : FreeList st (pre ++ b :: post)) (hle : size ≤ (st.mem b).size)
    (hw : (st.mem b).size < 2 ^ 64)
    (h : (st.mem b).size - size > sizeof_my_metadata_t)
    (hrest : b + sizeof_my_metadata_t + size ∉ pre ++ post) :
    ∃ st1, take_block st size b (lastD pre 0) = .ok (b + sizeof_my_metadata_t, st1) ∧
      FreeList st1 ((b + sizeof_my_metadata_t + size) :: (pre ++ post)) ∧
      st1.mem b = ⟨size, 0⟩ ∧
      (st1.mem (b + sizeof_my_metadata_t + size)).size
        = (st.mem b).size - size - sizeof_my_metadata_t ∧
      (∀ x, x ≠ b → x ≠ b + sizeof_my_metadata_t + size → (st1.mem x).size = (st.mem x).size) ∧
      (∀ x, x ≠ b → x ≠ b + sizeof_my_metadata_t + size → x ∉ pre → st1.mem x = st.mem x) ∧
      st1.mmap_log = st.mmap_log := by
  have hsub : size_t_sub (st.mem b).size size = (st.mem b).size - size :=
    size_t_sub_of_le hle hw
  have h1 : size_t_sub (st.mem b).size size > sizeof_my_metadata_t := by rw [hsub]; exact h
  have hsub2 : size_t_sub ((st.mem b).size - size) sizeof_my_metadata_t
      = (st.mem b).size - size - sizeof_my_metadata_t :=
    size_t_sub_of_le (Nat.le_of_lt h) (by omega)
  obtain ⟨r1, r2, r3, r4, r5⟩ := remove_spec hc
  have hne : b + sizeof_my_metadata_t + size ≠ b := by
    simp [sizeof_my_metadata_t]; omega
  have hne0 : b + sizeof_my_metadata_t + size ≠ 0 := by
    simp [sizeof_my_metadata_t]
  refine ⟨_, take_block_split h1, ?_, ?_, ?_, ?_, ?_, r5⟩
  · refine ⟨rfl, hne0, ?_⟩
    simp only [set_next_next_same]
    apply Chain.frame _ r1
    intro x hx
    have hx1 : x ≠ b + sizeof_my_metadata_t + size := by rintro rfl; exact hrest hx
    rw [set_next_next_other _ _ hx1, set_next_next_other _ _ hx1, set_size_next, set_size_next]
  · show set_next (set_next (set_size (set_size _ _ _) _ _) _ _) _ _ b = _
    rw [set_next_other _ _ hne.symm, set_next_other _ _ hne.symm, set_size_other _ _ hne.symm]
    simp [set_size, r2]
  · simp only [set_next_size, set_size_size_same, hsub, hsub2]
  · intro x hx1 hx2
    simp only [set_next_size]
    rw [set_size_size_other _ _ hx2, set_size_size_other _ _ hx1, r3]
  · intro x hx1 hx2 hx3
    show set_next (set_next (set_size (set_size _ _ _) _ _) _ _) _ _ x = _
    rw [set_next_other _ _ hx2, set_next_other _ _ hx2, set_size_other _ _ hx2,
      set_size_other _ _ hx1, r4 x hx1 hx3]

/-- Effect of `grow_heap` when the fresh page is non-null and is not a node of the free
list: one request of 4096 bytes is logged and a block of 4080 bytes at the page start becomes
the head of the free list. -/
theorem grow_heap_spec {sys : Nat → Nat} {st : State} {l : List Nat} (hc : FreeList st l)
    (h0 : sys st.mmap_log.length ≠ 0) (hfresh : sys st.mmap_log.length ∉ l) :
    ∃ st1, grow_heap sys st = .ok st1 ∧ st1.mmap_log = 4096 :: st.mmap_log ∧
      FreeList st1 (sys st.mmap_log.length :: l) ∧
      (st1.mem (sys st.mmap_log.length)).size = 4096 - sizeof_my_metadata_t ∧
      (∀ x, x ≠ sys st.mmap_log.length → st1.mem x = st.mem x) := by
  refine ⟨{ free_head := sys st.mmap_log.length,
            mem := set_next (set_next (set_size st.mem (sys st.mmap_log.length)
              (size_t_sub 4096 sizeof_my_metadata_t)) (sys st.mmap_log.length) 0)
              (sys st.mmap_log.length) st.free_head,
            mmap_log := 4096 :: st.mmap_log }, ?_, rfl, ?_, ?_, ?_⟩
  · simp [grow_heap, my_add_to_free_list]
  · refine ⟨rfl, h0, ?_⟩
    simp only [set_next_next_same]
    apply Chain.frame _ hc
    intro x hx
    have hx1 : x ≠ sys st.mmap_log.length := by rintro rfl; exact hfresh hx
    rw [set_next_next_other _ _ hx1, set_next_next_other _ _ hx1, set_size_next]
  · simp [size_t_sub, sizeof_my_metadata_t]
  · intro x hx
    show set_next (set_next (set_size _ _ _) _ _) _ _ x = _
    rw [set_next_other _ _ hx, set_next_other _ _ hx, set_size_other _ _ hx]

theorem split_snoc {pre post1 fl : List Nat} {b d : Nat}
    (h : fl ++ [d] = pre ++ b :: post1) (hb : b ≠ d) :
    ∃ post, post1 = post ++ [d] ∧ fl = pre ++ b :: post := by
  rcases List.eq_nil_or_concat post1 with rfl | ⟨q, x, hq⟩
  · have h1 : fl ++ [d] = pre ++ [b] := h
    have := (List.append_inj' h1 rfl).2
    simp at this
    exact absurd this.symm hb
  · rw [List.concat_eq_append] at hq
    subst hq
    have h1 : fl ++ [d] = (pre ++ b :: q) ++ [x] := by simpa using h
    obtain ⟨h2, h3⟩ := List.append_inj' h1 rfl
    simp at h3
    subst h3
    exact ⟨q, rfl, h2⟩

theorem IsBlock.of_free {fl : List Nat} {live : List (Nat × Nat)} {a : Nat} (h : a ∈ fl) :
    IsBlock fl live a := Or.inl h

theorem IsBlock.of_live {fl : List Nat} {live : List (Nat × Nat)} {p r : Nat}
    (h : (p, r) ∈ live) (h16 : sizeof_my_metadata_t ≤ p) :
    IsBlock fl live (p - sizeof_my_metadata_t) :=
  Or.inr ⟨(p, r), h, by show p = _; omega⟩

/-- A block is not the sentinel and not at `NULL`. -/
theorem Inv.block_ne {sys : Nat → Nat} {dummy : Nat} {st : State} {fl : List Nat}
    {live : List (Nat × Nat)} (hp : PagesOK sys dummy) (hI : Inv sys dummy st fl live)
    {a : Nat} (ha : IsBlock fl live a) : a ≠ dummy ∧ a ≠ 0 := by
  obtain ⟨i, _, h1, h2, _⟩ := hI.in_page a ha
  have h3 := hp.dummy_apart i
  have h4 := hp.nonnull i
  simp only [sizeof_my_metadata_t] at *
  constructor <;> omega

/-- The state after `my_initialize` satisfies the invariant, with no block at all. -/
theorem Inv.init {sys : Nat → Nat} {dummy : Nat} (hp : PagesOK sys dummy) (st0 : State) :
    Inv sys dummy ( my_initialize dummy st0) [] [] where
  chain := by
    refine ⟨rfl, hp.dummy_nonnull, ?_⟩
    show (set_next (set_size st0.mem dummy 0) dummy 0 dummy).next = 0
    simp
  dummy_size := by simp [ my_initialize]
  live_nodup := by simp
  live_hdr := by simp
  in_page := by
    intro a ha
    rcases ha with ha | ⟨q, hq, _⟩
    · simp at ha
    · simp at hq
  apart := by
    intro a b ha
    rcases ha with ha | ⟨q, hq, _⟩
    · simp at ha
    · simp at hq

/-- Freeing a live pointer: `my_free` succeeds, the block becomes the head of the free list
and the invariant is kept. -/
theorem Inv.free {sys : Nat → Nat} {dummy : Nat} {st : State} {fl : List Nat}
    {live : List (Nat × Nat)} (hp : PagesOK sys dummy) (hI : Inv sys dummy st fl live)
    {p r : Nat} (hq : (p, r) ∈ live) :
    my_free st p = .ok { st with mem := set_next st.mem (p - sizeof_my_metadata_t) st.free_head,
                                 free_head := p - sizeof_my_metadata_t } ∧
    Inv sys dummy { st with mem := set_next st.mem (p - sizeof_my_metadata_t) st.free_head,
                            free_head := p - sizeof_my_metadata_t }
      ((p - sizeof_my_metadata_t) :: fl) (live.filter fun q => q.1 ≠ p) := by
  obtain ⟨h16, hnf, hsz, hnx⟩ := hI.live_hdr (p, r) hq
  have hblk : IsBlock fl live (p - sizeof_my_metadata_t) := IsBlock.of_live hq h16
  obtain ⟨hnd, hn0⟩ := hI.block_ne hp hblk
  have hnotin : p - sizeof_my_metadata_t ∉ fl ++ [dummy] := by
    simp only [List.mem_append, List.mem_singleton, not_or]
    exact ⟨hnf, hnd⟩
  obtain ⟨a1, a2⟩ := add_spec hI.chain hnotin hn0 hnx
  refine ⟨a1, ?_⟩
  have hsub : ∀ a, IsBlock ((p - sizeof_my_metadata_t) :: fl) (live.filter fun q => q.1 ≠ p) a →
      IsBlock fl live a := by
    intro a ha
    rcases ha with ha | ⟨q, hq1, hq2⟩
    · rcases List.mem_cons.1 ha with rfl | ha
      · exact hblk
      · exact Or.inl ha
    · exact Or.inr ⟨q, (List.mem_filter.1 hq1).1, hq2⟩
  refine ⟨a2, ?_, ?_, ?_, ?_, ?_⟩
  · show (set_next st.mem _ _ dummy).size = 0
    rw [set_next_size]; exact hI.dummy_size
  · exact hI.live_nodup.sublist ((List.filter_sublist live).map Prod.fst)
  · intro q hq1
    obtain ⟨hq2, hq3⟩ := List.mem_filter.1 hq1
    have hq3 : q.1 ≠ p := by simpa using hq3
    obtain ⟨g16, gnf, gsz, gnx⟩ := hI.live_hdr q hq2
    have hne : q.1 - sizeof_my_metadata_t ≠ p - sizeof_my_metadata_t := by
      simp only [sizeof_my_metadata_t] at *; omega
    refine ⟨g16, ?_, ?_, ?_⟩
    · simp only [List.mem_cons, not_or]; exact ⟨hne, gnf⟩
    · show (set_next st.mem _ _ _).size = _
      rw [set_next_size]; exact gsz
    · show (set_next st.mem _ _ _).next = _
      rw [set_next_next_other _ _ hne]; exact gnx
  · intro a ha
    have := hI.in_page a (hsub a ha)
    simpa only [set_next_size] using this
  · intro a b ha hb hab
    have := hI.apart a b (hsub a ha) (hsub b hb) hab
    simpa only [set_next_size] using this

/-- Taking the selected block in a state that satisfies the invariant: `take_block` returns
the payload of a free block `b`, the invariant holds afterwards with the new live pointer,
the recorded size is between `s` and `s + 16` and is not larger than the size of any
remaining free block that would fit, and no page is requested. -/
theorem Inv.take {sys : Nat → Nat} {dummy : Nat} {st : State} {fl : List Nat}
    {live : List (Nat × Nat)} (hp : PagesOK sys dummy) (hI : Inv sys dummy st fl live)
    {s b bp : Nat} (hs : ValidSize s) (hsel : Selected st.mem s (fl ++ [dummy]) b bp) :
    ∃ st1 fl1, take_block st s b bp = .ok (b + sizeof_my_metadata_t, st1) ∧
      Inv sys dummy st1 fl1 ((b + sizeof_my_metadata_t, (st1.mem b).size) :: live) ∧
      b ∈ fl ∧ s ≤ (st1.mem b).size ∧ (st1.mem b).size ≤ s + sizeof_my_metadata_t ∧
      (∀ a ∈ fl1, s ≤ (st1.mem a).size → (st1.mem b).size ≤ (st1.mem a).size) ∧
      st1.mmap_log = st.mmap_log ∧
      ∃ pre post, fl = pre ++ b :: post ∧ bp = lastD pre 0 ∧
        (((st.mem b).size - s ≤ sizeof_my_metadata_t ∧ fl1 = pre ++ post ∧
            ∀ x, (st1.mem x).size = (st.mem x).size) ∨
         ((st.mem b).size - s > sizeof_my_metadata_t ∧
            fl1 = (b + sizeof_my_metadata_t + s) :: (pre ++ post) ∧
            (st1.mem b).size = s ∧
            (st1.mem (b + sizeof_my_metadata_t + s)).size
              = (st.mem b).size - s - sizeof_my_metadata_t ∧
            ∀ x, x ≠ b → x ≠ b + sizeof_my_metadata_t + s →
              (st1.mem x).size = (st.mem x).size)) := by
  have h16 : sizeof_my_metadata_t = 16 := rfl
  obtain ⟨hs8, hsmin, hsmax⟩ := hs
  obtain ⟨pre, post1, hl, hbp, hsb, hpre, hpost⟩ := hsel
  have hbd : b ≠ dummy := by
    rintro rfl
    have := hI.dummy_size
    omega
  obtain ⟨post, hp1, hfl⟩ := split_snoc hl hbd
  subst hp1 hfl hbp
  have hchain : FreeList st (pre ++ b :: (post ++ [dummy])) := by
    have := hI.chain
    simpa using this
  have hnd : (pre ++ b :: (post ++ [dummy])).Nodup := Chain.nodup hchain
  have hbpre : b ∉ pre := by
    intro hm
    have := List.disjoint_of_nodup_append hnd hm
    simp at this
  have hbpost : b ∉ post := by
    have := (List.nodup_cons.1 (List.Nodup.of_append_right hnd)).1
    intro hm; exact this (List.mem_append_left _ hm)
  have hbfl : b ∈ pre ++ b :: post := by simp
  have hbblk : IsBlock (pre ++ b :: post) live b := Or.inl hbfl
  obtain ⟨i, hi, hb1, hb2, hb3, hb4, hb5⟩ := hI.in_page b hbblk
  have hw : (st.mem b).size < 2 ^ 64 := by
    have : (st.mem b).size ≤ 4096 := by omega
    exact lt_of_le_of_lt this (by decide)
  have hlive_ne : ∀ q ∈ live, q.1 - sizeof_my_metadata_t ≠ b := by
    intro q hq e
    exact (hI.live_hdr q hq).2.1 (e ▸ hbfl)
  have hlive_pre : ∀ q ∈ live, q.1 - sizeof_my_metadata_t ∉ pre := by
    intro q hq hm
    exact (hI.live_hdr q hq).2.1 (List.mem_append_left _ hm)
  have hnew_nodup : ∀ r : Nat,
      (((b + sizeof_my_metadata_t, r) :: live).map Prod.fst).Nodup := by
    intro r
    simp only [List.map_cons, List.nodup_cons]
    refine ⟨?_, hI.live_nodup⟩
    intro hm
    obtain ⟨q, hq, hq1⟩ := List.mem_map.1 hm
    apply hlive_ne q hq
    rw [hq1]; omega
  by_cases hsplit : (st.mem b).size - s > sizeof_my_metadata_t
  · -- the block is split
    have hfresh : ∀ a, IsBlock (pre ++ b :: post) live a → a ≠ b + sizeof_my_metadata_t + s := by
      intro a ha e
      have hab : a ≠ b := by omega
      have := hI.apart a b ha hbblk hab
      omega
    have hrd : b + sizeof_my_metadata_t + s ≠ dummy := by
      have := hp.dummy_apart i
      omega
    have hrest : b + sizeof_my_metadata_t + s ∉ pre ++ (post ++ [dummy]) := by
      intro hm
      rcases List.mem_append.1 hm with hm | hm
      · exact hfresh _ (Or.inl (List.mem_append_left _ hm)) rfl
      · rcases List.mem_append.1 hm with hm | hm
        · exact hfresh _ (Or.inl (List.mem_append_right _ (List.mem_cons_of_mem _ hm))) rfl
        · exact hrd (by simpa using hm)
    obtain ⟨st1, e1, c1, m1, szr, sz1, fr1, lg1⟩ :=
      take_block_split_spec hchain hsb hw hsplit hrest
    have eb : (st1.mem b).size = s := by rw [m1]
    have hclass : ∀ a, IsBlock ((b + sizeof_my_metadata_t + s) :: (pre ++ post))
        ((b + sizeof_my_metadata_t, (st1.mem b).size) :: live) a →
        a = b + sizeof_my_metadata_t + s ∨ a = b ∨
        (a ≠ b + sizeof_my_metadata_t + s ∧ a ≠ b ∧ IsBlock (pre ++ b :: post) live a ∧
          (st1.mem a).size = (st.mem a).size) := by
      intro a ha
      rcases ha with ha | ⟨q, hq, hq1⟩
      · rcases List.mem_cons.1 ha with ha | ha
        · exact Or.inl ha
        · have hblk : IsBlock (pre ++ b :: post) live a := by
            refine Or.inl ?_
            rcases List.mem_append.1 ha with h | h
            · exact List.mem_append_left _ h
            · exact List.mem_append_right _ (List.mem_cons_of_mem _ h)
          have hab : a ≠ b := by
            intro e
            rcases List.mem_append.1 ha with h | h
            · exact hbpre (e ▸ h)
            · exact hbpost (e ▸ h)
          exact Or.inr (Or.inr ⟨hfresh a hblk, hab, hblk, sz1 a hab (hfresh a hblk)⟩)
      · rcases List.mem_cons.1 hq with rfl | hq
        · right; left
          have : b + sizeof_my_metadata_t = a + sizeof_my_metadata_t := hq1
          omega
        · have hblk : IsBlock (pre ++ b :: post) live a := Or.inr ⟨q, hq, hq1⟩
          have hab : a ≠ b := by
            have := hlive_ne q hq
            intro e; apply this; omega
          exact Or.inr (Or.inr ⟨hfresh a hblk, hab, hblk, sz1 a hab (hfresh a hblk)⟩)
    refine ⟨st1, (b + sizeof_my_metadata_t + s) :: (pre ++ post), e1, ?_, hbfl, by omega,
      by omega, ?_, lg1, pre, post, rfl, rfl, Or.inr ⟨hsplit, rfl, eb, szr, sz1⟩⟩
    · refine ⟨?_, ?_, hnew_nodup _, ?_, ?_, ?_⟩
      · have : (b + sizeof_my_metadata_t + s) :: (pre ++ post) ++ [dummy]
            = (b + sizeof_my_metadata_t + s) :: (pre ++ (post ++ [dummy])) := by simp
        rw [this]; exact c1
      · rw [sz1 dummy (Ne.symm hbd) (Ne.symm hrd)]; exact hI.dummy_size
      · intro q hq
        rcases List.mem_cons.1 hq with rfl | hq
        · refine ⟨by simp, ?_, ?_, ?_⟩
          · simp only [Nat.add_sub_cancel, List.mem_cons, List.mem_append, not_or]
            exact ⟨by omega, hbpre, hbpost⟩
          · simp only [Nat.add_sub_cancel]
          · simp only [Nat.add_sub_cancel]; rw [m1]
        · obtain ⟨g16, gnf, gsz, gnx⟩ := hI.live_hdr q hq
          have hblk : IsBlock (pre ++ b :: post) live (q.1 - sizeof_my_metadata_t) :=
            Or.inr ⟨q, hq, by omega⟩
          have hqe := fr1 _ (hlive_ne q hq) (hfresh _ hblk) (hlive_pre q hq)
          refine ⟨g16, ?_, ?_, ?_⟩
          · simp only [List.mem_cons, List.mem_append, not_or]
            refine ⟨hfresh _ hblk, ?_, ?_⟩
            · exact hlive_pre q hq
            · intro hm
              exact gnf (List.mem_append_right _ (List.mem_cons_of_mem _ hm))
          · rw [hqe]; exact gsz
          · rw [hqe]; exact gnx
      · intro a ha
        rcases hclass a ha with rfl | rfl | ⟨_, _, hblk, hsz⟩
        · exact ⟨i, by rw [lg1]; exact hi, by omega, by rw [szr]; omega, by omega,
            by rw [szr]; omega, by rw [szr]; omega⟩
        · exact ⟨i, by rw [lg1]; exact hi, hb1, by rw [eb]; omega, hb3,
            by rw [eb]; exact hs8, by rw [eb]; exact hsmin⟩
        · rw [hsz, lg1]; exact hI.in_page a hblk
      · intro a c ha hc hac
        rcases hclass a ha with rfl | rfl | ⟨ha1, ha2, hablk, hasz⟩ <;>
          rcases hclass c hc with rfl | rfl | ⟨hc1, hc2, hcblk, hcsz⟩
        · exact absurd rfl hac
        · rw [szr, eb]; omega
        · have := hI.apart c b hcblk hbblk hc2
          rw [szr, hcsz]; omega
        · rw [szr, eb]; omega
        · exact absurd rfl hac
        · have := hI.apart c a hcblk hbblk hc2
          rw [eb, hcsz]; omega
        · have := hI.apart a b hablk hbblk ha2
          rw [szr, hasz]; omega
        · have := hI.apart a c hablk hbblk ha2
          rw [eb, hasz]; omega
        · rw [hasz, hcsz]; exact hI.apart a c hablk hcblk hac
    · intro a _ _
      omega
  · -- the block is handed out whole
    have hnot : ¬ size_t_sub (st.mem b).size s > sizeof_my_metadata_t := by
      rw [size_t_sub_of_le hsb hw]; exact hsplit
    obtain ⟨st1, e1, c1, m1, sz1, fr1, lg1⟩ := take_block_whole_spec hchain hnot
    have eb : (st1.mem b).size = (st.mem b).size := sz1 b
    have hsub : ∀ a, IsBlock (pre ++ post)
        ((b + sizeof_my_metadata_t, (st1.mem b).size) :: live) a →
        IsBlock (pre ++ b :: post) live a := by
      intro a ha
      rcases ha with ha | ⟨q, hq, hq1⟩
      · refine Or.inl ?_
        rcases List.mem_append.1 ha with h | h
        · exact List.mem_append_left _ h
        · exact List.mem_append_right _ (List.mem_cons_of_mem _ h)
      · rcases List.mem_cons.1 hq with rfl | hq
        · have : b + sizeof_my_metadata_t = a + sizeof_my_metadata_t := hq1
          have : a = b := by omega
          subst this; exact hbblk
        · exact Or.inr ⟨q, hq, hq1⟩
    refine ⟨st1, pre ++ post, e1, ?_, hbfl, by omega, by omega, ?_, lg1, pre, post, rfl, rfl,
      Or.inl ⟨by omega, rfl, sz1⟩⟩
    · refine ⟨?_, ?_, hnew_nodup _, ?_, ?_, ?_⟩
      · have : pre ++ post ++ [dummy] = pre ++ (post ++ [dummy]) := by simp
        rw [this]; exact c1
      · rw [sz1]; exact hI.dummy_size
      · intro q hq
        rcases List.mem_cons.1 hq with rfl | hq
        · refine ⟨by simp, ?_, ?_, ?_⟩
          · simp only [Nat.add_sub_cancel, List.mem_append, not_or]
            exact ⟨hbpre, hbpost⟩
          · simp only [Nat.add_sub_cancel]
          · simp only [Nat.add_sub_cancel]; rw [m1]
        · obtain ⟨g16, gnf, gsz, gnx⟩ := hI.live_hdr q hq
          have hqe := fr1 _ (hlive_ne q hq) (hlive_pre q hq)
          refine ⟨g16, ?_, ?_, ?_⟩
          · simp only [List.mem_append, not_or]
            refine ⟨hlive_pre q hq, ?_⟩
            intro hm
            exact gnf (List.mem_append_right _ (List.mem_cons_of_mem _ hm))
          · rw [hqe]; exact gsz
          · rw [hqe]; exact gnx
      · intro a ha
        rw [sz1, lg1]; exact hI.in_page a (hsub a ha)
      · intro a c ha hc hac
        rw [sz1, sz1]; exact hI.apart a c (hsub a ha) (hsub c hc) hac
    · intro a ha hsa
      rw [sz1, sz1] at *
      have hmem : a ∈ pre ∨ a ∈ post := List.mem_append.1 ha
      rcases hmem with h | h
      · have := hpre a h hsa; omega
      · exact hpost a (List.mem_append_left _ h) hsa

/-- Requesting a page in a state that satisfies the invariant: `grow_heap` succeeds, logs one
request of 4096 bytes and puts a free block of 4080 bytes at the start of the new page. -/
theorem Inv.grow {sys : Nat → Nat} {dummy : Nat} {st : State} {fl : List Nat}
    {live : List (Nat × Nat)} (hp : PagesOK sys dummy) (hI : Inv sys dummy st fl live) :
    ∃ st1, grow_heap sys st = .ok st1 ∧
      Inv sys dummy st1 (sys st.mmap_log.length :: fl) live ∧
      st1.mmap_log = 4096 :: st.mmap_log ∧
      (st1.mem (sys st.mmap_log.length)).size = 4096 - sizeof_my_metadata_t ∧
      (∀ x, x ≠ sys st.mmap_log.length → st1.mem x = st.mem x) := by
  have h16 : sizeof_my_metadata_t = 16 := rfl
  have hfresh : ∀ a, IsBlock fl live a → a ≠ sys st.mmap_log.length := by
    intro a ha e
    obtain ⟨i, hi, h1, h2, _⟩ := hI.in_page a ha
    have := hp.disjoint i st.mmap_log.length (by omega)
    omega
  have hpd : sys st.mmap_log.length ≠ dummy := by
    have := hp.dummy_apart st.mmap_log.length
    omega
  have hnotin : sys st.mmap_log.length ∉ fl ++ [dummy] := by
    intro hm
    rcases List.mem_append.1 hm with hm | hm
    · exact hfresh _ (Or.inl hm) rfl
    · exact hpd (by simpa using hm)
  obtain ⟨st1, e1, lg1, c1, sz1, fr1⟩ := grow_heap_spec hI.chain (hp.nonnull _) hnotin
  have hclass : ∀ a, IsBlock (sys st.mmap_log.length :: fl) live a →
      a = sys st.mmap_log.length ∨
      (a ≠ sys st.mmap_log.length ∧ IsBlock fl live a ∧ st1.mem a = st.mem a) := by
    intro a ha
    rcases ha with ha | ha
    · rcases List.mem_cons.1 ha with ha | ha
      · exact Or.inl ha
      · exact Or.inr ⟨hfresh a (Or.inl ha), Or.inl ha, fr1 a (hfresh a (Or.inl ha))⟩
    · exact Or.inr ⟨hfresh a (Or.inr ha), Or.inr ha, fr1 a (hfresh a (Or.inr ha))⟩
  refine ⟨st1, e1, ⟨c1, ?_, hI.live_nodup, ?_, ?_, ?_⟩, lg1, sz1, fr1⟩
  · rw [fr1 dummy (Ne.symm hpd)]; exact hI.dummy_size
  · intro q hq
    obtain ⟨g16, gnf, gsz, gnx⟩ := hI.live_hdr q hq
    have hblk : IsBlock fl live (q.1 - sizeof_my_metadata_t) := Or.inr ⟨q, hq, by omega⟩
    refine ⟨g16, ?_, ?_, ?_⟩
    · simp only [List.mem_cons, not_or]
      exact ⟨hfresh _ hblk, gnf⟩
    · rw [fr1 _ (hfresh _ hblk)]; exact gsz
    · rw [fr1 _ (hfresh _ hblk)]; exact gnx
  · intro a ha
    rcases hclass a ha with rfl | ⟨_, hblk, hm⟩
    · refine ⟨st.mmap_log.length, by rw [lg1]; simp, le_refl _, by rw [sz1]; omega, by simp,
        by rw [sz1, h16]; decide, by rw [sz1]; omega⟩
    · obtain ⟨i, hi, hrest⟩ := hI.in_page a hblk
      refine ⟨i, by rw [lg1]; simp; omega, ?_⟩
      rw [hm]; exact hrest
  · intro a c ha hc hac
    rcases hclass a ha with rfl | ⟨ha1, hablk, ham⟩ <;>
      rcases hclass c hc with rfl | ⟨hc1, hcblk, hcm⟩
    · exact absurd rfl hac
    · obtain ⟨i, hi, h1, h2, _⟩ := hI.in_page c hcblk
      have := hp.disjoint i st.mmap_log.length (by omega)
      rw [sz1, hcm]; omega
    · obtain ⟨i, hi, h1, h2, _⟩ := hI.in_page a hablk
      have := hp.disjoint i st.mmap_log.length (by omega)
      rw [sz1, ham]; omega
    · rw [ham, hcm]; exact hI.apart a c hablk hcblk hac

theorem my_malloc_succ (sys : Nat → Nat) (fuel depth : Nat) (st : State) (size : Nat) :
    my_malloc sys fuel (depth + 1) st size =
      (best_fit_loop st.mem size fuel st.free_head 0 0 0).bind fun r =>
        if r.1 = 0 then (grow_heap sys st).bind fun st1 => my_malloc sys fuel depth st1 size
        else take_block st size r.1 r.2 := rfl

/-- One activation of `my_malloc` on a well-formed free list: either no node is large enough
and the call continues as the call on the grown heap, or the best-fit node is taken. -/
theorem my_malloc_step {st : State} {l : List Nat} (sys : Nat → Nat) (s : Nat)
    (hc : FreeList st l) :
    ((∀ a ∈ l, (st.mem a).size < s) ∧ ∀ fuel depth, l.length < fuel →
        my_malloc sys fuel (depth + 1) st s
          = (grow_heap sys st).bind fun st1 => my_malloc sys fuel depth st1 s) ∨
    (∃ b bp, b ≠ 0 ∧ Selected st.mem s l b bp ∧ ∀ fuel depth, l.length < fuel →
        my_malloc sys fuel (depth + 1) st s = take_block st s b bp) := by
  obtain ⟨best, bp, hloop, hcase⟩ := best_fit_loop_spec s hc
  rcases hcase with ⟨h0, hall⟩ | ⟨hne, hsel⟩
  · left
    refine ⟨hall, ?_⟩
    intro fuel depth hf
    rw [my_malloc_succ, hloop fuel hf]
    simp [Outcome.bind, h0]
  · right
    refine ⟨best, bp, hne, hsel, ?_⟩
    intro fuel depth hf
    rw [my_malloc_succ, hloop fuel hf]
    simp [Outcome.bind, hne]

/-- A result of `my_malloc` does not depend on the bounds `fuel` and `depth`. -/
theorem my_malloc_mono (sys : Nat → Nat) (s : Nat) :
    ∀ (depth depth1 fuel fuel1 : Nat) (st : State) (r : Nat × State),
      depth ≤ depth1 → fuel ≤ fuel1 → my_malloc sys fuel depth st s = .ok r →
      my_malloc sys fuel1 depth1 st s = .ok r
  | 0, _, _, _, _, _, _, _, h => by simp [my_malloc] at h
  | d + 1, depth1, fuel, fuel1, st, r, hd, hf, h => by
    obtain ⟨e, rfl⟩ : ∃ e, depth1 = e + 1 := ⟨depth1 - 1, by omega⟩
    rw [my_malloc_succ] at h ⊢
    cases hl : best_fit_loop st.mem s fuel st.free_head 0 0 0 with
    | assert_fail => rw [hl] at h; simp [Outcome.bind] at h
    | out_of_fuel => rw [hl] at h; simp [Outcome.bind] at h
    | ok x =>
      rw [hl] at h
      rw [best_fit_loop_mono st.mem s fuel fuel1 _ _ _ _ x hf hl]
      simp only [Outcome.bind] at h ⊢
      split
      · next hx =>
        rw [if_pos hx] at h
        cases hg : grow_heap sys st with
        | assert_fail => rw [hg] at h; simp at h
        | out_of_fuel => rw [hg] at h; simp at h
        | ok st1 =>
          rw [hg] at h
          simp only at h ⊢
          exact my_malloc_mono sys s d e fuel fuel1 st1 r (by omega) hf h
      · next hx =>
        rw [if_neg hx] at h
        exact h

/-- Specification of `my_malloc` on a state that satisfies the invariant, for a valid size:
the call returns with two activations at most, hands out the payload of a block `b`, keeps the
invariant, and requests one page exactly when no free block is large enough. -/
theorem Inv.malloc {sys : Nat → Nat} {dummy : Nat} {st : State} {fl : List Nat}
    {live : List (Nat × Nat)} (hp : PagesOK sys dummy) (hI : Inv sys dummy st fl live)
    {s : Nat} (hs : ValidSize s) :
    ∃ b st1 fl1,
      (∀ fuel depth, fl.length + 3 ≤ fuel → 2 ≤ depth →
        my_malloc sys fuel depth st s = .ok (b + sizeof_my_metadata_t, st1)) ∧
      Inv sys dummy st1 fl1 ((b + sizeof_my_metadata_t, (st1.mem b).size) :: live) ∧
      s ≤ (st1.mem b).size ∧ (st1.mem b).size ≤ s + sizeof_my_metadata_t ∧
      (∀ a ∈ fl1, s ≤ (st1.mem a).size → (st1.mem b).size ≤ (st1.mem a).size) ∧
      (((∃ a ∈ fl, s ≤ (st.mem a).size) ∧ b ∈ fl ∧ st1.mmap_log = st.mmap_log ∧
          ∀ fuel depth, fl.length + 2 ≤ fuel → 1 ≤ depth →
            my_malloc sys fuel depth st s = .ok (b + sizeof_my_metadata_t, st1)) ∨
       ((∀ a ∈ fl, (st.mem a).size < s) ∧ st1.mmap_log = 4096 :: st.mmap_log ∧
          b = sys st.mmap_log.length)) := by
  have h16 : sizeof_my_metadata_t = 16 := rfl
  have hlen : (fl ++ [dummy]).length = fl.length + 1 := by simp
  rcases my_malloc_step sys s hI.chain with ⟨hall, hstep⟩ | ⟨b, bp, _, hsel, hstep⟩
  · -- no free block fits: a page is requested and the search is retried
    obtain ⟨st1, eg, hI1, lg1, sz1, fr1⟩ := Inv.grow hp hI
    have hlen1 : ((sys st.mmap_log.length :: fl) ++ [dummy]).length = fl.length + 2 := by simp
    rcases my_malloc_step sys s hI1.chain with ⟨hall1, _⟩ | ⟨b, bp, _, hsel, hstep1⟩
    · exfalso
      have := hall1 (sys st.mmap_log.length) (by simp)
      have := hs.2.2
      omega
    · obtain ⟨st2, fl2, et, hI2, _, k1, k2, k3, lg2, _⟩ := Inv.take hp hI1 hs hsel
      refine ⟨b, st2, fl2, ?_, hI2, k1, k2, k3, Or.inr ⟨?_, by rw [lg2, lg1], ?_⟩⟩
      · intro fuel depth hf hd
        obtain ⟨d, rfl⟩ : ∃ d, depth = d + 1 + 1 := ⟨depth - 2, by omega⟩
        rw [hstep fuel (d + 1) (by omega), eg]
        show my_malloc sys fuel (d + 1) st1 s = _
        rw [hstep1 fuel d (by omega), et]
      · intro a ha
        exact hall a (List.mem_append_left _ ha)
      · by_contra hne
        obtain ⟨hmem, hfit, _⟩ := hsel.minimum
        have hmem1 : b ∈ fl ++ [dummy] := by
          rcases List.mem_append.1 hmem with h | h
          · rcases List.mem_cons.1 h with h | h
            · exact absurd h hne
            · exact List.mem_append_left _ h
          · exact List.mem_append_right _ h
        have := hall b hmem1
        rw [fr1 b hne] at hfit
        omega
  · obtain ⟨st1, fl1, et, hI1, hb, k1, k2, k3, lg1, _⟩ := Inv.take hp hI hs hsel
    have hret : ∀ fuel depth, fl.length + 2 ≤ fuel → 1 ≤ depth →
        my_malloc sys fuel depth st s = .ok (b + sizeof_my_metadata_t, st1) := by
      intro fuel depth hf hd
      obtain ⟨d, rfl⟩ : ∃ d, depth = d + 1 := ⟨depth - 1, by omega⟩
      rw [hstep fuel d (by omega), et]
    refine ⟨b, st1, fl1, ?_, hI1, k1, k2, k3, Or.inl ⟨⟨b, hb, ?_⟩, hb, lg1, hret⟩⟩
    · intro fuel depth hf hd
      exact hret fuel depth (by omega) (by omega)
    · obtain ⟨_, _, _, _, h, _⟩ := hsel
      exact h

/-- Every reachable state satisfies the invariant. -/
theorem Reachable.inv {sys : Nat → Nat} {dummy : Nat} (hp : PagesOK sys dummy) {st : State}
    {live : List (Nat × Nat)} (h : Reachable sys dummy st live) :
    ∃ fl, Inv sys dummy st fl live := by
  induction h with
  | init st0 => exact ⟨[], Inv.init hp st0⟩
  | malloc fuel depth size p st1 _ hs hm ih =>
    obtain ⟨fl, hI⟩ := ih
    obtain ⟨b, st2, fl1, hret, hI1, _⟩ := Inv.malloc hp hI hs
    have h1 := my_malloc_mono sys size depth (max depth 2) fuel (max fuel (fl.length + 3)) _ _
      (le_max_left _ _) (le_max_left _ _) hm
    rw [hret _ _ (le_max_right _ _) (le_max_right _ _)] at h1
    have h2 := Outcome.ok.inj h1
    have hp1 : p = b + sizeof_my_metadata_t := (congrArg Prod.fst h2).symm
    have hs1 : st1 = st2 := (congrArg Prod.snd h2).symm
    subst hp1 hs1
    refine ⟨fl1, ?_⟩
    simpa only [Nat.add_sub_cancel] using hI1
  | free p r st1 _ hq hf ih =>
    obtain ⟨fl, hI⟩ := ih
    obtain ⟨e, hI1⟩ := Inv.free hp hI hq
    rw [e] at hf
    have := Outcome.ok.inj hf
    subst this
    exact ⟨_, hI1⟩

theorem remove_log (st : State) (b prev : Nat) :
    (my_remove_from_free_list st b prev).mmap_log = st.mmap_log := by
  by_cases h : prev = 0
  · subst h; rw [remove_at_head]
  · rw [remove_after st b h]

/-- The second part of `my_malloc` always returns the payload address of `best` and requests
no page. -/
theorem take_block_total (st : State) (s b bp : Nat) :
    ∃ st1, take_block st s b bp = .ok (b + sizeof_my_metadata_t, st1) ∧
      st1.mmap_log = st.mmap_log := by
  by_cases h : size_t_sub (st.mem b).size s > sizeof_my_metadata_t
  · exact ⟨_, take_block_split h, remove_log st b bp⟩
  · exact ⟨_, take_block_whole h, remove_log st b bp⟩

/-- What a result of the search loop on a well-formed free list means. -/
theorem loop_selected {st : State} {l : List Nat} {s fuel b bp : Nat} (hc : FreeList st l)
    (hloop : best_fit_loop st.mem s fuel st.free_head 0 0 0 = .ok (b, bp)) :
    (∀ fuel1, l.length < fuel1 →
      best_fit_loop st.mem s fuel1 st.free_head 0 0 0 = .ok (b, bp)) ∧
    ((b = 0 ∧ ∀ a ∈ l, (st.mem a).size < s) ∨ (b ≠ 0 ∧ Selected st.mem s l b bp)) := by
  obtain ⟨b1, bp1, h1, h2⟩ := best_fit_loop_spec s hc
  have h3 := best_fit_loop_mono st.mem s fuel (max fuel (l.length + 1)) _ _ _ _ _
    (le_max_left _ _) hloop
  rw [h1 _ (le_max_right _ _)] at h3
  have h4 := Outcome.ok.inj h3
  have e1 : b1 = b := congrArg Prod.fst h4
  have e2 : bp1 = bp := congrArg Prod.snd h4
  subst e1 e2
  exact ⟨h1, h2⟩

theorem erase_mid {pre post : List Nat} {b : Nat} (h : b ∉ pre) :
    (pre ++ b :: post).erase b = pre ++ post := by
  rw [List.erase_append_right _ h]
  simp

/-- Taking the selected block `b` of a well-formed free list `l`: without split the list
loses `b`; with split, when the header of the rest is on no node of the list, the rest is
put in front. -/
theorem take_block_found {st : State} {l : List Nat} {s b bp : Nat} (hc : FreeList st l)
    (hsel : Selected st.mem s l b bp) (hw : (st.mem b).size < 2 ^ 64) :
    ∃ st1, take_block st s b bp = .ok (b + sizeof_my_metadata_t, st1) ∧
      st1.mmap_log = st.mmap_log ∧ b ∉ l.erase b ∧
      ((st.mem b).size - s ≤ sizeof_my_metadata_t →
        FreeList st1 (l.erase b) ∧ st1.mem b = ⟨(st.mem b).size, 0⟩ ∧
        ∀ x, (st1.mem x).size = (st.mem x).size) ∧
      ((st.mem b).size - s > sizeof_my_metadata_t → b + sizeof_my_metadata_t + s ∉ l →
        FreeList st1 ((b + sizeof_my_metadata_t + s) :: l.erase b) ∧ st1.mem b = ⟨s, 0⟩ ∧
        (st1.mem (b + sizeof_my_metadata_t + s)).size
          = (st.mem b).size - s - sizeof_my_metadata_t ∧
        ∀ x, x ≠ b → x ≠ b + sizeof_my_metadata_t + s →
          (st1.mem x).size = (st.mem x).size) := by
  obtain ⟨pre, post, hl, hbp, hsb, _, _⟩ := hsel
  subst hl hbp
  have hnd : (pre ++ b :: post).Nodup := Chain.nodup hc
  have hbpre : b ∉ pre := by
    intro hm
    have := List.disjoint_of_nodup_append hnd hm
    simp at this
  have hbpost : b ∉ post := (List.nodup_cons.1 (List.Nodup.of_append_right hnd)).1
  have her : (pre ++ b :: post).erase b = pre ++ post := erase_mid hbpre
  obtain ⟨st1, e1, lg1⟩ := take_block_total st s b (lastD pre 0)
  refine ⟨st1, e1, lg1, ?_, ?_, ?_⟩
  · rw [her]; simp [hbpre, hbpost]
  · intro hle
    have hnot : ¬ size_t_sub (st.mem b).size s > sizeof_my_metadata_t := by
      rw [size_t_sub_of_le hsb hw]; omega
    obtain ⟨st2, e2, c2, m2, sz2, _, _⟩ := take_block_whole_spec hc hnot
    rw [e1] at e2
    have := congrArg Prod.snd (Outcome.ok.inj e2)
    subst this
    rw [her]
    exact ⟨c2, m2, sz2⟩
  · intro hgt hrest
    have hrest1 : b + sizeof_my_metadata_t + s ∉ pre ++ post := by
      intro hm
      apply hrest
      rcases List.mem_append.1 hm with h | h
      · exact List.mem_append_left _ h
      · exact List.mem_append_right _ (List.mem_cons_of_mem _ h)
    obtain ⟨st2, e2, c2, m2, szr, sz2, _, _⟩ := take_block_split_spec hc hsb hw hgt hrest1
    rw [e1] at e2
    have := congrArg Prod.snd (Outcome.ok.inj e2)
    subst this
    rw [her]
    exact ⟨c2, m2, szr, sz2⟩

theorem two_free_list : FreeList two_free [4096, 4144, 64] :=
  ⟨rfl, by decide, rfl, by decide, rfl, by decide, rfl⟩

theorem one_page_list : FreeList one_page [4096, 64] :=
  ⟨rfl, by decide, rfl, by decide, rfl⟩

theorem page_at_ok : PagesOK page_at dummy_at where
  nonnull := by intro i; simp [page_at]
  disjoint := by intro i j h; simp only [page_at]; omega
  dummy_nonnull := by decide
  dummy_apart := by intro i; simp only [page_at, dummy_at, sizeof_my_metadata_t]; omega

theorem valid_800 : ValidSize 800 := ⟨by decide, by decide, by decide⟩

theorem first_alloc_eq :
    my_malloc page_at 3 2 ( my_initialize dummy_at blank) 800 = .ok first_alloc := rfl

theorem first_alloc_reach : Reachable page_at dummy_at first_alloc.2 [(4112, 800)] :=
  Reachable.malloc 3 2 800 first_alloc.1 first_alloc.2 (Reachable.init blank) valid_800
    first_alloc_eq

/-- The headers outside the free list, other than the header of the rest of a split, are not
touched by `take_block`. -/
theorem take_block_frame {st st1 : State} {l : List Nat} {s b bp p : Nat}
    (hc : FreeList st l) (hsel : Selected st.mem s l b bp)
    (h : take_block st s b bp = .ok (p, st1)) :
    ∀ x, x ∉ l → x ≠ b + sizeof_my_metadata_t + s → st1.mem x = st.mem x := by
  obtain ⟨pre, post, hl, hbp, _, _, _⟩ := hsel
  subst hl hbp
  obtain ⟨_, _, _, fr, _⟩ := remove_spec hc
  intro x hx hxr
  have hxb : x ≠ b := by rintro rfl; exact hx (by simp)
  have hxp : x ∉ pre := fun hm => hx (List.mem_append_left _ hm)
  by_cases hs : size_t_sub (st.mem b).size s > sizeof_my_metadata_t
  · rw [take_block_split hs] at h
    have := congrArg Prod.snd (Outcome.ok.inj h)
    subst this
    show set_next (set_next (set_size (set_size _ _ _) _ _) _ _) _ _ x = _
    rw [set_next_other _ _ hxr, set_next_other _ _ hxr, set_size_other _ _ hxr,
      set_size_other _ _ hxb, fr x hxb hxp]
  · rw [take_block_whole hs] at h
    have := congrArg Prod.snd (Outcome.ok.inj h)
    subst this
    exact fr x hxb hxp

/-- When a single block of the free list is large enough, `my_malloc` takes that block. -/
theorem my_malloc_unique_fit (sys : Nat → Nat) {st : State} {l : List Nat} {s b : Nat}
    (hc : FreeList st l) (hb : b ∈ l) (hfit : s ≤ (st.mem b).size)
    (hothers : ∀ a ∈ l, a ≠ b → (st.mem a).size < s) :
    ∃ bp, Selected st.mem s l b bp ∧ ∀ fuel depth, l.length < fuel →
      my_malloc sys fuel (depth + 1) st s = take_block st s b bp := by
  rcases my_malloc_step sys s hc with ⟨hall, _⟩ | ⟨b1, bp, _, hsel, hstep⟩
  · have := hall b hb; omega
  · have hm := hsel.minimum
    have : b1 = b := by
      by_contra hne
      have := hothers b1 hm.1 hne
      omega
    subst this
    exact ⟨bp, hsel, hstep⟩

/-- `my_malloc` when `b` is the only block of the free list that is large enough and the
rest after `s` bytes is larger than a header: `b` is split. -/
theorem my_malloc_split_unique (sys : Nat → Nat) {st : State} {l : List Nat} {s b : Nat}
    (hc : FreeList st l) (hb : b ∈ l) (hfit : s ≤ (st.mem b).size)
    (hothers : ∀ a ∈ l, a ≠ b → (st.mem a).size < s)
    (hw : (st.mem b).size < 2 ^ 64)
    (hsplit : (st.mem b).size - s > sizeof_my_metadata_t)
    (hrest : b + sizeof_my_metadata_t + s ∉ l) :
    ∃ st1, (∀ fuel depth, l.length < fuel →
        my_malloc sys fuel (depth + 1) st s = .ok (b + sizeof_my_metadata_t, st1)) ∧
      FreeList st1 ((b + sizeof_my_metadata_t + s) :: l.erase b) ∧
      st1.mem b = ⟨s, 0⟩ ∧
      (st1.mem (b + sizeof_my_metadata_t + s)).size
        = (st.mem b).size - s - sizeof_my_metadata_t ∧
      (∀ x, x ≠ b → x ≠ b + sizeof_my_metadata_t + s →
        (st1.mem x).size = (st.mem x).size) ∧
      (∀ x, x ∉ l → x ≠ b + sizeof_my_metadata_t + s → st1.mem x = st.mem x) ∧
      st1.mmap_log = st.mmap_log := by
  obtain ⟨bp, hsel, hstep⟩ := my_malloc_unique_fit sys hc hb hfit hothers
  obtain ⟨st1, e1, lg1, _, _, hsp⟩ := take_block_found hc hsel hw
  obtain ⟨c1, m1, szr, sz1⟩ := hsp hsplit hrest
  refine ⟨st1, ?_, c1, m1, szr, sz1, take_block_frame hc hsel e1, lg1⟩
  intro fuel depth hf
  rw [hstep fuel depth hf, e1]

/-- In a chain, the link of the last node of a non-empty initial part `pre` is the node that
follows `pre`. -/
theorem Chain.pred_link {mem : Nat → my_metadata_t} {h : Nat} {post : List Nat} :
    ∀ (pre : List Nat) (q hd : Nat), Chain mem hd (q :: pre ++ h :: post) →
      (mem (lastD pre q)).next = h
  | [], q, hd, hc => by
    obtain ⟨_, _, h3, _⟩ := hc
    exact h3
  | p :: pre, q, hd, hc => by
    obtain ⟨_, _, h3⟩ := hc
    exact Chain.pred_link pre p (mem q).next h3

/-- In a chain that ends with `d`, every node before `d` has a non-null link. -/
theorem Chain.link_ne_zero {mem : Nat → my_metadata_t} {d : Nat} :
    ∀ (l : List Nat) (hd a : Nat), Chain mem hd (l ++ [d]) → a ∈ l → (mem a).next ≠ 0
  | [], _, _, _, ha => by simp at ha
  | b :: l, hd, a, hc, ha => by
    obtain ⟨_, _, h3⟩ := hc
    rcases List.mem_cons.1 ha with rfl | ha
    · cases l with
      | nil =>
        obtain ⟨e, n, _⟩ := h3
        omega
      | cons c l =>
        obtain ⟨e, n, _⟩ := h3
        omega
    · exact Chain.link_ne_zero l (mem b).next a h3 ha

/-- The search loop never fails an assertion. -/
theorem best_fit_loop_no_assert (mem : Nat → my_metadata_t) (size : Nat) :
    ∀ (fuel cur prev best best_prev : Nat),
      best_fit_loop mem size fuel cur prev best best_prev ≠ .assert_fail
  | 0, _, _, _, _ => by simp [best_fit_loop]
  | f + 1, cur, prev, best, best_prev => by
    unfold best_fit_loop
    split
    · simp
    · split
      · exact best_fit_loop_no_assert mem size f _ _ _ _
      · exact best_fit_loop_no_assert mem size f _ _ _ _

theorem first_freed_eq : my_free first_alloc.2 4112 = .ok first_freed := rfl

theorem first_freed_reach : Reachable page_at dummy_at first_freed [] :=
  Reachable.free 4112 800 first_freed first_alloc_reach (List.mem_cons_self _ _)
    first_freed_eq

/-- `grow_heap` always succeeds: the link of the new block is cleared before the block is
inserted. -/
theorem grow_heap_ok (sys : Nat → Nat) (st : State) :
    ∃ st1, grow_heap sys st = .ok st1 := by
  simp [grow_heap, my_add_to_free_list]

/-- `my_malloc` never fails an assertion, in any state and for any bounds. -/
theorem my_malloc_no_assert (sys : Nat → Nat) (s : Nat) :
    ∀ (depth fuel : Nat) (st : State), my_malloc sys fuel depth st s ≠ .assert_fail
  | 0, _, _ => by simp [my_malloc]
  | d + 1, fuel, st => by
    rw [my_malloc_succ]
    cases hl : best_fit_loop st.mem s fuel st.free_head 0 0 0 with
    | assert_fail => exact absurd hl (best_fit_loop_no_assert _ _ _ _ _ _ _)
    | out_of_fuel => simp [Outcome.bind]
    | ok x =>
      simp only [Outcome.bind]
      by_cases hx : x.1 = 0
      · rw [if_pos hx]
        obtain ⟨st1, eg⟩ := grow_heap_ok sys st
        rw [eg]
        exact my_malloc_no_assert sys s d fuel st1
      · rw [if_neg hx]
        obtain ⟨st1, e, _⟩ := take_block_total st s x.1 x.2
        rw [e]
        simp

/-- Detailed specification of `my_malloc` on a state that satisfies the invariant, for a
valid size.  The block `b` is selected in the state `stm`, which is the state of the call
when some free block fits and the state after `grow_heap` otherwise; `take_block` then
yields the result of the call. -/
theorem Inv.malloc_detail {sys : Nat → Nat} {dummy : Nat} {st : State} {fl : List Nat}
    {live : List (Nat × Nat)} (hp : PagesOK sys dummy) (hI : Inv sys dummy st fl live)
    {s : Nat} (hs : ValidSize s) :
    ∃ stm flm b bp st1 fl1,
      ((stm = st ∧ flm = fl) ∨
       ((∀ a ∈ fl, (st.mem a).size < s) ∧ grow_heap sys st = .ok stm ∧
        flm = sys st.mmap_log.length :: fl ∧ stm.mmap_log = 4096 :: st.mmap_log ∧
        (stm.mem (sys st.mmap_log.length)).size = 4096 - sizeof_my_metadata_t ∧
        (∀ x, x ≠ sys st.mmap_log.length → stm.mem x = st.mem x) ∧
        ¬ IsBlock fl live (sys st.mmap_log.length))) ∧
      Inv sys dummy stm flm live ∧
      (∀ fuel, flm.length + 1 < fuel →
        best_fit_loop stm.mem s fuel stm.free_head 0 0 0 = .ok (b, bp)) ∧
      b ≠ 0 ∧ Selected stm.mem s (flm ++ [dummy]) b bp ∧
      take_block stm s b bp = .ok (b + sizeof_my_metadata_t, st1) ∧
      (∀ fuel depth, fl.length + 3 ≤ fuel → 2 ≤ depth →
        my_malloc sys fuel depth st s = .ok (b + sizeof_my_metadata_t, st1)) ∧
      (∀ fuel depth p st2, my_malloc sys fuel depth st s = .ok (p, st2) →
        p = b + sizeof_my_metadata_t ∧ st2 = st1) ∧
      Inv sys dummy st1 fl1 ((b + sizeof_my_metadata_t, (st1.mem b).size) :: live) ∧
      st1.mmap_log = stm.mmap_log ∧
      ∃ pre post, flm = pre ++ b :: post ∧ bp = lastD pre 0 ∧
        (((stm.mem b).size - s ≤ sizeof_my_metadata_t ∧ fl1 = pre ++ post ∧
            ∀ x, (st1.mem x).size = (stm.mem x).size) ∨
         ((stm.mem b).size - s > sizeof_my_metadata_t ∧
            fl1 = (b + sizeof_my_metadata_t + s) :: (pre ++ post) ∧
            (st1.mem b).size = s ∧
            (st1.mem (b + sizeof_my_metadata_t + s)).size
              = (stm.mem b).size - s - sizeof_my_metadata_t ∧
            ∀ x, x ≠ b → x ≠ b + sizeof_my_metadata_t + s →
              (st1.mem x).size = (stm.mem x).size)) := by
  have h16 : sizeof_my_metadata_t = 16 := rfl
  have hdet : ∀ {b : Nat} {st1 : State},
      (∀ fuel depth, fl.length + 3 ≤ fuel → 2 ≤ depth →
        my_malloc sys fuel depth st s = .ok (b + sizeof_my_metadata_t, st1)) →
      ∀ fuel depth p st2, my_malloc sys fuel depth st s = .ok (p, st2) →
        p = b + sizeof_my_metadata_t ∧ st2 = st1 := by
    intro b st1 hret fuel depth p st2 hm
    have h1 := my_malloc_mono sys s depth (max depth 2) fuel (max fuel (fl.length + 3)) _ _
      (le_max_left _ _) (le_max_left _ _) hm
    rw [hret _ _ (le_max_right _ _) (le_max_right _ _)] at h1
    have h2 := Outcome.ok.inj h1
    exact ⟨(congrArg Prod.fst h2).symm, (congrArg Prod.snd h2).symm⟩
  obtain ⟨best, bp, hloop, hcase⟩ := best_fit_loop_spec s hI.chain
  rcases hcase with ⟨h0, hall⟩ | ⟨hne, hsel⟩
  · -- no free block fits: a page is requested and the search is retried
    obtain ⟨stm, eg, hIm, lgm, szm, frm⟩ := Inv.grow hp hI
    have hfresh : ¬ IsBlock fl live (sys st.mmap_log.length) := by
      intro ha
      obtain ⟨i, hi, h1, h2, _⟩ := hI.in_page _ ha
      have := hp.disjoint i st.mmap_log.length (by omega)
      omega
    obtain ⟨b, bp1, hloop1, hcase1⟩ := best_fit_loop_spec s hIm.chain
    rcases hcase1 with ⟨_, hall1⟩ | ⟨hne1, hsel1⟩
    · exfalso
      have := hall1 (sys st.mmap_log.length) (by simp)
      have := hs.2.2
      omega
    · obtain ⟨st1, fl1, et, hI1, _, _, _, _, lg1, hdetail⟩ := Inv.take hp hIm hs hsel1
      have hret : ∀ fuel depth, fl.length + 3 ≤ fuel → 2 ≤ depth →
          my_malloc sys fuel depth st s = .ok (b + sizeof_my_metadata_t, st1) := by
        intro fuel depth hf hd
        obtain ⟨d, rfl⟩ : ∃ d, depth = d + 1 + 1 := ⟨depth - 2, by omega⟩
        rw [my_malloc_succ, hloop fuel (by simp; omega)]
        simp only [Outcome.bind, h0, if_true, eg]
        rw [my_malloc_succ, hloop1 fuel (by simp; omega)]
        simp only [Outcome.bind, if_neg hne1]
        exact et
      refine ⟨stm, _, b, bp1, st1, fl1, Or.inr ⟨?_, eg, rfl, lgm, szm, frm, hfresh⟩, hIm, ?_,
        hne1, hsel1, et, hret, hdet hret, hI1, lg1, hdetail⟩
      · intro a ha
        exact hall a (List.mem_append_left _ ha)
      · intro fuel hf
        exact hloop1 fuel (by simp at hf ⊢; omega)
  · obtain ⟨st1, fl1, et, hI1, _, _, _, _, lg1, hdetail⟩ := Inv.take hp hI hs hsel
    have hret : ∀ fuel depth, fl.length + 3 ≤ fuel → 2 ≤ depth →
        my_malloc sys fuel depth st s = .ok (best + sizeof_my_metadata_t, st1) := by
      intro fuel depth hf hd
      obtain ⟨d, rfl⟩ : ∃ d, depth = d + 1 := ⟨depth - 1, by omega⟩
      rw [my_malloc_succ, hloop fuel (by simp; omega)]
      simp only [Outcome.bind, if_neg hne]
      exact et
    refine ⟨st, fl, best, bp, st1, fl1, Or.inl ⟨rfl, rfl⟩, hI, ?_, hne, hsel, et, hret,
      hdet hret, hI1, lg1, hdetail⟩
    intro fuel hf
    exact hloop fuel (by simp; omega)

/-- A run from a reachable state ends in a reachable state. -/
theorem Run.reachable {sys : Nat → Nat} {dummy : Nat} {st st1 : State}
    {live live1 : List (Nat × Nat)} (hr : Reachable sys dummy st live)
    (hrun : Run sys dummy st live st1 live1) : Reachable sys dummy st1 live1 := by
  induction hrun with
  | refl => exact hr
  | malloc fuel depth size p st2 _ hs hm ih => exact Reachable.malloc fuel depth size p st2 ih hs hm
  | free p r st2 _ hq hf ih => exact Reachable.free p r st2 ih hq hf

/-- Every reachable state is the end of a run from an initialised state. -/
theorem Reachable.run {sys : Nat → Nat} {dummy : Nat} {st : State} {live : List (Nat × Nat)}
    (hr : Reachable sys dummy st live) :
    ∃ st0, Run sys dummy ( my_initialize dummy st0) [] st live := by
  induction hr with
  | init st0 => exact ⟨st0, Run.refl⟩
  | malloc fuel depth size p st1 _ hs hm ih =>
    obtain ⟨st0, h⟩ := ih
    exact ⟨st0, Run.malloc fuel depth size p st1 h hs hm⟩
  | free p r st1 _ hq hf ih =>
    obtain ⟨st0, h⟩ := ih
    exact ⟨st0, Run.free p r st1 h hq hf⟩

/-- One call of `my_malloc` with a valid size: the headers of the blocks stay headers of
blocks and no recorded size grows. -/
theorem Inv.malloc_blocks {sys : Nat → Nat} {dummy : Nat} {st : State} {fl : List Nat}
    {live : List (Nat × Nat)} (hp : PagesOK sys dummy) (hI : Inv sys dummy st fl live)
    {s fuel depth p : Nat} {st2 : State} (hs : ValidSize s)
    (hm : my_malloc sys fuel depth st s = .ok (p, st2)) :
    ∃ fl2, Inv sys dummy st2 fl2 ((p, (st2.mem (p - sizeof_my_metadata_t)).size) :: live) ∧
      ∀ a, IsBlock fl live a →
        IsBlock fl2 ((p, (st2.mem (p - sizeof_my_metadata_t)).size) :: live) a ∧
        (st2.mem a).size ≤ (st.mem a).size := by
  have h16 : sizeof_my_metadata_t = 16 := rfl
  obtain ⟨stm, flm, b, bp, st1, fl1, hstm, hIm, _, _, hsel, _, _, hdet, hI1, _,
    pre, post, hfl, _, hdetail⟩ := Inv.malloc_detail hp hI hs
  obtain ⟨hp1, hs1⟩ := hdet fuel depth p st2 hm
  subst hp1 hs1
  have hsub : b + sizeof_my_metadata_t - sizeof_my_metadata_t = b := by omega
  rw [hsub]
  refine ⟨fl1, hI1, ?_⟩
  intro a ha
  -- the block in the state where the search succeeded
  have ham : IsBlock flm live a ∧ (stm.mem a).size = (st.mem a).size := by
    rcases hstm with ⟨h1, h2⟩ | ⟨_, _, h2, _, _, hfr, hfresh⟩
    · rw [h1, h2]; exact ⟨ha, rfl⟩
    · have hne : a ≠ sys st.mmap_log.length := by rintro rfl; exact hfresh ha
      refine ⟨?_, by rw [hfr a hne]⟩
      rcases ha with ha | ha
      · exact Or.inl (by rw [h2]; exact List.mem_cons_of_mem _ ha)
      · exact Or.inr ha
  obtain ⟨hablk, hasz⟩ := ham
  obtain ⟨_, hsb, _⟩ := hsel.minimum
  have hbblk : IsBlock flm live b := Or.inl (by rw [hfl]; simp)
  have hblock : ∀ tl : List Nat, (∀ x, x ∈ pre ++ post → x ∈ tl) →
      IsBlock tl ((b + sizeof_my_metadata_t, (st2.mem b).size) :: live) a := by
    intro tl htl
    rcases hablk with h | ⟨q, hq, hq1⟩
    · rw [hfl] at h
      by_cases hab : a = b
      · exact Or.inr ⟨_, List.mem_cons_self _ _, by rw [hab]⟩
      · refine Or.inl (htl a ?_)
        rcases List.mem_append.1 h with h | h
        · exact List.mem_append_left _ h
        · rcases List.mem_cons.1 h with h | h
          · exact absurd h hab
          · exact List.mem_append_right _ h
    · exact Or.inr ⟨q, List.mem_cons_of_mem _ hq, hq1⟩
  rcases hdetail with ⟨_, h2, h3⟩ | ⟨h1, h2, h3, _, h5⟩
  · refine ⟨by rw [h2]; exact hblock _ (fun x hx => hx), ?_⟩
    rw [h3 a, hasz]
  · refine ⟨by rw [h2]; exact hblock _ (fun x hx => List.mem_cons_of_mem _ hx), ?_⟩
    by_cases hab : a = b
    · rw [← hasz, hab, h3]; exact hsb
    · have hne : a ≠ b + sizeof_my_metadata_t + s := by
        intro e
        have := hIm.apart a b hablk hbblk hab
        omega
      rw [h5 a hab hne, hasz]

/-- One call of `my_free` on a live pointer: the headers of the blocks stay headers of blocks
and no recorded size changes. -/
theorem Inv.free_blocks {sys : Nat → Nat} {dummy : Nat} {st : State} {fl : List Nat}
    {live : List (Nat × Nat)} (hp : PagesOK sys dummy) (hI : Inv sys dummy st fl live)
    {p r : Nat} {st2 : State} (hq : (p, r) ∈ live) (hf : my_free st p = .ok st2) :
    Inv sys dummy st2 ((p - sizeof_my_metadata_t) :: fl) (live.filter fun q => q.1 ≠ p) ∧
    (∀ x, (st2.mem x).size = (st.mem x).size) ∧
    ∀ a, IsBlock fl live a →
      IsBlock ((p - sizeof_my_metadata_t) :: fl) (live.filter fun q => q.1 ≠ p) a := by
  obtain ⟨e, hI1⟩ := Inv.free hp hI hq
  rw [e] at hf
  have hst := Outcome.ok.inj hf
  subst hst
  refine ⟨hI1, ?_, ?_⟩
  · intro x
    show (set_next st.mem _ _ x).size = _
    rw [set_next_size]
  · intro a ha
    rcases ha with ha | ⟨q, hq1, hq2⟩
    · exact Or.inl (List.mem_cons_of_mem _ ha)
    · by_cases hqp : q.1 = p
      · refine Or.inl ?_
        have : a = p - sizeof_my_metadata_t := by omega
        rw [this]; exact List.mem_cons_self _ _
      · exact Or.inr ⟨q, List.mem_filter.2 ⟨hq1, by simpa using hqp⟩, hq2⟩

/-- Along a run from a state that satisfies the invariant, the invariant is kept, the headers
of the blocks stay headers of blocks and no recorded size grows. -/
theorem Run.blocks {sys : Nat → Nat} {dummy : Nat} {st st1 : State} {fl : List Nat}
    {live live1 : List (Nat × Nat)} (hp : PagesOK sys dummy) (hI : Inv sys dummy st fl live)
    (hrun : Run sys dummy st live st1 live1) :
    ∃ fl1, Inv sys dummy st1 fl1 live1 ∧
      ∀ a, IsBlock fl live a → IsBlock fl1 live1 a ∧ (st1.mem a).size ≤ (st.mem a).size := by
  induction hrun with
  | refl => exact ⟨fl, hI, fun a ha => ⟨ha, le_refl _⟩⟩
  | malloc fuel depth size p st2 _ hs hm ih =>
    obtain ⟨fl1, hI1, hmono⟩ := ih
    obtain ⟨fl2, hI2, hstep⟩ := Inv.malloc_blocks hp hI1 hs hm
    refine ⟨fl2, hI2, ?_⟩
    intro a ha
    obtain ⟨h1, h2⟩ := hmono a ha
    obtain ⟨h3, h4⟩ := hstep a h1
    exact ⟨h3, le_trans h4 h2⟩
  | free p r st2 _ hq hf ih =>
    obtain ⟨fl1, hI1, hmono⟩ := ih
    obtain ⟨hI2, hsz, hstep⟩ := Inv.free_blocks hp hI1 hq hf
    refine ⟨_, hI2, ?_⟩
    intro a ha
    obtain ⟨h1, h2⟩ := hmono a ha
    exact ⟨hstep a h1, by rw [hsz]; exact h2⟩

theorem first_freed_run :
    Run page_at dummy_at first_alloc.2 [(4112, 800)] first_freed [] :=
  Run.free 4112 800 first_freed Run.refl (List.mem_cons_self _ _) first_freed_eq

/-- With the weak invariant too, a block is not the sentinel and not at `NULL`. -/
theorem Inv0.weak_block_ne {sys : Nat → Nat} {dummy : Nat} {st : State} {fl : List Nat}
    {live : List (Nat × Nat)} (hp : PagesOK sys dummy) (hI : Inv0 sys dummy st fl live)
    {a : Nat} (ha : IsBlock fl live a) : a ≠ dummy ∧ a ≠ 0 := by
  obtain ⟨i, _, h1, h2⟩ := hI.in_page a ha
  have h3 := hp.dummy_apart i
  have h4 := hp.nonnull i
  simp only [sizeof_my_metadata_t] at *
  constructor <;> omega

/-- The state after `my_initialize` satisfies the weak invariant. -/
theorem Inv0.weak_init {sys : Nat → Nat} {dummy : Nat} (hp : PagesOK sys dummy) (st0 : State) :
    Inv0 sys dummy ( my_initialize dummy st0) [] [] where
  chain := by
    refine ⟨rfl, hp.dummy_nonnull, ?_⟩
    show (set_next (set_size st0.mem dummy 0) dummy 0 dummy).next = 0
    simp
  dummy_size := by simp [ my_initialize]
  live_nodup := by simp
  live_hdr := by simp
  in_page := by
    intro a ha
    rcases ha with ha | ⟨q, hq, _⟩
    · simp at ha
    · simp at hq
  apart := by
    intro a b ha
    rcases ha with ha | ⟨q, hq, _⟩
    · simp at ha
    · simp at hq

/-- The weak invariant is kept by `my_free` of a live pointer, which succeeds. -/
theorem Inv0.weak_free {sys : Nat → Nat} {dummy : Nat} {st : State} {fl : List Nat}
    {live : List (Nat × Nat)} (hp : PagesOK sys dummy) (hI : Inv0 sys dummy st fl live)
    {p r : Nat} (hq : (p, r) ∈ live) :
    my_free st p = .ok { st with mem := set_next st.mem (p - sizeof_my_metadata_t) st.free_head,
                                 free_head := p - sizeof_my_metadata_t } ∧
    Inv0 sys dummy { st with mem := set_next st.mem (p - sizeof_my_metadata_t) st.free_head,
                             free_head := p - sizeof_my_metadata_t }
      ((p - sizeof_my_metadata_t) :: fl) (live.filter fun q => q.1 ≠ p) := by
  obtain ⟨h16, hnf, hsz, hnx⟩ := hI.live_hdr (p, r) hq
  have hblk : IsBlock fl live (p - sizeof_my_metadata_t) := IsBlock.of_live hq h16
  obtain ⟨hnd, hn0⟩ := hI.weak_block_ne hp hblk
  have hnotin : p - sizeof_my_metadata_t ∉ fl ++ [dummy] := by
    simp only [List.mem_append, List.mem_singleton, not_or]
    exact ⟨hnf, hnd⟩
  obtain ⟨a1, a2⟩ := add_spec hI.chain hnotin hn0 hnx
  refine ⟨a1, ?_⟩
  have hsub : ∀ a, IsBlock ((p - sizeof_my_metadata_t) :: fl) (live.filter fun q => q.1 ≠ p) a →
      IsBlock fl live a := by
    intro a ha
    rcases ha with ha | ⟨q, hq1, hq2⟩
    · rcases List.mem_cons.1 ha with rfl | ha
      · exact hblk
      · exact Or.inl ha
    · exact Or.inr ⟨q, (List.mem_filter.1 hq1).1, hq2⟩
  refine ⟨a2, ?_, ?_, ?_, ?_, ?_⟩
  · show (set_next st.mem _ _ dummy).size = 0
    rw [set_next_size]; exact hI.dummy_size
  · exact hI.live_nodup.sublist ((List.filter_sublist live).map Prod.fst)
  · intro q hq1
    obtain ⟨hq2, hq3⟩ := List.mem_filter.1 hq1
    have hq3 : q.1 ≠ p := by simpa using hq3
    obtain ⟨g16, gnf, gsz, gnx⟩ := hI.live_hdr q hq2
    have hne : q.1 - sizeof_my_metadata_t ≠ p - sizeof_my_metadata_t := by
      simp only [sizeof_my_metadata_t] at *; omega
    refine ⟨g16, ?_, ?_, ?_⟩
    · simp only [List.mem_cons, not_or]; exact ⟨hne, gnf⟩
    · show (set_next st.mem _ _ _).size = _
      rw [set_next_size]; exact gsz
    · show (set_next st.mem _ _ _).next = _
      rw [set_next_next_other _ _ hne]; exact gnx
  · intro a ha
    have := hI.in_page a (hsub a ha)
    simpa only [set_next_size] using this
  · intro a b ha hb hab
    have := hI.apart a b (hsub a ha) (hsub b hb) hab
    simpa only [set_next_size] using this

/-- The weak invariant is kept by `take_block` on the selected block, for any request of at
least 8 bytes; the description of the result is the one of `Inv.take`. -/
theorem Inv0.weak_take {sys : Nat → Nat} {dummy : Nat} {st : State} {fl : List Nat}
    {live : List (Nat × Nat)} (hp : PagesOK sys dummy) (hI : Inv0 sys dummy st fl live)
    {s b bp : Nat} (hs : 8 ≤ s) (hsel : Selected st.mem s (fl ++ [dummy]) b bp) :
    ∃ st1 fl1, take_block st s b bp = .ok (b + sizeof_my_metadata_t, st1) ∧
      Inv0 sys dummy st1 fl1 ((b + sizeof_my_metadata_t, (st1.mem b).size) :: live) ∧
      b ∈ fl ∧ s ≤ (st1.mem b).size ∧ (st1.mem b).size ≤ s + sizeof_my_metadata_t ∧
      (∀ a ∈ fl1, s ≤ (st1.mem a).size → (st1.mem b).size ≤ (st1.mem a).size) ∧
      st1.mmap_log = st.mmap_log ∧
      ∃ pre post, fl = pre ++ b :: post ∧ bp = lastD pre 0 ∧
        (((st.mem b).size - s ≤ sizeof_my_metadata_t ∧ fl1 = pre ++ post ∧
            ∀ x, (st1.mem x).size = (st.mem x).size) ∨
         ((st.mem b).size - s > sizeof_my_metadata_t ∧
            fl1 = (b + sizeof_my_metadata_t + s) :: (pre ++ post) ∧
            (st1.mem b).size = s ∧
            (st1.mem (b + sizeof_my_metadata_t + s)).size
              = (st.mem b).size - s - sizeof_my_metadata_t ∧
            ∀ x, x ≠ b → x ≠ b + sizeof_my_metadata_t + s →
              (st1.mem x).size = (st.mem x).size)) := by
  have h16 : sizeof_my_metadata_t = 16 := rfl
  have hsmin : 8 ≤ s := hs
  obtain ⟨pre, post1, hl, hbp, hsb, hpre, hpost⟩ := hsel
  have hbd : b ≠ dummy := by
    rintro rfl
    have := hI.dummy_size
    omega
  obtain ⟨post, hp1, hfl⟩ := split_snoc hl hbd
  subst hp1 hfl hbp
  have hchain : FreeList st (pre ++ b :: (post ++ [dummy])) := by
    have := hI.chain
    simpa using this
  have hnd : (pre ++ b :: (post ++ [dummy])).Nodup := Chain.nodup hchain
  have hbpre : b ∉ pre := by
    intro hm
    have := List.disjoint_of_nodup_append hnd hm
    simp at this
  have hbpost : b ∉ post := by
    have := (List.nodup_cons.1 (List.Nodup.of_append_right hnd)).1
    intro hm; exact this (List.mem_append_left _ hm)
  have hbfl : b ∈ pre ++ b :: post := by simp
  have hbblk : IsBlock (pre ++ b :: post) live b := Or.inl hbfl
  obtain ⟨i, hi, hb1, hb2⟩ := hI.in_page b hbblk
  have hw : (st.mem b).size < 2 ^ 64 := by
    have : (st.mem b).size ≤ 4096 := by omega
    exact lt_of_le_of_lt this (by decide)
  have hlive_ne : ∀ q ∈ live, q.1 - sizeof_my_metadata_t ≠ b := by
    intro q hq e
    exact (hI.live_hdr q hq).2.1 (e ▸ hbfl)
  have hlive_pre : ∀ q ∈ live, q.1 - sizeof_my_metadata_t ∉ pre := by
    intro q hq hm
    exact (hI.live_hdr q hq).2.1 (List.mem_append_left _ hm)
  have hnew_nodup : ∀ r : Nat,
      (((b + sizeof_my_metadata_t, r) :: live).map Prod.fst).Nodup := by
    intro r
    simp only [List.map_cons, List.nodup_cons]
    refine ⟨?_, hI.live_nodup⟩
    intro hm
    obtain ⟨q, hq, hq1⟩ := List.mem_map.1 hm
    apply hlive_ne q hq
    rw [hq1]; omega
  by_cases hsplit : (st.mem b).size - s > sizeof_my_metadata_t
  · -- the block is split
    have hfresh : ∀ a, IsBlock (pre ++ b :: post) live a → a ≠ b + sizeof_my_metadata_t + s := by
      intro a ha e
      have hab : a ≠ b := by omega
      have := hI.apart a b ha hbblk hab
      omega
    have hrd : b + sizeof_my_metadata_t + s ≠ dummy := by
      have := hp.dummy_apart i
      omega
    have hrest : b + sizeof_my_metadata_t + s ∉ pre ++ (post ++ [dummy]) := by
      intro hm
      rcases List.mem_append.1 hm with hm | hm
      · exact hfresh _ (Or.inl (List.mem_append_left _ hm)) rfl
      · rcases List.mem_append.1 hm with hm | hm
        · exact hfresh _ (Or.inl (List.mem_append_right _ (List.mem_cons_of_mem _ hm))) rfl
        · exact hrd (by simpa using hm)
    obtain ⟨st1, e1, c1, m1, szr, sz1, fr1, lg1⟩ :=
      take_block_split_spec hchain hsb hw hsplit hrest
    have eb : (st1.mem b).size = s := by rw [m1]
    have hclass : ∀ a, IsBlock ((b + sizeof_my_metadata_t + s) :: (pre ++ post))
        ((b + sizeof_my_metadata_t, (st1.mem b).size) :: live) a →
        a = b + sizeof_my_metadata_t + s ∨ a = b ∨
        (a ≠ b + sizeof_my_metadata_t + s ∧ a ≠ b ∧ IsBlock (pre ++ b :: post) live a ∧
          (st1.mem a).size = (st.mem a).size) := by
      intro a ha
      rcases ha with ha | ⟨q, hq, hq1⟩
      · rcases List.mem_cons.1 ha with ha | ha
        · exact Or.inl ha
        · have hblk : IsBlock (pre ++ b :: post) live a := by
            refine Or.inl ?_
            rcases List.mem_append.1 ha with h | h
            · exact List.mem_append_left _ h
            · exact List.mem_append_right _ (List.mem_cons_of_mem _ h)
          have hab : a ≠ b := by
            intro e
            rcases List.mem_append.1 ha with h | h
            · exact hbpre (e ▸ h)
            · exact hbpost (e ▸ h)
          exact Or.inr (Or.inr ⟨hfresh a hblk, hab, hblk, sz1 a hab (hfresh a hblk)⟩)
      · rcases List.mem_cons.1 hq with rfl | hq
        · right; left
          have : b + sizeof_my_metadata_t = a + sizeof_my_metadata_t := hq1
          omega
        · have hblk : IsBlock (pre ++ b :: post) live a := Or.inr ⟨q, hq, hq1⟩
          have hab : a ≠ b := by
            have := hlive_ne q hq
            intro e; apply this; omega
          exact Or.inr (Or.inr ⟨hfresh a hblk, hab, hblk, sz1 a hab (hfresh a hblk)⟩)
    refine ⟨st1, (b + sizeof_my_metadata_t + s) :: (pre ++ post), e1, ?_, hbfl, by omega,
      by omega, ?_, lg1, pre, post, rfl, rfl, Or.inr ⟨hsplit, rfl, eb, szr, sz1⟩⟩
    · refine ⟨?_, ?_, hnew_nodup _, ?_, ?_, ?_⟩
      · have : (b + sizeof_my_metadata_t + s) :: (pre ++ post) ++ [dummy]
            = (b + sizeof_my_metadata_t + s) :: (pre ++ (post ++ [dummy])) := by simp
        rw [this]; exact c1
      · rw [sz1 dummy (Ne.symm hbd) (Ne.symm hrd)]; exact hI.dummy_size
      · intro q hq
        rcases List.mem_cons.1 hq with rfl | hq
        · refine ⟨by simp, ?_, ?_, ?_⟩
          · simp only [Nat.add_sub_cancel, List.mem_cons, List.mem_append, not_or]
            exact ⟨by omega, hbpre, hbpost⟩
          · simp only [Nat.add_sub_cancel]
          · simp only [Nat.add_sub_cancel]; rw [m1]
        · obtain ⟨g16, gnf, gsz, gnx⟩ := hI.live_hdr q hq
          have hblk : IsBlock (pre ++ b :: post) live (q.1 - sizeof_my_metadata_t) :=
            Or.inr ⟨q, hq, by omega⟩
          have hqe := fr1 _ (hlive_ne q hq) (hfresh _ hblk) (hlive_pre q hq)
          refine ⟨g16, ?_, ?_, ?_⟩
          · simp only [List.mem_cons, List.mem_append, not_or]
            refine ⟨hfresh _ hblk, ?_, ?_⟩
            · exact hlive_pre q hq
            · intro hm
              exact gnf (List.mem_append_right _ (List.mem_cons_of_mem _ hm))
          · rw [hqe]; exact gsz
          · rw [hqe]; exact gnx
      · intro a ha
        rcases hclass a ha with rfl | rfl | ⟨_, _, hblk, hsz⟩
        · exact ⟨i, by rw [lg1]; exact hi, by omega, by rw [szr]; omega⟩
        · exact ⟨i, by rw [lg1]; exact hi, hb1, by rw [eb]; omega⟩
        · rw [hsz, lg1]; exact hI.in_page a hblk
      · intro a c ha hc hac
        rcases hclass a ha with rfl | rfl | ⟨ha1, ha2, hablk, hasz⟩ <;>
          rcases hclass c hc with rfl | rfl | ⟨hc1, hc2, hcblk, hcsz⟩
        · exact absurd rfl hac
        · rw [szr, eb]; omega
        · have := hI.apart c b hcblk hbblk hc2
          rw [szr, hcsz]; omega
        · rw [szr, eb]; omega
        · exact absurd rfl hac
        · have := hI.apart c a hcblk hbblk hc2
          rw [eb, hcsz]; omega
        · have := hI.apart a b hablk hbblk ha2
          rw [szr, hasz]; omega
        · have := hI.apart a c hablk hbblk ha2
          rw [eb, hasz]; omega
        · rw [hasz, hcsz]; exact hI.apart a c hablk hcblk hac
    · intro a _ _
      omega
  · -- the block is handed out whole
    have hnot : ¬ size_t_sub (st.mem b).size s > sizeof_my_metadata_t := by
      rw [size_t_sub_of_le hsb hw]; exact hsplit
    obtain ⟨st1, e1, c1, m1, sz1, fr1, lg1⟩ := take_block_whole_spec hchain hnot
    have eb : (st1.mem b).size = (st.mem b).size := sz1 b
    have hsub : ∀ a, IsBlock (pre ++ post)
        ((b + sizeof_my_metadata_t, (st1.mem b).size) :: live) a →
        IsBlock (pre ++ b :: post) live a := by
      intro a ha
      rcases ha with ha | ⟨q, hq, hq1⟩
      · refine Or.inl ?_
        rcases List.mem_append.1 ha with h | h
        · exact List.mem_append_left _ h
        · exact List.mem_append_right _ (List.mem_cons_of_mem _ h)
      · rcases List.mem_cons.1 hq with rfl | hq
        · have : b + sizeof_my_metadata_t = a + sizeof_my_metadata_t := hq1
          have : a = b := by omega
          subst this; exact hbblk
        · exact Or.inr ⟨q, hq, hq1⟩
    refine ⟨st1, pre ++ post, e1, ?_, hbfl, by omega, by omega, ?_, lg1, pre, post, rfl, rfl,
      Or.inl ⟨by omega, rfl, sz1⟩⟩
    · refine ⟨?_, ?_, hnew_nodup _, ?_, ?_, ?_⟩
      · have : pre ++ post ++ [dummy] = pre ++ (post ++ [dummy]) := by simp
        rw [this]; exact c1
      · rw [sz1]; exact hI.dummy_size
      · intro q hq
        rcases List.mem_cons.1 hq with rfl | hq
        · refine ⟨by simp, ?_, ?_, ?_⟩
          · simp only [Nat.add_sub_cancel, List.mem_append, not_or]
            exact ⟨hbpre, hbpost⟩
          · simp only [Nat.add_sub_cancel]
          · simp only [Nat.add_sub_cancel]; rw [m1]
        · obtain ⟨g16, gnf, gsz, gnx⟩ := hI.live_hdr q hq
          have hqe := fr1 _ (hlive_ne q hq) (hlive_pre q hq)
          refine ⟨g16, ?_, ?_, ?_⟩
          · simp only [List.mem_append, not_or]
            refine ⟨hlive_pre q hq, ?_⟩
            intro hm
            exact gnf (List.mem_append_right _ (List.mem_cons_of_mem _ hm))
          · rw [hqe]; exact gsz
          · rw [hqe]; exact gnx
      · intro a ha
        rw [sz1, lg1]; exact hI.in_page a (hsub a ha)
      · intro a c ha hc hac
        rw [sz1, sz1]; exact hI.apart a c (hsub a ha) (hsub c hc) hac
    · intro a ha hsa
      rw [sz1, sz1] at *
      have hmem : a ∈ pre ∨ a ∈ post := List.mem_append.1 ha
      rcases hmem with h | h
      · have := hpre a h hsa; omega
      · exact hpost a (List.mem_append_left _ h) hsa

/-- The weak invariant is kept by `grow_heap`, which succeeds. -/
theorem Inv0.weak_grow {sys : Nat → Nat} {dummy : Nat} {st : State} {fl : List Nat}
    {live : List (Nat × Nat)} (hp : PagesOK sys dummy) (hI : Inv0 sys dummy st fl live) :
    ∃ st1, grow_heap sys st = .ok st1 ∧
      Inv0 sys dummy st1 (sys st.mmap_log.length :: fl) live ∧
      st1.mmap_log = 4096 :: st.mmap_log ∧
      (st1.mem (sys st.mmap_log.length)).size = 4096 - sizeof_my_metadata_t ∧
      (∀ x, x ≠ sys st.mmap_log.length → st1.mem x = st.mem x) := by
  have h16 : sizeof_my_metadata_t = 16 := rfl
  have hfresh : ∀ a, IsBlock fl live a → a ≠ sys st.mmap_log.length := by
    intro a ha e
    obtain ⟨i, hi, h1, h2⟩ := hI.in_page a ha
    have := hp.disjoint i st.mmap_log.length (by omega)
    omega
  have hpd : sys st.mmap_log.length ≠ dummy := by
    have := hp.dummy_apart st.mmap_log.length
    omega
  have hnotin : sys st.mmap_log.length ∉ fl ++ [dummy] := by
    intro hm
    rcases List.mem_append.1 hm with hm | hm
    · exact hfresh _ (Or.inl hm) rfl
    · exact hpd (by simpa using hm)
  obtain ⟨st1, e1, lg1, c1, sz1, fr1⟩ := grow_heap_spec hI.chain (hp.nonnull _) hnotin
  have hclass : ∀ a, IsBlock (sys st.mmap_log.length :: fl) live a →
      a = sys st.mmap_log.length ∨
      (a ≠ sys st.mmap_log.length ∧ IsBlock fl live a ∧ st1.mem a = st.mem a) := by
    intro a ha
    rcases ha with ha | ha
    · rcases List.mem_cons.1 ha with ha | ha
      · exact Or.inl ha
      · exact Or.inr ⟨hfresh a (Or.inl ha), Or.inl ha, fr1 a (hfresh a (Or.inl ha))⟩
    · exact Or.inr ⟨hfresh a (Or.inr ha), Or.inr ha, fr1 a (hfresh a (Or.inr ha))⟩
  refine ⟨st1, e1, ⟨c1, ?_, hI.live_nodup, ?_, ?_, ?_⟩, lg1, sz1, fr1⟩
  · rw [fr1 dummy (Ne.symm hpd)]; exact hI.dummy_size
  · intro q hq
    obtain ⟨g16, gnf, gsz, gnx⟩ := hI.live_hdr q hq
    have hblk : IsBlock fl live (q.1 - sizeof_my_metadata_t) := Or.inr ⟨q, hq, by omega⟩
    refine ⟨g16, ?_, ?_, ?_⟩
    · simp only [List.mem_cons, not_or]
      exact ⟨hfresh _ hblk, gnf⟩
    · rw [fr1 _ (hfresh _ hblk)]; exact gsz
    · rw [fr1 _ (hfresh _ hblk)]; exact gnx
  · intro a ha
    rcases hclass a ha with rfl | ⟨_, hblk, hm⟩
    · exact ⟨st.mmap_log.length, by rw [lg1]; simp, le_refl _, by rw [sz1]; omega⟩
    · obtain ⟨i, hi, hrest⟩ := hI.in_page a hblk
      refine ⟨i, by rw [lg1]; simp; omega, ?_⟩
      rw [hm]; exact hrest
  · intro a c ha hc hac
    rcases hclass a ha with rfl | ⟨ha1, hablk, ham⟩ <;>
      rcases hclass c hc with rfl | ⟨hc1, hcblk, hcm⟩
    · exact absurd rfl hac
    · obtain ⟨i, hi, h1, h2⟩ := hI.in_page c hcblk
      have := hp.disjoint i st.mmap_log.length (by omega)
      rw [sz1, hcm]; omega
    · obtain ⟨i, hi, h1, h2⟩ := hI.in_page a hablk
      have := hp.disjoint i st.mmap_log.length (by omega)
      rw [sz1, ham]; omega
    · rw [ham, hcm]; exact hI.apart a c hablk hcblk hac

/-- The weak invariant is kept by every call of `my_malloc` that returns, for any size of at
least 8 and any bounds; the pointer returned is the payload of a block, hence not the payload
address of the sentinel. -/
theorem Inv0.malloc_any {sys : Nat → Nat} {dummy : Nat} (hp : PagesOK sys dummy) {s : Nat}
    (hs : 8 ≤ s) :
    ∀ (depth fuel : Nat) (st : State) (fl : List Nat) (live : List (Nat × Nat)) (p : Nat)
      (st1 : State), Inv0 sys dummy st fl live →
      my_malloc sys fuel depth st s = .ok (p, st1) →
      ∃ fl1 b, p = b + sizeof_my_metadata_t ∧ b ≠ dummy ∧
        Inv0 sys dummy st1 fl1 ((p, (st1.mem (p - sizeof_my_metadata_t)).size) :: live)
  | 0, _, _, _, _, _, _, _, h => by simp [my_malloc] at h
  | d + 1, fuel, st, fl, live, p, st1, hI, h => by
    rw [my_malloc_succ] at h
    cases hl : best_fit_loop st.mem s fuel st.free_head 0 0 0 with
    | assert_fail => rw [hl] at h; simp [Outcome.bind] at h
    | out_of_fuel => rw [hl] at h; simp [Outcome.bind] at h
    | ok x =>
      obtain ⟨b, bp⟩ := x
      rw [hl] at h
      simp only [Outcome.bind] at h
      obtain ⟨_, hcase⟩ := loop_selected hI.chain hl
      rcases hcase with ⟨h0, _⟩ | ⟨hne, hsel⟩
      · rw [if_pos h0] at h
        obtain ⟨st2, eg, hI2, _⟩ := Inv0.weak_grow hp hI
        rw [eg] at h
        exact Inv0.malloc_any hp hs d fuel st2 _ live p st1 hI2 h
      · rw [if_neg hne] at h
        obtain ⟨st2, fl2, et, hI2, _⟩ := Inv0.weak_take hp hI hs hsel
        rw [et] at h
        have h2 := Outcome.ok.inj h
        have hp1 : p = b + sizeof_my_metadata_t := (congrArg Prod.fst h2).symm
        have hs1 : st1 = st2 := (congrArg Prod.snd h2).symm
        subst hp1 hs1
        have hblk : IsBlock fl2 ((b + sizeof_my_metadata_t, (st1.mem b).size) :: live) b :=
          Or.inr ⟨_, List.mem_cons_self _ _, rfl⟩
        refine ⟨fl2, b, rfl, (hI2.weak_block_ne hp hblk).1, ?_⟩
        simpa only [Nat.add_sub_cancel] using hI2

/-- Every state reachable with requests of at least 8 bytes satisfies the weak invariant. -/
theorem Reachable8.inv0 {sys : Nat → Nat} {dummy : Nat} (hp : PagesOK sys dummy) {st : State}
    {live : List (Nat × Nat)} (h : Reachable8 sys dummy st live) :
    ∃ fl, Inv0 sys dummy st fl live := by
  induction h with
  | init st0 => exact ⟨[], Inv0.weak_init hp st0⟩
  | malloc fuel depth size p st1 _ hs hm ih =>
    obtain ⟨fl, hI⟩ := ih
    obtain ⟨fl1, _, _, _, hI1⟩ := Inv0.malloc_any hp hs depth fuel _ fl _ p st1 hI hm
    exact ⟨fl1, hI1⟩
  | free p r st1 _ hq hf ih =>
    obtain ⟨fl, hI⟩ := ih
    obtain ⟨e, hI1⟩ := Inv0.weak_free hp hI hq
    rw [e] at hf
    have := Outcome.ok.inj hf
    subst this
    exact ⟨_, hI1⟩

/-- The states reachable with valid sizes are reachable with sizes of at least 8. -/
theorem Reachable.to8 {sys : Nat → Nat} {dummy : Nat} {st : State} {live : List (Nat × Nat)}
    (h : Reachable sys dummy st live) : Reachable8 sys dummy st live := by
  induction h with
  | init st0 => exact Reachable8.init st0
  | malloc fuel depth size p st1 _ hs hm ih =>
    exact Reachable8.malloc fuel depth size p st1 ih hs.2.1 hm
  | free p r st1 _ hq hf ih => exact Reachable8.free p r st1 ih hq hf

/-- When no node of the list is large enough the scan returns its candidate unchanged. -/
theorem scan_none {mem : Nat → my_metadata_t} {s : Nat} :
    ∀ (l : List Nat) (prev best bp : Nat), (∀ a ∈ l, (mem a).size < s) →
      scan mem s l prev best bp = (best, bp)
  | [], _, _, _, _ => rfl
  | a :: l, prev, best, bp, h => by
    have ha := h a (List.mem_cons_self _ _)
    unfold scan
    rw [if_neg (by omega)]
    exact scan_none l a best bp (fun x hx => h x (List.mem_cons_of_mem _ hx))

/-- The last node of a chain has link `NULL`. -/
theorem Chain.last_link {mem : Nat → my_metadata_t} {d : Nat} :
    ∀ (l : List Nat) (hd : Nat), Chain mem hd (l ++ [d]) → (mem d).next = 0
  | [], _, hc => hc.2.2
  | _ :: l, _, hc => Chain.last_link l _ hc.2.2
theorem odd_alloc_eq :
    my_malloc page_at 3 2 ( my_initialize dummy_at blank) 9 = .ok odd_alloc := rfl

theorem odd_alloc_reach : Reachable8 page_at dummy_at odd_alloc.2 [(4112, 9)] :=
  Reachable8.malloc 3 2 9 odd_alloc.1 odd_alloc.2 (Reachable8.init blank) (by decide)
    odd_alloc_eq

/-- A tiling by `xs ++ ys` is a tiling by `xs` followed by a tiling by `ys`. -/
theorem Tiling.append {mem : Nat → my_metadata_t} :
    ∀ (xs ys : List Nat) (s e : Nat),
      Tiling mem s (xs ++ ys) e ↔ ∃ m, Tiling mem s xs m ∧ Tiling mem m ys e
  | [], ys, s, e => by simp [Tiling]
  | a :: xs, ys, s, e => by
    show (a = s ∧ Tiling mem (a + sizeof_my_metadata_t + (mem a).size) (xs ++ ys) e) ↔
      ∃ m, (a = s ∧ Tiling mem (a + sizeof_my_metadata_t + (mem a).size) xs m) ∧
        Tiling mem m ys e
    rw [Tiling.append xs ys]
    constructor
    · rintro ⟨h1, m, h2, h3⟩
      exact ⟨m, ⟨h1, h2⟩, h3⟩
    · rintro ⟨m, ⟨h1, h2⟩, h3⟩
      exact ⟨h1, m, h2, h3⟩

/-- A tiling depends only on the sizes recorded in the headers of its blocks. -/
theorem Tiling.congr {mem mem1 : Nat → my_metadata_t} :
    ∀ (bs : List Nat) (s e : Nat), (∀ a ∈ bs, (mem1 a).size = (mem a).size) →
      Tiling mem s bs e → Tiling mem1 s bs e
  | [], _, _, _, h => h
  | a :: bs, _, _, hc, h =>
    ⟨h.1, by
      rw [hc a (List.mem_cons_self _ _)]
      exact Tiling.congr bs _ _ (fun x hx => hc x (List.mem_cons_of_mem _ hx)) h.2⟩

/-- Every block of a tiling lies, header and payload, between its two ends. -/
theorem Tiling.bounds {mem : Nat → my_metadata_t} :
    ∀ (bs : List Nat) (s e : Nat), Tiling mem s bs e →
      s ≤ e ∧ ∀ a ∈ bs, s ≤ a ∧ a + sizeof_my_metadata_t + (mem a).size ≤ e
  | [], s, e, h => ⟨le_of_eq h, by simp⟩
  | b :: bs, s, e, h => by
    obtain ⟨h1, h2⟩ := h
    obtain ⟨h3, h4⟩ := Tiling.bounds bs _ _ h2
    have h16 : sizeof_my_metadata_t = 16 := rfl
    refine ⟨by omega, ?_⟩
    intro a ha
    rcases List.mem_cons.1 ha with rfl | ha
    · exact ⟨by omega, h3⟩
    · have := h4 a ha
      exact ⟨by omega, this.2⟩

/-- The blocks of a tiling are listed by strictly increasing address. -/
theorem Tiling.pairwise {mem : Nat → my_metadata_t} :
    ∀ (bs : List Nat) (s e : Nat), Tiling mem s bs e → bs.Pairwise (· < ·)
  | [], _, _, _ => List.Pairwise.nil
  | b :: bs, s, e, h => by
    obtain ⟨_, h2⟩ := h
    have h16 : sizeof_my_metadata_t = 16 := rfl
    refine List.Pairwise.cons ?_ (Tiling.pairwise bs _ _ h2)
    intro a ha
    have := ((Tiling.bounds bs _ _ h2).2 a ha).1
    omega

/-- The sizes of the blocks of a tiling, headers included, add up to the distance between its
two ends. -/
theorem Tiling.sum {mem : Nat → my_metadata_t} :
    ∀ (bs : List Nat) (s e : Nat), Tiling mem s bs e →
      s + (bs.map fun a => sizeof_my_metadata_t + (mem a).size).sum = e
  | [], s, e, h => by simpa using h
  | b :: bs, s, e, h => by
    obtain ⟨h1, h2⟩ := h
    have := Tiling.sum bs _ _ h2
    simp only [List.map_cons, List.sum_cons]
    omega

/-- The page invariant holds after `my_initialize`: no page is acquired yet and there is no
block. -/
theorem Tiled.at_init (sys : Nat → Nat) (dummy : Nat) (st0 : State) :
    Tiled sys st0.mmap_log.length ( my_initialize dummy st0) [] [] where
  base := le_refl _
  home := by
    intro a ha
    rcases ha with h | ⟨q, hq, _⟩
    · simp at h
    · simp at hq
  tiles := by
    intro i h1 h2
    have : ( my_initialize dummy st0).mmap_log = st0.mmap_log := rfl
    rw [this] at h2
    omega

/-- The page invariant is kept by a step that requests no page, changes no recorded size and
keeps the set of blocks. -/
theorem Tiled.same {sys : Nat → Nat} {n0 : Nat} {st st1 : State} {fl fl1 : List Nat}
    {live live1 : List (Nat × Nat)} (hT : Tiled sys n0 st fl live)
    (hlog : st1.mmap_log = st.mmap_log) (hsz : ∀ x, (st1.mem x).size = (st.mem x).size)
    (hblk : ∀ a, IsBlock fl1 live1 a ↔ IsBlock fl live a) : Tiled sys n0 st1 fl1 live1 where
  base := by rw [hlog]; exact hT.base
  home := by
    intro a ha
    rw [hlog]
    exact hT.home a ((hblk a).1 ha)
  tiles := by
    intro i h1 h2
    rw [hlog] at h2
    obtain ⟨bs, ht, hm⟩ := hT.tiles i h1 h2
    refine ⟨bs, Tiling.congr bs _ _ (fun a _ => hsz a) ht, ?_⟩
    intro a
    rw [hm a, hblk a]

/-- The page invariant is kept when a page is requested: the new page is tiled by its single
block of 4080 bytes. -/
theorem Tiled.new_page {sys : Nat → Nat} {dummy n0 : Nat} {st st1 : State} {fl : List Nat}
    {live : List (Nat × Nat)} (hp : PagesOK sys dummy) (hT : Tiled sys n0 st fl live)
    (hlog : st1.mmap_log = 4096 :: st.mmap_log)
    (hsz : (st1.mem (sys st.mmap_log.length)).size = 4096 - sizeof_my_metadata_t)
    (hfr : ∀ x, x ≠ sys st.mmap_log.length → st1.mem x = st.mem x) :
    Tiled sys n0 st1 (sys st.mmap_log.length :: fl) live := by
  have h16 : sizeof_my_metadata_t = 16 := rfl
  have hb := hT.base
  have hlen : st1.mmap_log.length = st.mmap_log.length + 1 := by rw [hlog]; rfl
  have hold : ∀ a, IsBlock (sys st.mmap_log.length :: fl) live a →
      a = sys st.mmap_log.length ∨ IsBlock fl live a := by
    intro a ha
    rcases ha with h | h
    · rcases List.mem_cons.1 h with h | h
      · exact Or.inl h
      · exact Or.inr (Or.inl h)
    · exact Or.inr (Or.inr h)
  refine ⟨by omega, ?_, ?_⟩
  · intro a ha
    rcases hold a ha with rfl | h
    · exact ⟨st.mmap_log.length, hb, by omega, le_refl _, by omega⟩
    · obtain ⟨i, h1, h2, h3, h4⟩ := hT.home a h
      exact ⟨i, h1, by omega, h3, h4⟩
  · intro i h1 h2
    by_cases hi : i = st.mmap_log.length
    · subst hi
      refine ⟨[sys st.mmap_log.length], ⟨rfl, ?_⟩, ?_⟩
      · show sys st.mmap_log.length + sizeof_my_metadata_t +
          (st1.mem (sys st.mmap_log.length)).size = sys st.mmap_log.length + 4096
        rw [hsz]
        omega
      · intro a
        constructor
        · intro ha
          have : a = sys st.mmap_log.length := by simpa using ha
          subst this
          exact ⟨Or.inl (List.mem_cons_self _ _), le_refl _, by omega⟩
        · rintro ⟨ha, h3, h4⟩
          rcases hold a ha with rfl | h
          · simp
          · exfalso
            obtain ⟨j, _, j2, j3, j4⟩ := hT.home a h
            have := hp.disjoint j st.mmap_log.length (by omega)
            omega
    · have hi2 : i < st.mmap_log.length := by omega
      obtain ⟨bs, ht, hm⟩ := hT.tiles i h1 hi2
      have hdis := hp.disjoint i st.mmap_log.length hi
      refine ⟨bs, Tiling.congr bs _ _ ?_ ht, ?_⟩
      · intro a ha
        have := (hm a).1 ha
        rw [hfr a (by omega)]
      · intro a
        rw [hm a]
        constructor
        · rintro ⟨ha, h3, h4⟩
          exact ⟨ha.elim (fun h => Or.inl (List.mem_cons_of_mem _ h)) Or.inr, h3, h4⟩
        · rintro ⟨ha, h3, h4⟩
          rcases hold a ha with rfl | h
          · omega
          · exact ⟨h, h3, h4⟩

/-- The page invariant is kept by a split: in the tiling of its page the block `b` of
recorded size `c` is replaced by `b` with recorded size `s` followed by the rest, at
`b + 16 + s`, with recorded size `c - s - 16`. -/
theorem Tiled.split {sys : Nat → Nat} {dummy n0 : Nat} {st st1 : State} {fl fl1 : List Nat}
    {live live1 : List (Nat × Nat)} (hp : PagesOK sys dummy) (hT : Tiled sys n0 st fl live)
    {s b : Nat} (hb : IsBlock fl live b) (hc : (st.mem b).size - s > sizeof_my_metadata_t)
    (hlog : st1.mmap_log = st.mmap_log) (hsb : (st1.mem b).size = s)
    (hsr : (st1.mem (b + sizeof_my_metadata_t + s)).size
      = (st.mem b).size - s - sizeof_my_metadata_t)
    (hfr : ∀ x, x ≠ b → x ≠ b + sizeof_my_metadata_t + s →
      (st1.mem x).size = (st.mem x).size)
    (hblk : ∀ a, IsBlock fl1 live1 a ↔ (IsBlock fl live a ∨ a = b + sizeof_my_metadata_t + s)) :
    Tiled sys n0 st1 fl1 live1 := by
  have h16 : sizeof_my_metadata_t = 16 := rfl
  obtain ⟨i, i1, i2, i3, i4⟩ := hT.home b hb
  obtain ⟨bs, ht, hm⟩ := hT.tiles i i1 i2
  have hbm : b ∈ bs := (hm b).2 ⟨hb, i3, i4⟩
  obtain ⟨xs, ys, hbs⟩ := List.append_of_mem hbm
  subst hbs
  obtain ⟨m, hx, hy⟩ := (Tiling.append xs (b :: ys) _ _).1 ht
  obtain ⟨hmb, hy⟩ := hy
  subst hmb
  have hxb := (Tiling.bounds xs _ _ hx).2
  have hyb := Tiling.bounds ys _ _ hy
  refine ⟨by rw [hlog]; exact hT.base, ?_, ?_⟩
  · intro a ha
    rw [hlog]
    rcases (hblk a).1 ha with h | rfl
    · exact hT.home a h
    · exact ⟨i, i1, i2, by omega, by omega⟩
  · intro j j1 j2
    rw [hlog] at j2
    by_cases hj : j = i
    · subst hj
      refine ⟨xs ++ b :: (b + sizeof_my_metadata_t + s) :: ys, ?_, ?_⟩
      · refine (Tiling.append xs _ _ _).2 ⟨b, Tiling.congr xs _ _ ?_ hx, rfl, by rw [hsb], ?_⟩
        · intro a ha
          have := hxb a ha
          exact hfr a (by omega) (by omega)
        · rw [hsr]
          have e : b + sizeof_my_metadata_t + s + sizeof_my_metadata_t +
              ((st.mem b).size - s - sizeof_my_metadata_t)
              = b + sizeof_my_metadata_t + (st.mem b).size := by omega
          rw [e]
          refine Tiling.congr ys _ _ ?_ hy
          intro a ha
          have := (hyb.2 a ha).1
          exact hfr a (by omega) (by omega)
      · intro a
        rw [hblk a]
        have := hm a
        simp only [List.mem_append, List.mem_cons] at this ⊢
        constructor
        · rintro (h | h | h | h)
          · obtain ⟨k1, k2, k3⟩ := this.1 (Or.inl h)
            exact ⟨Or.inl k1, k2, k3⟩
          · subst h
            exact ⟨Or.inl hb, i3, i4⟩
          · subst h
            exact ⟨Or.inr rfl, by omega, by omega⟩
          · obtain ⟨k1, k2, k3⟩ := this.1 (Or.inr (Or.inr h))
            exact ⟨Or.inl k1, k2, k3⟩
        · rintro ⟨h | h, k2, k3⟩
          · rcases this.2 ⟨h, k2, k3⟩ with h | h | h
            · exact Or.inl h
            · exact Or.inr (Or.inl h)
            · exact Or.inr (Or.inr (Or.inr h))
          · exact Or.inr (Or.inr (Or.inl h))
    · obtain ⟨bs1, ht1, hm1⟩ := hT.tiles j j1 j2
      have hdis := hp.disjoint j i hj
      refine ⟨bs1, Tiling.congr bs1 _ _ ?_ ht1, ?_⟩
      · intro a ha
        have := (hm1 a).1 ha
        exact hfr a (by omega) (by omega)
      · intro a
        rw [hm1 a, hblk a]
        constructor
        · rintro ⟨k1, k2, k3⟩
          exact ⟨Or.inl k1, k2, k3⟩
        · rintro ⟨h | h, k2, k3⟩
          · exact ⟨h, k2, k3⟩
          · omega

/-- The blocks after an allocation are the blocks before it and the allocated one. -/
theorem IsBlock.cons_live (fl : List Nat) (live : List (Nat × Nat)) (a b r : Nat) :
    IsBlock fl ((b + sizeof_my_metadata_t, r) :: live) a ↔ (a = b ∨ IsBlock fl live a) := by
  unfold IsBlock
  constructor
  · rintro (h | ⟨q, hq, e⟩)
    · exact Or.inr (Or.inl h)
    · rcases List.mem_cons.1 hq with rfl | hq
      · exact Or.inl (Nat.add_right_cancel e).symm
      · exact Or.inr (Or.inr ⟨q, hq, e⟩)
  · rintro (rfl | h | ⟨q, hq, e⟩)
    · exact Or.inr ⟨_, List.mem_cons_self _ _, rfl⟩
    · exact Or.inl h
    · exact Or.inr ⟨q, List.mem_cons_of_mem _ hq, e⟩

/-- Allocating the free block `b` whole keeps the set of blocks. -/
theorem IsBlock.whole (pre post : List Nat) (live : List (Nat × Nat)) (a b r : Nat) :
    IsBlock (pre ++ post) ((b + sizeof_my_metadata_t, r) :: live) a ↔
      IsBlock (pre ++ b :: post) live a := by
  rw [IsBlock.cons_live]
  unfold IsBlock
  simp only [List.mem_append, List.mem_cons]
  generalize (∃ q ∈ live, q.1 = a + sizeof_my_metadata_t) = L
  tauto

/-- Allocating the free block `b` with a split adds the rest to the set of blocks. -/
theorem IsBlock.rest (pre post : List Nat) (live : List (Nat × Nat)) (a b r c : Nat) :
    IsBlock (c :: (pre ++ post)) ((b + sizeof_my_metadata_t, r) :: live) a ↔
      (IsBlock (pre ++ b :: post) live a ∨ a = c) := by
  rw [IsBlock.cons_live]
  unfold IsBlock
  simp only [List.mem_append, List.mem_cons]
  generalize (∃ q ∈ live, q.1 = a + sizeof_my_metadata_t) = L
  tauto

/-- The page invariant is kept by every call of `my_malloc` with a valid size that returns. -/
theorem Tiled.after_malloc {sys : Nat → Nat} {dummy n0 : Nat} {st : State} {fl : List Nat}
    {live : List (Nat × Nat)} (hp : PagesOK sys dummy) (hI : Inv sys dummy st fl live)
    (hT : Tiled sys n0 st fl live) {s fuel depth p : Nat} {st2 : State} (hs : ValidSize s)
    (hm : my_malloc sys fuel depth st s = .ok (p, st2)) :
    ∃ fl2, Inv sys dummy st2 fl2 ((p, (st2.mem (p - sizeof_my_metadata_t)).size) :: live) ∧
      Tiled sys n0 st2 fl2 ((p, (st2.mem (p - sizeof_my_metadata_t)).size) :: live) := by
  have h16 : sizeof_my_metadata_t = 16 := rfl
  obtain ⟨stm, flm, b, bp, st1, fl1, hgrow, hIm, _, _, _, _, _, huniq, hI1, hlog, pre, post,
    hflm, _, hcase⟩ := Inv.malloc_detail hp hI hs
  obtain ⟨hp1, hs1⟩ := huniq fuel depth p st2 hm
  subst hp1 hs1
  have hTm : Tiled sys n0 stm flm live := by
    rcases hgrow with ⟨e1, e2⟩ | ⟨_, _, e2, e3, e4, e5, _⟩
    · rw [e1, e2]; exact hT
    · rw [e2]; exact Tiled.new_page hp hT e3 e4 e5
  have hbm : b ∈ flm := by rw [hflm]; simp
  have hsub : b + sizeof_my_metadata_t - sizeof_my_metadata_t = b := by omega
  rw [hsub]
  refine ⟨fl1, hI1, ?_⟩
  rcases hcase with ⟨_, hfl1, hsz⟩ | ⟨hgt, hfl1, hsb, hsr, hfr⟩
  · refine Tiled.same hTm hlog hsz ?_
    intro a
    rw [hfl1, hflm]
    exact IsBlock.whole pre post live a b _
  · refine Tiled.split hp hTm (Or.inl hbm) hgt hlog hsb hsr hfr ?_
    intro a
    rw [hfl1, hflm]
    exact IsBlock.rest pre post live a b _ _

/-- The page invariant is kept by `my_free` on a live pointer. -/
theorem Tiled.after_free {sys : Nat → Nat} {dummy n0 : Nat} {st : State} {fl : List Nat}
    {live : List (Nat × Nat)} (hp : PagesOK sys dummy) (hI : Inv sys dummy st fl live)
    (hT : Tiled sys n0 st fl live) {p r : Nat} {st2 : State} (hq : (p, r) ∈ live)
    (hf : my_free st p = .ok st2) :
    Inv sys dummy st2 ((p - sizeof_my_metadata_t) :: fl) (live.filter fun q => q.1 ≠ p) ∧
    Tiled sys n0 st2 ((p - sizeof_my_metadata_t) :: fl) (live.filter fun q => q.1 ≠ p) := by
  have h16 : sizeof_my_metadata_t = 16 := rfl
  obtain ⟨hI2, hsz, hkeep⟩ := Inv.free_blocks hp hI hq hf
  have hlog : st2.mmap_log = st.mmap_log := by
    have e := (Inv.free hp hI hq).1
    rw [e] at hf
    have := Outcome.ok.inj hf
    subst this
    rfl
  refine ⟨hI2, Tiled.same hT hlog hsz ?_⟩
  intro a
  refine ⟨?_, hkeep a⟩
  rintro (h | ⟨q, h1, h2⟩)
  · rcases List.mem_cons.1 h with h | h
    · have := (hI.live_hdr (p, r) hq).1
      exact Or.inr ⟨(p, r), hq, by simp only; omega⟩
    · exact Or.inl h
  · exact Or.inr ⟨q, (List.mem_filter.1 h1).1, h2⟩

/-- Along a run from an initialised state, the heap invariant and the page invariant hold. -/
theorem Run.tiled {sys : Nat → Nat} {dummy : Nat} (hp : PagesOK sys dummy) {st0 st : State}
    {live : List (Nat × Nat)} (hr : Run sys dummy ( my_initialize dummy st0) [] st live) :
    ∃ fl, Inv sys dummy st fl live ∧ Tiled sys st0.mmap_log.length st fl live := by
  induction hr with
  | refl => exact ⟨[], Inv.init hp st0, Tiled.at_init sys dummy st0⟩
  | malloc fuel depth size p st2 _ hs hm ih =>
    obtain ⟨fl, hI, hT⟩ := ih
    exact Tiled.after_malloc hp hI hT hs hm
  | free p r st2 _ hq hf ih =>
    obtain ⟨fl, hI, hT⟩ := ih
    exact ⟨_, Tiled.after_free hp hI hT hq hf⟩

theorem first_alloc_run :
    Run page_at dummy_at ( my_initialize dummy_at blank) [] first_alloc.2 [(4112, 800)] :=
  Run.malloc 3 2 800 first_alloc.1 first_alloc.2 Run.refl valid_800 first_alloc_eq

/-- Blocks that are kept apart have their headers kept apart. -/
theorem BlocksApart.separated {mem : Nat → my_metadata_t} {l : List Nat}
    (h : BlocksApart mem l) : Separated l := by
  refine ⟨fun a ha => ?_, fun a ha b hb hab => ?_⟩
  · have := h.1 a ha
    omega
  · have := h.2 a ha b hb hab
    omega

/-- The sizes of blocks that lie in the address space are `size_t` values. -/
theorem BlocksApart.word {mem : Nat → my_metadata_t} {l : List Nat}
    (h : BlocksApart mem l) : ∀ a ∈ l, (mem a).size < 2 ^ 64 := by
  intro a ha
  have := h.1 a ha
  omega

/-- Headers kept apart stay so on a list made of some of the nodes. -/
theorem Separated.subset {l l1 : List Nat} (h : Separated l) (hs : ∀ x ∈ l1, x ∈ l) :
    Separated l1 :=
  ⟨fun a ha => h.1 a (hs a ha), fun a ha b hb hab => h.2 a (hs a ha) b (hs b hb) hab⟩

/-- Blocks kept apart stay so on a list made of some of the nodes, when their sizes are
unchanged. -/
theorem BlocksApart.of_subset {mem mem1 : Nat → my_metadata_t} {l l1 : List Nat}
    (h : BlocksApart mem l) (hs : ∀ x ∈ l1, x ∈ l)
    (hsz : ∀ x ∈ l1, (mem1 x).size = (mem x).size) : BlocksApart mem1 l1 := by
  refine ⟨fun a ha => ?_, fun a ha b hb hab => ?_⟩
  · rw [hsz a ha]
    exact h.1 a (hs a ha)
  · rw [hsz a ha, hsz b hb]
    exact h.2 a (hs a ha) b (hs b hb) hab

/-- A header that overlaps no header of a list can be put in front of it. -/
theorem Separated.cons {l : List Nat} {r : Nat} (h : Separated l)
    (hr : r + sizeof_my_metadata_t < 2 ^ 64)
    (hap : ∀ a ∈ l, a + sizeof_my_metadata_t ≤ r ∨ r + sizeof_my_metadata_t ≤ a) :
    Separated (r :: l) := by
  refine ⟨fun a ha => ?_, fun a ha b hb hab => ?_⟩
  · rcases List.mem_cons.1 ha with rfl | ha
    · exact hr
    · exact h.1 a ha
  · rcases List.mem_cons.1 ha with ea | ha1
    · rcases List.mem_cons.1 hb with eb | hb1
      · exact absurd (ea.trans eb.symm) hab
      · rw [ea]
        exact (hap b hb1).symm
    · rcases List.mem_cons.1 hb with eb | hb1
      · rw [eb]
        exact hap a ha1
      · exact h.2 a ha1 b hb1 hab

/-- Splitting a block of a list of blocks kept apart: the rest lies inside the block, so it
is no node of the list, and the block with its new size, the rest and the other blocks are
kept apart. -/
theorem BlocksApart.of_split {mem mem1 : Nat → my_metadata_t} {l : List Nat} {b s : Nat}
    (h : BlocksApart mem l) (hnd : l.Nodup) (hb : b ∈ l)
    (hs : (mem b).size - s > sizeof_my_metadata_t) (hsb : (mem1 b).size = s)
    (hsr : (mem1 (b + sizeof_my_metadata_t + s)).size
      = (mem b).size - s - sizeof_my_metadata_t)
    (hfr : ∀ x, x ≠ b → x ≠ b + sizeof_my_metadata_t + s → (mem1 x).size = (mem x).size) :
    b + sizeof_my_metadata_t + s ∉ l ∧
    BlocksApart mem1 (b :: (b + sizeof_my_metadata_t + s) :: l.erase b) := by
  have h16 : sizeof_my_metadata_t = 16 := rfl
  have hbs := h.1 b hb
  have hnot : b + sizeof_my_metadata_t + s ∉ l := by
    intro hm
    have := h.2 b hb _ hm (by omega)
    omega
  have hmem : ∀ x, x ∈ b :: (b + sizeof_my_metadata_t + s) :: l.erase b →
      x = b ∨ x = b + sizeof_my_metadata_t + s ∨
        (x ∈ l ∧ x ≠ b ∧ x ≠ b + sizeof_my_metadata_t + s) := by
    intro x hx
    rcases List.mem_cons.1 hx with rfl | hx
    · exact Or.inl rfl
    · rcases List.mem_cons.1 hx with rfl | hx
      · exact Or.inr (Or.inl rfl)
      · have hx1 := (List.Nodup.mem_erase_iff hnd).1 hx
        refine Or.inr (Or.inr ⟨hx1.2, hx1.1, ?_⟩)
        rintro rfl
        exact hnot hx1.2
  -- position and size of every block of the new list
  have key : ∀ x, x ∈ b :: (b + sizeof_my_metadata_t + s) :: l.erase b →
      (x = b ∧ (mem1 x).size = s) ∨
      (x = b + sizeof_my_metadata_t + s ∧
        (mem1 x).size = (mem b).size - s - sizeof_my_metadata_t) ∨
      (x ∈ l ∧ x ≠ b ∧ (mem1 x).size = (mem x).size) := by
    intro x hx
    rcases hmem x hx with rfl | rfl | ⟨h1, h2, h3⟩
    · exact Or.inl ⟨rfl, hsb⟩
    · exact Or.inr (Or.inl ⟨rfl, hsr⟩)
    · exact Or.inr (Or.inr ⟨h1, h2, hfr x h2 h3⟩)
  refine ⟨hnot, fun a ha => ?_, fun a ha c hc hac => ?_⟩
  · rcases key a ha with ⟨rfl, e⟩ | ⟨rfl, e⟩ | ⟨h1, _, e⟩
    · rw [e]; omega
    · rw [e]; omega
    · rw [e]; exact h.1 a h1
  · rcases key a ha with ⟨ea, e⟩ | ⟨ea, e⟩ | ⟨h1, h2, e⟩ <;>
      rcases key c hc with ⟨ec, e2⟩ | ⟨ec, e2⟩ | ⟨k1, k2, e2⟩
    · exact absurd (ea.trans ec.symm) hac
    · rw [e, e2]; omega
    · have := h.2 b hb c k1 (Ne.symm k2)
      rw [e, e2]; omega
    · rw [e, e2]; omega
    · exact absurd (ea.trans ec.symm) hac
    · have := h.2 b hb c k1 (Ne.symm k2)
      rw [e, e2]; omega
    · have := h.2 a h1 b hb h2
      rw [e, e2]; omega
    · have := h.2 a h1 b hb h2
      rw [e, e2]; omega
    · rw [e, e2]; exact h.2 a h1 c k1 hac

/-! ## The claims -/

/-- C1: in every reachable state, for every valid size `s`, `my_malloc s` returns (with
enough fuel and two activations) a pointer `p` whose block has recorded size at least `s`;
the range `[p, p + s)` is disjoint from the payload `[q, q + r)` of every other live pointer
`q` of recorded size `r`, and from the header and payload `[a, a + 16 + size)` of every node
`a` of the free list after the call, the sentinel included. -/
theorem C1_allocate_disjoint {sys : Nat → Nat} {dummy : Nat} {st : State}
    {live : List (Nat × Nat)} (hp : PagesOK sys dummy) (hr : Reachable sys dummy st live)
    {s : Nat} (hs : ValidSize s) :
    ∃ N p st1 l1,
      (∀ fuel depth, N ≤ fuel → 2 ≤ depth → my_malloc sys fuel depth st s = .ok (p, st1)) ∧
      sizeof_my_metadata_t ≤ p ∧ s ≤ (st1.mem (p - sizeof_my_metadata_t)).size ∧
      (∀ q ∈ live, (st1.mem (q.1 - sizeof_my_metadata_t)).size = q.2 ∧
        (p + s ≤ q.1 ∨ q.1 + q.2 ≤ p)) ∧
      FreeList st1 l1 ∧
      (∀ a ∈ l1, p + s ≤ a ∨ a + sizeof_my_metadata_t + (st1.mem a).size ≤ p) ∧
      Reachable sys dummy st1 ((p, (st1.mem (p - sizeof_my_metadata_t)).size) :: live) := by
  have h16 : sizeof_my_metadata_t = 16 := rfl
  obtain ⟨fl, hI⟩ := hr.inv hp
  obtain ⟨b, st1, fl1, hret, hI1, k1, _⟩ := Inv.malloc hp hI hs
  have hbblk : IsBlock fl1 ((b + sizeof_my_metadata_t, (st1.mem b).size) :: live) b :=
    Or.inr ⟨_, List.mem_cons_self _ _, rfl⟩
  obtain ⟨i, _, hb1, hb2, _⟩ := hI1.in_page b hbblk
  have hbnf : b ∉ fl1 := by
    have := (hI1.live_hdr _ (List.mem_cons_self _ _)).2.1
    simpa only [Nat.add_sub_cancel] using this
  have hsub : b + sizeof_my_metadata_t - sizeof_my_metadata_t = b := by omega
  refine ⟨fl.length + 3, b + sizeof_my_metadata_t, st1, fl1 ++ [dummy], hret, by omega,
    by rw [hsub]; exact k1, ?_, hI1.chain, ?_, ?_⟩
  · intro q hq
    obtain ⟨g16, _, gsz, _⟩ := hI1.live_hdr q (List.mem_cons_of_mem _ hq)
    have hqblk : IsBlock fl1 ((b + sizeof_my_metadata_t, (st1.mem b).size) :: live)
        (q.1 - sizeof_my_metadata_t) := Or.inr ⟨q, List.mem_cons_of_mem _ hq, by omega⟩
    have hne : q.1 - sizeof_my_metadata_t ≠ b := by
      intro e
      have hnd := hI1.live_nodup
      simp only [List.map_cons, List.nodup_cons] at hnd
      apply hnd.1
      exact List.mem_map.2 ⟨q, hq, by omega⟩
    have := hI1.apart _ _ hqblk hbblk hne
    refine ⟨gsz, ?_⟩
    rw [gsz] at this
    omega
  · intro a ha
    rcases List.mem_append.1 ha with h | h
    · have hne : a ≠ b := by rintro rfl; exact hbnf h
      have := hI1.apart a b (Or.inl h) hbblk hne
      omega
    · have : a = dummy := by simpa using h
      subst this
      have := hp.dummy_apart i
      have := hI1.dummy_size
      omega
  · have := Reachable.malloc (fl.length + 3) 2 s (b + sizeof_my_metadata_t) st1 hr hs
      (hret _ _ (le_refl _) (le_refl _))
    exact this

/-- Witness of C1: a request of 800 bytes in the state reached by a first `my_malloc 800`,
where the pointer 4112 is live. -/
theorem C1_allocate_disjoint_witness :
    PagesOK page_at dummy_at ∧ Reachable page_at dummy_at first_alloc.2 [(4112, 800)] ∧
    ValidSize 800 ∧
    ∃ N p st1 l1,
      (∀ fuel depth, N ≤ fuel → 2 ≤ depth →
        my_malloc page_at fuel depth first_alloc.2 800 = .ok (p, st1)) ∧
      sizeof_my_metadata_t ≤ p ∧ 800 ≤ (st1.mem (p - sizeof_my_metadata_t)).size ∧
      (∀ q ∈ [((4112 : Nat), (800 : Nat))],
        (st1.mem (q.1 - sizeof_my_metadata_t)).size = q.2 ∧
        (p + 800 ≤ q.1 ∨ q.1 + q.2 ≤ p)) ∧
      FreeList st1 l1 ∧
      (∀ a ∈ l1, p + 800 ≤ a ∨ a + sizeof_my_metadata_t + (st1.mem a).size ≤ p) ∧
      Reachable page_at dummy_at st1
        ((p, (st1.mem (p - sizeof_my_metadata_t)).size) :: [(4112, 800)]) :=
  ⟨page_at_ok, first_alloc_reach, valid_800,
    C1_allocate_disjoint page_at_ok first_alloc_reach valid_800⟩

/-- C2: on every well-formed free list `l` whose blocks are kept apart (they lie in the
address space and do not overlap) and in which some block has size at least `s`,
`my_malloc s` returns (with more fuel than nodes and one activation) the payload of a block
`b` of `l` whose size is minimal among the blocks of `l` of size at least `s`, requests no
page, and `b` leaves the free list.  When `b` is not split (its size exceeds `s` by at most
16) the list afterwards is `l` without `b` and no size changes.  When `b` is split the list
afterwards is `l` without `b` with the rest of the split, which was no node of `l`, in
front, and `b` has size `s`.  In both cases the returned block and the blocks of the new free
list are kept apart.  In particular, for `s = 16` and free blocks of sizes 32 and 64 only
(plus the sentinel of size 0, in either order), the block of 32 bytes is returned and the
block of 64 bytes stays in the free list. -/
theorem C2_best_fit_minimum (sys : Nat → Nat) {st : State} {l : List Nat} {s : Nat}
    (hc : FreeList st l) (hapart : BlocksApart st.mem l)
    (hfit : ∃ a ∈ l, s ≤ (st.mem a).size) :
    ∃ b st1,
      (∀ fuel depth, l.length < fuel → 0 < depth →
        my_malloc sys fuel depth st s = .ok (b + sizeof_my_metadata_t, st1)) ∧
      b ∈ l ∧ s ≤ (st.mem b).size ∧
      (∀ a ∈ l, s ≤ (st.mem a).size → (st.mem b).size ≤ (st.mem a).size) ∧
      st1.mmap_log = st.mmap_log ∧ b ∉ l.erase b ∧
      ((st.mem b).size - s ≤ sizeof_my_metadata_t →
        FreeList st1 (l.erase b) ∧ (∀ x, (st1.mem x).size = (st.mem x).size) ∧
        BlocksApart st1.mem (b :: l.erase b)) ∧
      ((st.mem b).size - s > sizeof_my_metadata_t →
        b + sizeof_my_metadata_t + s ∉ l ∧
        FreeList st1 ((b + sizeof_my_metadata_t + s) :: l.erase b) ∧
        b ∉ (b + sizeof_my_metadata_t + s) :: l.erase b ∧
        (st1.mem b).size = s ∧
        (st1.mem (b + sizeof_my_metadata_t + s)).size
          = (st.mem b).size - s - sizeof_my_metadata_t ∧
        (∀ x, x ≠ b → x ≠ b + sizeof_my_metadata_t + s →
          (st1.mem x).size = (st.mem x).size) ∧
        BlocksApart st1.mem (b :: (b + sizeof_my_metadata_t + s) :: l.erase b)) ∧
      (s = 16 → ∀ a32 a64 d, l = [a32, a64, d] ∨ l = [a64, a32, d] →
        (st.mem a32).size = 32 → (st.mem a64).size = 64 → (st.mem d).size = 0 →
        b = a32 ∧ FreeList st1 [a64, d] ∧ (st1.mem a64).size = 64 ∧
        (st1.mem a32).size = 32) := by
  have h16 : sizeof_my_metadata_t = 16 := rfl
  have hnd : l.Nodup := Chain.nodup hc
  rcases my_malloc_step sys s hc with ⟨hall, _⟩ | ⟨b, bp, _, hsel, hstep⟩
  · obtain ⟨a, ha, hsa⟩ := hfit
    have := hall a ha
    omega
  · obtain ⟨hbl, hsb, hmin⟩ := hsel.minimum
    obtain ⟨st1, e1, lg1, hne, hwhole, hsplit⟩ :=
      take_block_found hc hsel (hapart.word b hbl)
    refine ⟨b, st1, ?_, hbl, hsb, hmin, lg1, hne, ?_, ?_, ?_⟩
    · intro fuel depth hf hd
      obtain ⟨d, rfl⟩ : ∃ d, depth = d + 1 := ⟨depth - 1, by omega⟩
      rw [hstep fuel d hf, e1]
    · intro hcase
      obtain ⟨c1, _, sz1⟩ := hwhole hcase
      refine ⟨c1, sz1, hapart.of_subset ?_ (fun x _ => sz1 x)⟩
      intro x hx
      rcases List.mem_cons.1 hx with rfl | hx
      · exact hbl
      · exact List.mem_of_mem_erase hx
    · intro hcase
      have hrest : b + sizeof_my_metadata_t + s ∉ l := by
        intro hm
        have h1 := hapart.1 b hbl
        have := hapart.2 b hbl _ hm (by omega)
        omega
      obtain ⟨c1, m1, szr, sz1⟩ := hsplit hcase hrest
      have hsb1 : (st1.mem b).size = s := by rw [m1]
      refine ⟨hrest, c1, ?_, hsb1, szr, sz1,
        (BlocksApart.of_split hapart hnd hbl hcase hsb1 szr sz1).2⟩
      intro hm
      rcases List.mem_cons.1 hm with h | h
      · omega
      · exact hne h
    · intro hs a32 a64 d hl h32 h64 h0
      subst hs
      have hb32 : b = a32 := by
        have hle : (st.mem b).size ≤ 32 := by
          have := hmin a32 (by rcases hl with h | h <;> simp [h]) (by omega)
          omega
        have hmem : b = a32 ∨ b = a64 ∨ b = d := by
          rcases hl with h | h
          · rw [h] at hbl
            simpa only [List.mem_cons, List.mem_singleton, List.not_mem_nil, or_false]
              using hbl
          · rw [h] at hbl
            simp only [List.mem_cons, List.mem_singleton, List.not_mem_nil, or_false] at hbl
            rcases hbl with h1 | h1 | h1
            · exact Or.inr (Or.inl h1)
            · exact Or.inl h1
            · exact Or.inr (Or.inr h1)
        rcases hmem with h | h | h
        · exact h
        · rw [h] at hle; omega
        · rw [h] at hsb; omega
      subst hb32
      obtain ⟨c1, _, sz1⟩ := hwhole (by omega)
      have hne64 : a64 ≠ b := by
        intro e; rw [e] at h64; omega
      have her : l.erase b = [a64, d] := by
        rcases hl with h | h
        · rw [h]; simp
        · rw [h]; simp [List.erase_cons, hne64]
      rw [her] at c1
      exact ⟨rfl, c1, by rw [sz1]; exact h64, by rw [sz1]; exact h32⟩

/-- Witness of C2 on the state `two_free` with `s = 16`. -/
theorem C2_best_fit_minimum_witness :
    FreeList two_free [4096, 4144, 64] ∧ BlocksApart two_free.mem [4096, 4144, 64] ∧
    (∃ a ∈ [4096, 4144, 64], 16 ≤ (two_free.mem a).size) ∧
    ∃ b st1,
      (∀ fuel depth, [4096, 4144, 64].length < fuel → 0 < depth →
        my_malloc page_at fuel depth two_free 16 = .ok (b + sizeof_my_metadata_t, st1)) ∧
      b ∈ [4096, 4144, 64] ∧ 16 ≤ (two_free.mem b).size ∧
      (∀ a ∈ [4096, 4144, 64], 16 ≤ (two_free.mem a).size →
        (two_free.mem b).size ≤ (two_free.mem a).size) ∧
      st1.mmap_log = two_free.mmap_log ∧ b ∉ [4096, 4144, 64].erase b ∧
      ((two_free.mem b).size - 16 ≤ sizeof_my_metadata_t →
        FreeList st1 ([4096, 4144, 64].erase b) ∧
        (∀ x, (st1.mem x).size = (two_free.mem x).size) ∧
        BlocksApart st1.mem (b :: [4096, 4144, 64].erase b)) ∧
      (16 = 16 → ∀ a32 a64 d, [4096, 4144, 64] = [a32, a64, d] ∨
          [4096, 4144, 64] = [a64, a32, d] →
        (two_free.mem a32).size = 32 → (two_free.mem a64).size = 64 →
        (two_free.mem d).size = 0 →
        b = a32 ∧ FreeList st1 [a64, d] ∧ (st1.mem a64).size = 64 ∧
        (st1.mem a32).size = 32) := by
  obtain ⟨b, st1, h1, h2, h3, h4, h5, h6, h7, _, h9⟩ :=
    C2_best_fit_minimum (s := 16) page_at two_free_list (by decide)
      ⟨4096, by simp, by decide⟩
  exact ⟨two_free_list, by decide, ⟨4096, by simp, by decide⟩,
    b, st1, h1, h2, h3, h4, h5, h6, h7, h9⟩

/-- C4: when the search of `my_malloc s` on a well-formed free list `l` whose headers are kept
apart selects the block `b` of size `c` with `c - s > 16`, the block lies in the address
space and the header of the rest (at `b + 16 + s`, the payload address of `b` plus `s`)
overlaps no header of the list, then the call returns the payload of `b`; afterwards the
recorded size of `b` is exactly `s`, the head of the free list is the block at `b + 16 + s`,
its size is `c - s - 16`, its successor starts the free list `l` without `b`, the headers of
the new free list are kept apart, and no other size changes. -/
theorem C4_split (sys : Nat → Nat) {st : State} {l : List Nat} {s fuel b bp : Nat}
    (hc : FreeList st l) (hsep : Separated l)
    (hloop : best_fit_loop st.mem s fuel st.free_head 0 0 0 = .ok (b, bp)) (hb : b ≠ 0)
    (hspace : b + sizeof_my_metadata_t + (st.mem b).size < 2 ^ 64)
    (hsplit : (st.mem b).size - s > sizeof_my_metadata_t)
    (hrest : ∀ a ∈ l, a + sizeof_my_metadata_t ≤ b + sizeof_my_metadata_t + s ∨
      b + sizeof_my_metadata_t + s + sizeof_my_metadata_t ≤ a) :
    ∃ st1, (∀ depth, my_malloc sys fuel (depth + 1) st s
        = .ok (b + sizeof_my_metadata_t, st1)) ∧
      (st1.mem b).size = s ∧
      st1.free_head = b + sizeof_my_metadata_t + s ∧
      b + sizeof_my_metadata_t + s + sizeof_my_metadata_t < 2 ^ 64 ∧
      b + sizeof_my_metadata_t + s ∉ l ∧
      (st1.mem (b + sizeof_my_metadata_t + s)).size
        = (st.mem b).size - s - sizeof_my_metadata_t ∧
      Chain st1.mem (st1.mem (b + sizeof_my_metadata_t + s)).next (l.erase b) ∧
      b ∉ l.erase b ∧
      FreeList st1 ((b + sizeof_my_metadata_t + s) :: l.erase b) ∧
      Separated ((b + sizeof_my_metadata_t + s) :: l.erase b) ∧
      (∀ x, x ≠ b → x ≠ b + sizeof_my_metadata_t + s →
        (st1.mem x).size = (st.mem x).size) ∧
      st1.mmap_log = st.mmap_log := by
  have h16 : sizeof_my_metadata_t = 16 := rfl
  have hnot : b + sizeof_my_metadata_t + s ∉ l := by
    intro hm
    have := hrest _ hm
    omega
  have hin : b + sizeof_my_metadata_t + s + sizeof_my_metadata_t < 2 ^ 64 := by omega
  obtain ⟨_, hsel⟩ := loop_selected hc hloop
  rcases hsel with ⟨h0, _⟩ | ⟨_, hsel⟩
  · exact absurd h0 hb
  · obtain ⟨st1, e1, lg1, hne, _, hsp⟩ := take_block_found hc hsel (by omega)
    obtain ⟨c1, m1, szr, sz1⟩ := hsp hsplit hnot
    have hsep1 : Separated ((b + sizeof_my_metadata_t + s) :: l.erase b) :=
      Separated.cons (hsep.subset fun x hx => List.mem_of_mem_erase hx) (by omega)
        (fun a ha => hrest a (List.mem_of_mem_erase ha))
    refine ⟨st1, ?_, by rw [m1], c1.1, hin, hnot, szr, c1.2.2, hne, c1, hsep1, sz1, lg1⟩
    intro depth
    rw [my_malloc_succ, hloop]
    simp only [Outcome.bind, if_neg hb]
    exact e1

/-- Witness of C4: a request of 800 bytes on the state `one_page`. -/
theorem C4_split_witness :
    FreeList one_page [4096, 64] ∧ Separated [4096, 64] ∧
    best_fit_loop one_page.mem 800 3 one_page.free_head 0 0 0 = .ok (4096, 0) ∧
    4096 ≠ 0 ∧ 4096 + sizeof_my_metadata_t + (one_page.mem 4096).size < 2 ^ 64 ∧
    (one_page.mem 4096).size - 800 > sizeof_my_metadata_t ∧
    (∀ a ∈ [4096, 64], a + sizeof_my_metadata_t ≤ 4096 + sizeof_my_metadata_t + 800 ∨
      4096 + sizeof_my_metadata_t + 800 + sizeof_my_metadata_t ≤ a) ∧
    ∃ st1, (∀ depth, my_malloc page_at 3 (depth + 1) one_page 800
        = .ok (4096 + sizeof_my_metadata_t, st1)) ∧
      (st1.mem 4096).size = 800 ∧
      st1.free_head = 4096 + sizeof_my_metadata_t + 800 ∧
      4096 + sizeof_my_metadata_t + 800 + sizeof_my_metadata_t < 2 ^ 64 ∧
      4096 + sizeof_my_metadata_t + 800 ∉ [4096, 64] ∧
      (st1.mem (4096 + sizeof_my_metadata_t + 800)).size
        = (one_page.mem 4096).size - 800 - sizeof_my_metadata_t ∧
      Chain st1.mem (st1.mem (4096 + sizeof_my_metadata_t + 800)).next
        ([4096, 64].erase 4096) ∧
      4096 ∉ [4096, 64].erase 4096 ∧
      FreeList st1 ((4096 + sizeof_my_metadata_t + 800) :: [4096, 64].erase 4096) ∧
      Separated ((4096 + sizeof_my_metadata_t + 800) :: [4096, 64].erase 4096) ∧
      (∀ x, x ≠ 4096 → x ≠ 4096 + sizeof_my_metadata_t + 800 →
        (st1.mem x).size = (one_page.mem x).size) ∧
      st1.mmap_log = one_page.mmap_log :=
  ⟨one_page_list, by decide, rfl, by decide, by decide, by decide, by decide,
    C4_split page_at one_page_list (by decide)
      (rfl : best_fit_loop one_page.mem 800 3 one_page.free_head 0 0 0 = .ok (4096, 0))
      (by decide) (by decide) (by decide) (by decide)⟩

/-- C5: when the search of `my_malloc s` on a well-formed free list `l` whose headers are kept
apart selects the block `b` of size `c` (a `size_t` value) with `c - s ≤ 16` (equality
included), the call returns the payload of `b`, the recorded size of `b` stays `c`, no size
changes, no page is requested and the free list afterwards is `l` without `b`; a following
`my_free` of the returned pointer succeeds and puts `b`, with size `c`, at the head of that
list.  The headers of both lists are kept apart. -/
theorem C5_no_split (sys : Nat → Nat) {st : State} {l : List Nat} {s fuel b bp : Nat}
    (hc : FreeList st l) (hsep : Separated l)
    (hloop : best_fit_loop st.mem s fuel st.free_head 0 0 0 = .ok (b, bp)) (hb : b ≠ 0)
    (hword : (st.mem b).size < 2 ^ 64)
    (hslack : (st.mem b).size - s ≤ sizeof_my_metadata_t) :
    ∃ st1, (∀ depth, my_malloc sys fuel (depth + 1) st s
        = .ok (b + sizeof_my_metadata_t, st1)) ∧
      b + sizeof_my_metadata_t < 2 ^ 64 ∧
      s ≤ (st.mem b).size ∧
      (st1.mem b).size = (st.mem b).size ∧
      (∀ x, (st1.mem x).size = (st.mem x).size) ∧
      FreeList st1 (l.erase b) ∧ b ∉ l.erase b ∧ Separated (l.erase b) ∧
      st1.mmap_log = st.mmap_log ∧
      ∃ st2, my_free st1 (b + sizeof_my_metadata_t) = .ok st2 ∧
        FreeList st2 (b :: l.erase b) ∧ Separated (b :: l.erase b) ∧
        (st2.mem b).size = (st.mem b).size ∧
        (∀ x, (st2.mem x).size = (st.mem x).size) := by
  obtain ⟨_, hsel⟩ := loop_selected hc hloop
  rcases hsel with ⟨h0, _⟩ | ⟨_, hsel⟩
  · exact absurd h0 hb
  · obtain ⟨st1, e1, lg1, hne, hwh, _⟩ := take_block_found hc hsel hword
    obtain ⟨c1, m1, sz1⟩ := hwh hslack
    have hbl : b ∈ l := hsel.minimum.1
    have hnext : (st1.mem b).next = 0 := by rw [m1]
    obtain ⟨a1, a2⟩ := add_spec c1 hne hb hnext
    have hsep1 : Separated (l.erase b) := hsep.subset fun x hx => List.mem_of_mem_erase hx
    have hsep2 : Separated (b :: l.erase b) := by
      refine hsep.subset ?_
      intro x hx
      rcases List.mem_cons.1 hx with rfl | hx
      · exact hbl
      · exact List.mem_of_mem_erase hx
    refine ⟨st1, ?_, hsep.1 b hbl, hsel.minimum.2.1, sz1 b, sz1, c1, hne, hsep1, lg1, _, ?_,
      a2, hsep2, ?_, ?_⟩
    · intro depth
      rw [my_malloc_succ, hloop]
      simp only [Outcome.bind, if_neg hb]
      exact e1
    · show my_add_to_free_list st1 (b + sizeof_my_metadata_t - sizeof_my_metadata_t) = _
      rw [Nat.add_sub_cancel]; exact a1
    · show (set_next st1.mem b st1.free_head b).size = _
      rw [set_next_size]; exact sz1 b
    · intro x
      show (set_next st1.mem b st1.free_head x).size = _
      rw [set_next_size]; exact sz1 x

/-- Witness of C5: a request of 16 bytes on the state `two_free`, whose best fit has 32
bytes, exactly one header more than the request. -/
theorem C5_no_split_witness :
    FreeList two_free [4096, 4144, 64] ∧ Separated [4096, 4144, 64] ∧
    best_fit_loop two_free.mem 16 4 two_free.free_head 0 0 0 = .ok (4096, 0) ∧
    4096 ≠ 0 ∧ (two_free.mem 4096).size < 2 ^ 64 ∧
    (two_free.mem 4096).size - 16 ≤ sizeof_my_metadata_t ∧
    ∃ st1, (∀ depth, my_malloc page_at 4 (depth + 1) two_free 16
        = .ok (4096 + sizeof_my_metadata_t, st1)) ∧
      4096 + sizeof_my_metadata_t < 2 ^ 64 ∧
      16 ≤ (two_free.mem 4096).size ∧
      (st1.mem 4096).size = (two_free.mem 4096).size ∧
      (∀ x, (st1.mem x).size = (two_free.mem x).size) ∧
      FreeList st1 ([4096, 4144, 64].erase 4096) ∧ 4096 ∉ [4096, 4144, 64].erase 4096 ∧
      Separated ([4096, 4144, 64].erase 4096) ∧
      st1.mmap_log = two_free.mmap_log ∧
      ∃ st2, my_free st1 (4096 + sizeof_my_metadata_t) = .ok st2 ∧
        FreeList st2 (4096 :: [4096, 4144, 64].erase 4096) ∧
        Separated (4096 :: [4096, 4144, 64].erase 4096) ∧
        (st2.mem 4096).size = (two_free.mem 4096).size ∧
        (∀ x, (st2.mem x).size = (two_free.mem x).size) :=
  ⟨two_free_list, by decide, rfl, by decide, by decide, by decide,
    C5_no_split page_at two_free_list (by decide)
      (rfl : best_fit_loop two_free.mem 16 4 two_free.free_head 0 0 0 = .ok (4096, 0))
      (by decide) (by decide) (by decide)⟩

/-- C6: in every reachable state, `my_free` of a live pointer `p` of recorded size `r`
succeeds; the header 16 bytes before `p` becomes the head of the free list, its link is the
previous head, its size is still `r`, every other header (size and link) is unchanged, and
the free list is the old one with that block in front. -/
theorem C6_free_effect {sys : Nat → Nat} {dummy : Nat} {st : State}
    {live : List (Nat × Nat)} (hp : PagesOK sys dummy) (hr : Reachable sys dummy st live)
    {p r : Nat} (hq : (p, r) ∈ live) :
    ∃ st1, my_free st p = .ok st1 ∧
      st1.free_head = p - sizeof_my_metadata_t ∧
      (st1.mem (p - sizeof_my_metadata_t)).next = st.free_head ∧
      (st.mem (p - sizeof_my_metadata_t)).size = r ∧
      (st1.mem (p - sizeof_my_metadata_t)).size = r ∧
      (∀ x, x ≠ p - sizeof_my_metadata_t → st1.mem x = st.mem x) ∧
      st1.mmap_log = st.mmap_log ∧
      (∀ l, FreeList st l → p - sizeof_my_metadata_t ∉ l ∧
        FreeList st1 ((p - sizeof_my_metadata_t) :: l)) := by
  obtain ⟨fl, hI⟩ := hr.inv hp
  obtain ⟨e, hI1⟩ := Inv.free hp hI hq
  obtain ⟨g16, gnf, gsz, _⟩ := hI.live_hdr (p, r) hq
  have hblk : IsBlock fl live (p - sizeof_my_metadata_t) := IsBlock.of_live hq g16
  refine ⟨_, e, rfl, ?_, gsz, ?_, ?_, rfl, ?_⟩
  · show (set_next st.mem _ _ _).next = _
    rw [set_next_next_same]
  · show (set_next st.mem _ _ _).size = _
    rw [set_next_size]; exact gsz
  · intro x hx
    show set_next st.mem _ _ x = _
    rw [set_next_other _ _ hx]
  · intro l hl
    have : l = fl ++ [dummy] := Chain.unique hl hI.chain
    subst this
    refine ⟨?_, hI1.chain⟩
    intro hm
    rcases List.mem_append.1 hm with h | h
    · exact gnf h
    · exact (hI.block_ne hp hblk).1 (by simpa using h)

/-- Witness of C6: freeing the pointer 4112 returned by the first `my_malloc 800`. -/
theorem C6_free_effect_witness :
    PagesOK page_at dummy_at ∧ Reachable page_at dummy_at first_alloc.2 [(4112, 800)] ∧
    (4112, 800) ∈ [(4112, 800)] ∧
    ∃ st1, my_free first_alloc.2 4112 = .ok st1 ∧
      st1.free_head = 4112 - sizeof_my_metadata_t ∧
      (st1.mem (4112 - sizeof_my_metadata_t)).next = first_alloc.2.free_head ∧
      (first_alloc.2.mem (4112 - sizeof_my_metadata_t)).size = 800 ∧
      (st1.mem (4112 - sizeof_my_metadata_t)).size = 800 ∧
      (∀ x, x ≠ 4112 - sizeof_my_metadata_t → st1.mem x = first_alloc.2.mem x) ∧
      st1.mmap_log = first_alloc.2.mmap_log ∧
      (∀ l, FreeList first_alloc.2 l → 4112 - sizeof_my_metadata_t ∉ l ∧
        FreeList st1 ((4112 - sizeof_my_metadata_t) :: l)) :=
  ⟨page_at_ok, first_alloc_reach, List.mem_cons_self _ _,
    C6_free_effect page_at_ok first_alloc_reach (List.mem_cons_self _ _)⟩

/-- C7: in every reachable state, for every valid size `s`: when `my_malloc s` returns `p`
and the state `st1`, `my_free p` succeeds in `st1`, and `my_malloc s` in the state after the
free returns the same `p` and the state `st1` again, with a single activation: no page is
requested and the heap is as it was right after the first call. -/
theorem C7_reuse {sys : Nat → Nat} {dummy : Nat} {st : State}
    {live : List (Nat × Nat)} (hp : PagesOK sys dummy) (hr : Reachable sys dummy st live)
    {s : Nat} (hs : ValidSize s) :
    ∃ N p st1 st2,
      (∀ fuel depth, N ≤ fuel → 2 ≤ depth → my_malloc sys fuel depth st s = .ok (p, st1)) ∧
      my_free st1 p = .ok st2 ∧
      (∀ fuel depth, N ≤ fuel → 1 ≤ depth → my_malloc sys fuel depth st2 s = .ok (p, st1)) := by
  have h16 : sizeof_my_metadata_t = 16 := rfl
  obtain ⟨fl, hI⟩ := hr.inv hp
  obtain ⟨b, st1, fl1, hret, hI1, k1, k2, k3, _⟩ := Inv.malloc hp hI hs
  obtain ⟨ef, hI2⟩ := Inv.free hp hI1 (List.mem_cons_self _ _)
  have hsub : b + sizeof_my_metadata_t - sizeof_my_metadata_t = b := by omega
  rw [hsub] at ef hI2
  obtain ⟨_, _, _, gnx⟩ := hI1.live_hdr _ (List.mem_cons_self _ _)
  simp only [hsub] at gnx
  refine ⟨max (fl.length + 3) (fl1.length + 3), b + sizeof_my_metadata_t, st1, _,
    fun fuel depth hf hd => hret fuel depth (le_trans (le_max_left _ _) hf) hd, ef, ?_⟩
  intro fuel depth hf hd
  obtain ⟨d, rfl⟩ : ∃ d, depth = d + 1 := ⟨depth - 1, by omega⟩
  have hlen : ((b :: fl1) ++ [dummy]).length < fuel := by
    have := le_trans (le_max_right (fl.length + 3) (fl1.length + 3)) hf
    simp; omega
  rcases my_malloc_step sys s hI2.chain with ⟨hall, _⟩ | ⟨b2, bp2, _, hsel, hstep⟩
  · exfalso
    have := hall b (by simp)
    simp only [set_next_size] at this
    omega
  · have hb2 : b2 = b ∧ bp2 = 0 := by
      obtain ⟨pre, post, hl, hbp, hs2, hpre, hpost⟩ := hsel
      simp only [set_next_size] at hs2 hpre hpost
      cases pre with
      | nil =>
        simp only [List.nil_append, List.cons_append, List.cons.injEq] at hl
        exact ⟨hl.1.symm, hbp⟩
      | cons x pre1 =>
        exfalso
        simp only [List.cons_append, List.cons.injEq] at hl
        obtain ⟨hx, htl⟩ := hl
        subst hx
        have hlt := hpre b (List.mem_cons_self _ _) k1
        have hmem : b2 ∈ fl1 ++ [dummy] := by rw [htl]; simp
        rcases List.mem_append.1 hmem with h | h
        · have := k3 b2 h hs2
          omega
        · have : b2 = dummy := by simpa using h
          subst this
          have := hI1.dummy_size
          have := hs.2.1
          omega
    obtain ⟨rfl, rfl⟩ := hb2
    have hw : (st1.mem b2).size < 2 ^ 64 := by
      have : (st1.mem b2).size ≤ 4096 := by have := hs.2.2; omega
      exact lt_of_le_of_lt this (by decide)
    rw [hstep fuel d hlen]
    have hnot : ¬ size_t_sub ((set_next st1.mem b2 st1.free_head b2).size) s
        > sizeof_my_metadata_t := by
      rw [set_next_size, size_t_sub_of_le k1 hw]; omega
    rw [take_block_whole hnot, remove_at_head]
    have hmem : set_next (set_next st1.mem b2 st1.free_head) b2 0 = st1.mem := by
      funext x
      by_cases hx : x = b2
      · subst hx
        simp only [set_next, if_true]
        cases hm : st1.mem x with
        | mk sz nx =>
          rw [hm] at gnx
          simp only at gnx
          rw [gnx]
      · rw [set_next_other _ _ hx, set_next_other _ _ hx]
    simp only [set_next_next_same, hmem]

/-- Witness of C7 on the freshly initialised heap with `s = 800`, the case of the
specification. -/
theorem C7_reuse_witness :
    PagesOK page_at dummy_at ∧ Reachable page_at dummy_at ( my_initialize dummy_at blank) [] ∧
    ValidSize 800 ∧
    ∃ N p st1 st2,
      (∀ fuel depth, N ≤ fuel → 2 ≤ depth →
        my_malloc page_at fuel depth ( my_initialize dummy_at blank) 800 = .ok (p, st1)) ∧
      my_free st1 p = .ok st2 ∧
      (∀ fuel depth, N ≤ fuel → 1 ≤ depth →
        my_malloc page_at fuel depth st2 800 = .ok (p, st1)) :=
  ⟨page_at_ok, Reachable.init blank, valid_800,
    C7_reuse page_at_ok (Reachable.init blank) valid_800⟩

/-- C8 (as amended): starting from a freshly initialised heap, after `a = my_malloc 800`,
`b = my_malloc 800` and `my_free` of both in either order, the two blocks of 800 bytes are two
separate nodes of the free list (they are adjacent in the page and are not merged), each too
small for 1600 bytes; the free list also holds the remainder of the first page, of 2448
bytes, and `my_malloc 1600` is served from that remainder: it returns the pointer at offset
1648 of the first page and requests no page. -/
theorem C8_fragmentation_amended {sys : Nat → Nat} {dummy : Nat} (hp : PagesOK sys dummy)
    (st0 : State)
    (a_first : Bool) :
    ∃ s2 s3,
      (∀ fuel, 6 ≤ fuel → frag_scenario sys dummy st0 fuel a_first
        = .ok (sys st0.mmap_log.length + 16, sys st0.mmap_log.length + 832, s2,
               sys st0.mmap_log.length + 1648, s3)) ∧
      FreeList s2 (if a_first
        then [sys st0.mmap_log.length + 816, sys st0.mmap_log.length,
              sys st0.mmap_log.length + 1632, dummy]
        else [sys st0.mmap_log.length, sys st0.mmap_log.length + 816,
              sys st0.mmap_log.length + 1632, dummy]) ∧
      (s2.mem (sys st0.mmap_log.length)).size = 800 ∧
      (s2.mem (sys st0.mmap_log.length + 816)).size = 800 ∧
      (s2.mem (sys st0.mmap_log.length + 1632)).size = 2448 ∧
      (s2.mem dummy).size = 0 ∧
      s2.mmap_log = 4096 :: st0.mmap_log ∧ s3.mmap_log = s2.mmap_log := by
  have h16 : sizeof_my_metadata_t = 16 := rfl
  have hd := hp.dummy_nonnull
  have hP := hp.nonnull st0.mmap_log.length
  have hPd := hp.dummy_apart st0.mmap_log.length
  generalize hPdef : sys st0.mmap_log.length = P at *
  have n1 : P ≠ dummy := by omega
  have n2 : P + 816 ≠ dummy := by omega
  have n3 : P + 1632 ≠ dummy := by omega
  -- the initialised heap
  have c0 : FreeList ( my_initialize dummy st0) [dummy] := (Inv.init hp st0).chain
  have z0 : (( my_initialize dummy st0).mem dummy).size = 0 := (Inv.init hp st0).dummy_size
  have l0 : ( my_initialize dummy st0).mmap_log = st0.mmap_log := rfl
  -- first call: a page is requested, then its block is split
  obtain ⟨g, eg, lg, cg, szg, frg⟩ := @grow_heap_spec sys _ _ c0
    (by rw [l0, hPdef]; exact hP) (by rw [l0, hPdef]; simpa using n1)
  simp only [l0, hPdef] at cg szg frg lg
  have hstep0 : ∀ fuel depth, 1 < fuel →
      my_malloc sys fuel (depth + 1) ( my_initialize dummy st0) 800
        = my_malloc sys fuel depth g 800 := by
    intro fuel depth hf
    rcases my_malloc_step sys 800 c0 with ⟨_, hstep⟩ | ⟨b, _, _, hsel, _⟩
    · rw [hstep fuel depth (by simpa using hf), eg]; rfl
    · have hm := hsel.minimum
      have : b = dummy := by simpa using hm.1
      rw [this, z0] at hm
      omega
  have zg : (g.mem dummy).size = 0 := by rw [frg dummy (Ne.symm n1)]; exact z0
  obtain ⟨t1, e1, c1, m1, r1, sz1, fr1, lg1⟩ := my_malloc_split_unique sys (s := 800) cg
    (List.mem_cons_self _ _) (by rw [szg]; decide)
    (by
      intro a ha hne
      have : a = dummy := by simpa [hne] using ha
      rw [this, zg]; decide)
    (by rw [szg]; decide) (by rw [szg]; decide) (by simp only [h16]; simp; omega)
  simp only [h16, szg] at c1 r1 sz1 fr1 e1
  have ea1 : P + 16 + 800 = P + 816 := by omega
  have ev1 : 4096 - 16 - 800 - 16 = 3264 := by decide
  rw [ea1] at c1 r1 sz1 fr1
  rw [ev1] at r1
  have er1 : [P, dummy].erase P = [dummy] := by simp
  rw [er1] at c1
  have zt1 : (t1.mem dummy).size = 0 := by
    rw [sz1 dummy (Ne.symm n1) (Ne.symm n2)]; exact zg
  -- second call: the rest of 3264 bytes is split
  obtain ⟨t2, e2, c2, m2, r2, sz2, fr2, lg2⟩ := my_malloc_split_unique sys (s := 800) c1
    (List.mem_cons_self _ _) (by rw [r1]; decide)
    (by
      intro a ha hne
      have : a = dummy := by simpa [hne] using ha
      rw [this, zt1]; decide)
    (by rw [r1]; decide) (by rw [r1]; decide) (by simp only [h16]; simp; omega)
  simp only [h16, r1] at c2 r2 sz2 fr2 e2
  have ev2 : 3264 - 800 - 16 = 2448 := by decide
  rw [ev2] at r2
  have er2 : [P + 816, dummy].erase (P + 816) = [dummy] := by simp
  have ea : P + 816 + 16 + 800 = P + 1632 := by omega
  rw [er2, ea] at c2
  rw [ea] at r2 sz2 fr2
  have zt2 : (t2.mem dummy).size = 0 := by
    rw [sz2 dummy (Ne.symm n2) (Ne.symm n3)]; exact zt1
  have mP : t2.mem P = ⟨800, 0⟩ := by
    rw [fr2 P (by simp; omega) (by omega)]; exact m1
  -- the two calls of `my_free`, in either order
  have hfree : ∀ x y, (x = P ∧ y = P + 816) ∨ (x = P + 816 ∧ y = P) →
      ∃ u, ((my_free t2 (x + 16)).bind fun s1 => my_free s1 (y + 16)) = .ok u ∧
        FreeList u [y, x, P + 1632, dummy] ∧ (∀ z, (u.mem z).size = (t2.mem z).size) ∧
        u.mmap_log = t2.mmap_log := by
    intro x y hxy
    have hx : x ∉ [P + 1632, dummy] ∧ x ≠ 0 ∧ (t2.mem x).next = 0 := by
      rcases hxy with ⟨rfl, _⟩ | ⟨rfl, _⟩
      · exact ⟨by simp; omega, hP, by rw [mP]⟩
      · exact ⟨by simp; omega, by omega, by rw [m2]⟩
    obtain ⟨a1, a2⟩ := add_spec c2 hx.1 hx.2.1 hx.2.2
    have hy : y ∉ [x, P + 1632, dummy] ∧ y ≠ 0 ∧
        ((set_next t2.mem x t2.free_head) y).next = 0 := by
      rcases hxy with ⟨rfl, rfl⟩ | ⟨rfl, rfl⟩
      · refine ⟨by simp; omega, by omega, ?_⟩
        rw [set_next_next_other _ _ (by omega)]; rw [m2]
      · refine ⟨by simp; omega, hP, ?_⟩
        rw [set_next_next_other _ _ (by omega)]; rw [mP]
    obtain ⟨b1, b2⟩ := add_spec a2 hy.1 hy.2.1 hy.2.2
    refine ⟨_, ?_, b2, ?_, rfl⟩
    · have e : my_free t2 (x + 16) = my_add_to_free_list t2 x := by
        show my_add_to_free_list t2 (x + 16 - sizeof_my_metadata_t) = _
        rw [h16, Nat.add_sub_cancel]
      rw [e, a1]
      show my_add_to_free_list _ (y + 16 - sizeof_my_metadata_t) = _
      rw [h16, Nat.add_sub_cancel]
      exact b1
    · intro z
      show (set_next (set_next t2.mem x t2.free_head) y x z).size = _
      rw [set_next_size, set_next_size]
  -- the last call is served by the remainder
  have hlast : ∀ u l, FreeList u l → l.length = 4 → P + 1632 ∈ l →
      (∀ a ∈ l, a = P ∨ a = P + 816 ∨ a = P + 1632 ∨ a = dummy) →
      (∀ z, (u.mem z).size = (t2.mem z).size) →
      ∃ s3, s3.mmap_log = u.mmap_log ∧ ∀ fuel depth, 4 < fuel →
        my_malloc sys fuel (depth + 1) u 1600 = .ok (P + 1648, s3) := by
    intro u l hc hlen hmem hall hsz
    obtain ⟨bp, _, hstep⟩ := my_malloc_unique_fit sys (s := 1600) hc hmem
      (by rw [hsz, r2]; decide)
      (by
        intro a ha hne
        rw [hsz]
        rcases hall a ha with h | h | h | h
        · rw [h, mP]; decide
        · rw [h, m2]; decide
        · exact absurd h hne
        · rw [h, zt2]; decide)
    obtain ⟨s3, e3, lg3⟩ := take_block_total u 1600 (P + 1632) bp
    refine ⟨s3, lg3, ?_⟩
    intro fuel depth hf
    rw [hstep fuel depth (by omega), e3, h16]
  -- assembling the run
  have hrun1 : ∀ fuel, 6 ≤ fuel →
      my_malloc sys fuel 2 ( my_initialize dummy st0) 800 = .ok (P + 16, t1) := by
    intro fuel hf
    rw [hstep0 fuel 1 (by omega), e1 fuel 0 (by simp; omega)]
  have hrun2 : ∀ fuel, 6 ≤ fuel → my_malloc sys fuel 2 t1 800 = .ok (P + 816 + 16, t2) := by
    intro fuel hf
    exact e2 fuel 1 (by simp; omega)
  have hlog2 : t2.mmap_log = 4096 :: st0.mmap_log := by rw [lg2, lg1, lg]
  cases a_first with
  | true =>
    obtain ⟨u, eu, cu, szu, lgu⟩ := hfree P (P + 816) (Or.inl ⟨rfl, rfl⟩)
    obtain ⟨s3, lg3, e3⟩ := hlast u _ cu rfl
      (List.mem_cons_of_mem _ (List.mem_cons_of_mem _ (List.mem_cons_self _ _)))
      (by
        intro a ha
        simp only [List.mem_cons, List.mem_singleton, List.not_mem_nil, or_false] at ha
        rcases ha with h | h | h | h
        · exact Or.inr (Or.inl h)
        · exact Or.inl h
        · exact Or.inr (Or.inr (Or.inl h))
        · exact Or.inr (Or.inr (Or.inr h))) szu
    refine ⟨u, s3, ?_, cu, by rw [szu, mP], by rw [szu, m2], by rw [szu, r2],
      by rw [szu, zt2], by rw [lgu, hlog2], lg3⟩
    intro fuel hf
    unfold frag_scenario
    rw [hrun1 fuel hf]
    simp only [Outcome.bind, hrun2 fuel hf, if_true]
    have eu1 : (my_free t2 (P + 16)).bind (fun s1 => my_free s1 (P + 816 + 16)) = .ok u := eu
    cases hf1 : my_free t2 (P + 16) with
    | assert_fail => rw [hf1] at eu1; simp [Outcome.bind] at eu1
    | out_of_fuel => rw [hf1] at eu1; simp [Outcome.bind] at eu1
    | ok v =>
      rw [hf1] at eu1
      simp only [Outcome.bind] at eu1
      simp only [eu1, e3 fuel 1 (by omega)]
  | false =>
    obtain ⟨u, eu, cu, szu, lgu⟩ := hfree (P + 816) P (Or.inr ⟨rfl, rfl⟩)
    obtain ⟨s3, lg3, e3⟩ := hlast u _ cu rfl
      (List.mem_cons_of_mem _ (List.mem_cons_of_mem _ (List.mem_cons_self _ _)))
      (by
        intro a ha
        simp only [List.mem_cons, List.mem_singleton, List.not_mem_nil, or_false] at ha
        rcases ha with h | h | h | h
        · exact Or.inl h
        · exact Or.inr (Or.inl h)
        · exact Or.inr (Or.inr (Or.inl h))
        · exact Or.inr (Or.inr (Or.inr h))) szu
    refine ⟨u, s3, ?_, cu, by rw [szu, mP], by rw [szu, m2], by rw [szu, r2],
      by rw [szu, zt2], by rw [lgu, hlog2], lg3⟩
    intro fuel hf
    unfold frag_scenario
    rw [hrun1 fuel hf]
    simp only [Outcome.bind, hrun2 fuel hf, Bool.false_eq_true, if_false]
    have eu1 : (my_free t2 (P + 816 + 16)).bind (fun s1 => my_free s1 (P + 16)) = .ok u := eu
    cases hf1 : my_free t2 (P + 816 + 16) with
    | assert_fail => rw [hf1] at eu1; simp [Outcome.bind] at eu1
    | out_of_fuel => rw [hf1] at eu1; simp [Outcome.bind] at eu1
    | ok v =>
      rw [hf1] at eu1
      simp only [Outcome.bind] at eu1
      simp only [eu1, e3 fuel 1 (by omega)]

/-- Witness of C8 (as amended) with the pages of `page_at`, freeing `a` first. -/
theorem C8_fragmentation_amended_witness :
    PagesOK page_at dummy_at ∧
    ∃ s2 s3,
      (∀ fuel, 6 ≤ fuel → frag_scenario page_at dummy_at blank fuel true
        = .ok (4112, 4928, s2, 5744, s3)) ∧
      FreeList s2 [4912, 4096, 5728, 64] ∧
      (s2.mem 4096).size = 800 ∧ (s2.mem 4912).size = 800 ∧ (s2.mem 5728).size = 2448 ∧
      (s2.mem 64).size = 0 ∧
      s2.mmap_log = [4096] ∧ s3.mmap_log = s2.mmap_log :=
  ⟨page_at_ok, C8_fragmentation_amended page_at_ok blank true⟩

/-- C8, counterexample to the claim as stated: in the scenario run with the pages of
`page_at` (in either order of the two calls of `my_free`), the free list before
`my_malloc 1600` contains a block of 2448 bytes, which is at least 1600, and the call
returns a pointer into the first page and leaves the log of page requests unchanged: no new
page is acquired. -/
theorem C8_fragmentation_counterexample :
    (∃ s2 s3, frag_scenario page_at dummy_at blank 6 true = .ok (4112, 4928, s2, 5744, s3) ∧
      FreeList s2 [4912, 4096, 5728, 64] ∧ 1600 ≤ (s2.mem 5728).size ∧
      s3.mmap_log = s2.mmap_log ∧ s2.mmap_log = [4096]) ∧
    (∃ s2 s3, frag_scenario page_at dummy_at blank 6 false = .ok (4112, 4928, s2, 5744, s3) ∧
      FreeList s2 [4096, 4912, 5728, 64] ∧ 1600 ≤ (s2.mem 5728).size ∧
      s3.mmap_log = s2.mmap_log ∧ s2.mmap_log = [4096]) :=
  ⟨⟨_, _, rfl, ⟨rfl, by decide, rfl, by decide, rfl, by decide, rfl, by decide, rfl⟩,
      by decide, rfl, rfl⟩,
   ⟨_, _, rfl, ⟨rfl, by decide, rfl, by decide, rfl, by decide, rfl, by decide, rfl⟩,
      by decide, rfl, rfl⟩⟩

/-- C9: in every reachable state the free list is a finite chain ending at `NULL`, and for
every valid size `s` the call `my_malloc s` returns whenever the fuel is at least some `N`
and two activations are allowed: it recurses at most once.  Either some free block fits, one
activation suffices and no page is requested; or none fits, exactly one request of 4096 bytes
is logged, one activation alone does not suffice, and the block returned is the one built at
the start of the fresh page, whose size `4096 - 16` is at least `4000`, hence at least `s`. -/
theorem C9_terminates {sys : Nat → Nat} {dummy : Nat} {st : State}
    {live : List (Nat × Nat)} (hp : PagesOK sys dummy) (hr : Reachable sys dummy st live)
    {s : Nat} (hs : ValidSize s) :
    ∃ N p st1 l,
      FreeList st l ∧
      (∀ fuel depth, N ≤ fuel → 2 ≤ depth → my_malloc sys fuel depth st s = .ok (p, st1)) ∧
      4000 ≤ 4096 - sizeof_my_metadata_t ∧ s ≤ 4096 - sizeof_my_metadata_t ∧
      (((∃ a ∈ l, s ≤ (st.mem a).size) ∧ st1.mmap_log = st.mmap_log ∧
          ∀ fuel depth, N ≤ fuel → 1 ≤ depth →
            my_malloc sys fuel depth st s = .ok (p, st1)) ∨
       ((∀ a ∈ l, (st.mem a).size < s) ∧ st1.mmap_log = 4096 :: st.mmap_log ∧
          p = sys st.mmap_log.length + sizeof_my_metadata_t ∧
          ∀ fuel, N ≤ fuel → my_malloc sys fuel 1 st s = .out_of_fuel)) := by
  have h16 : sizeof_my_metadata_t = 16 := rfl
  obtain ⟨fl, hI⟩ := hr.inv hp
  obtain ⟨b, st1, fl1, hret, _, _, _, _, hcase⟩ := Inv.malloc hp hI hs
  refine ⟨fl.length + 3, b + sizeof_my_metadata_t, st1, fl ++ [dummy], hI.chain, hret,
    by decide, by have := hs.2.2; omega, ?_⟩
  rcases hcase with ⟨⟨a, ha, hsa⟩, _, hlog, hone⟩ | ⟨hnone, hlog, hb⟩
  · refine Or.inl ⟨⟨a, List.mem_append_left _ ha, hsa⟩, hlog, ?_⟩
    intro fuel depth hf hd
    exact hone fuel depth (by omega) hd
  · have hall : ∀ a ∈ fl ++ [dummy], (st.mem a).size < s := by
      intro a ha
      rcases List.mem_append.1 ha with h | h
      · exact hnone a h
      · have : a = dummy := by simpa using h
        subst this
        have := hI.dummy_size
        have := hs.2.1
        omega
    refine Or.inr ⟨hall, hlog, by rw [hb], ?_⟩
    intro fuel hf
    rcases my_malloc_step sys s hI.chain with ⟨_, hstep⟩ | ⟨b2, _, _, hsel, _⟩
    · rw [hstep fuel 0 (by simp; omega)]
      obtain ⟨st2, eg, _⟩ := Inv.grow hp hI
      rw [eg]
      rfl
    · have := hsel.minimum
      have := hall b2 this.1
      omega

/-- Witness of C9 on the freshly initialised heap with `s = 800`. -/
theorem C9_terminates_witness :
    PagesOK page_at dummy_at ∧ Reachable page_at dummy_at ( my_initialize dummy_at blank) [] ∧
    ValidSize 800 ∧
    ∃ N p st1, ∀ fuel depth, N ≤ fuel → 2 ≤ depth →
      my_malloc page_at fuel depth ( my_initialize dummy_at blank) 800 = .ok (p, st1) := by
  obtain ⟨N, p, st1, _, _, h, _⟩ :=
    C9_terminates page_at_ok (Reachable.init blank) valid_800
  exact ⟨page_at_ok, Reachable.init blank, valid_800, N, p, st1, h⟩

/-- C10: in every reachable state, the size recorded in every block (the nodes of the free
list, the sentinel with size 0 included, and the blocks of the live pointers) is a multiple
of 8; every header other than the sentinel lies in a requested page at an offset that is a
multiple of 8; so does every live pointer and the pointer returned by the next `my_malloc`
with a valid size; these pointers are multiples of 8 when the page starts are. -/
theorem C10_alignment {sys : Nat → Nat} {dummy : Nat} {st : State}
    {live : List (Nat × Nat)} (hp : PagesOK sys dummy) (hr : Reachable sys dummy st live) :
    ∃ fl, FreeList st (fl ++ [dummy]) ∧ (st.mem dummy).size = 0 ∧
      (∀ a, (a ∈ fl ∨ ∃ q ∈ live, q.1 = a + sizeof_my_metadata_t) →
        8 ∣ (st.mem a).size ∧
        ∃ i, i < st.mmap_log.length ∧ sys i ≤ a ∧
          a + sizeof_my_metadata_t + (st.mem a).size ≤ sys i + 4096 ∧ 8 ∣ a - sys i) ∧
      (∀ q ∈ live, 8 ∣ q.2 ∧ ∃ i, i < st.mmap_log.length ∧ sys i ≤ q.1 ∧
        q.1 + q.2 ≤ sys i + 4096 ∧ 8 ∣ q.1 - sys i ∧ (8 ∣ sys i → 8 ∣ q.1)) ∧
      (∀ s, ValidSize s → ∃ N p st1 i,
        (∀ fuel depth, N ≤ fuel → 2 ≤ depth →
          my_malloc sys fuel depth st s = .ok (p, st1)) ∧
        8 ∣ (st1.mem (p - sizeof_my_metadata_t)).size ∧
        i < st1.mmap_log.length ∧ sys i ≤ p ∧ p + s ≤ sys i + 4096 ∧
        8 ∣ p - sys i ∧ (8 ∣ sys i → 8 ∣ p)) := by
  have h16 : sizeof_my_metadata_t = 16 := rfl
  obtain ⟨fl, hI⟩ := hr.inv hp
  refine ⟨fl, hI.chain, hI.dummy_size, ?_, ?_, ?_⟩
  · intro a ha
    obtain ⟨i, hi, h1, h2, h3, h4, _⟩ := hI.in_page a ha
    exact ⟨h4, i, hi, h1, h2, h3⟩
  · intro q hq
    obtain ⟨g16, _, gsz, _⟩ := hI.live_hdr q hq
    obtain ⟨i, hi, h1, h2, h3, h4, _⟩ :=
      hI.in_page (q.1 - sizeof_my_metadata_t) (Or.inr ⟨q, hq, by omega⟩)
    rw [gsz] at h2 h4
    exact ⟨h4, i, hi, by omega, by omega, by omega, by intro h; omega⟩
  · intro s hs
    obtain ⟨b, st1, fl1, hret, hI1, k1, _⟩ := Inv.malloc hp hI hs
    obtain ⟨i, hi, h1, h2, h3, h4, _⟩ :=
      hI1.in_page b (Or.inr ⟨_, List.mem_cons_self _ _, rfl⟩)
    have hsub : b + sizeof_my_metadata_t - sizeof_my_metadata_t = b := by omega
    refine ⟨fl.length + 3, b + sizeof_my_metadata_t, st1, i, hret, by rw [hsub]; exact h4,
      hi, by omega, by omega, by omega, by intro h; omega⟩

/-- Witness of C10 on the state reached by the first `my_malloc 800`. -/
theorem C10_alignment_witness :
    PagesOK page_at dummy_at ∧ Reachable page_at dummy_at first_alloc.2 [(4112, 800)] ∧
    ∃ fl, FreeList first_alloc.2 (fl ++ [dummy_at]) ∧
      (∀ a, (a ∈ fl ∨ ∃ q ∈ [((4112 : Nat), (800 : Nat))], q.1 = a + sizeof_my_metadata_t) →
        8 ∣ (first_alloc.2.mem a).size ∧
        ∃ i, i < first_alloc.2.mmap_log.length ∧ page_at i ≤ a ∧
          a + sizeof_my_metadata_t + (first_alloc.2.mem a).size ≤ page_at i + 4096 ∧
          8 ∣ a - page_at i) := by
  obtain ⟨fl, h1, _, h2, _⟩ := C10_alignment page_at_ok first_alloc_reach
  exact ⟨page_at_ok, first_alloc_reach, fl, h1, h2⟩

/-- C11 (as amended): a double free is detected by the assertion of the free-list insertion.
In every reachable state every node of the free list other than the sentinel has a non-null
link (the sentinel always follows it), so `my_free` of the pointer of such a block fails
the assertion and does not complete: the outcome is `assert_fail`.  In particular, after
`my_free p` of a live pointer `p` has returned, the block of `p` is the head of the free
list and a second `my_free p` fails the assertion. -/
theorem C11_double_free_amended {sys : Nat → Nat} {dummy : Nat} {st : State}
    {live : List (Nat × Nat)} (hp : PagesOK sys dummy) (hr : Reachable sys dummy st live) :
    (∀ l a, FreeList st l → a ∈ l → a ≠ dummy →
      (st.mem a).next ≠ 0 ∧ my_free st (a + sizeof_my_metadata_t) = .assert_fail) ∧
    (∀ p r st1, (p, r) ∈ live → my_free st p = .ok st1 →
      st1.free_head = p - sizeof_my_metadata_t ∧ my_free st1 p = .assert_fail) := by
  have h16 : sizeof_my_metadata_t = 16 := rfl
  have key : ∀ {st : State} {live : List (Nat × Nat)}, Reachable sys dummy st live →
      ∀ l a, FreeList st l → a ∈ l → a ≠ dummy →
      (st.mem a).next ≠ 0 ∧ my_free st (a + sizeof_my_metadata_t) = .assert_fail := by
    intro st live hr l a hl ha had
    obtain ⟨fl, hI⟩ := hr.inv hp
    have : l = fl ++ [dummy] := Chain.unique hl hI.chain
    subst this
    have hafl : a ∈ fl := by
      rcases List.mem_append.1 ha with h | h
      · exact h
      · exact absurd (by simpa using h) had
    have hne := Chain.link_ne_zero fl st.free_head a hI.chain hafl
    refine ⟨hne, ?_⟩
    show my_add_to_free_list st (a + sizeof_my_metadata_t - sizeof_my_metadata_t) = _
    rw [Nat.add_sub_cancel]
    simp [my_add_to_free_list, hne]
  refine ⟨key hr, ?_⟩
  intro p r st1 hq hf
  obtain ⟨fl, hI⟩ := hr.inv hp
  obtain ⟨e, hI1⟩ := Inv.free hp hI hq
  rw [e] at hf
  have hst := Outcome.ok.inj hf
  subst hst
  obtain ⟨g16, _⟩ := hI.live_hdr (p, r) hq
  have hblk : IsBlock fl live (p - sizeof_my_metadata_t) := IsBlock.of_live hq g16
  have hr1 := Reachable.free p r _ hr hq e
  have := (key hr1 _ (p - sizeof_my_metadata_t) hI1.chain (by simp)
    (hI.block_ne hp hblk).1).2
  have hp16 : p - sizeof_my_metadata_t + sizeof_my_metadata_t = p := by
    have : sizeof_my_metadata_t ≤ p := g16
    omega
  rw [hp16] at this
  exact ⟨rfl, this⟩

/-- Witness of C11 (as amended): the state in which the pointer 4112 is live. -/
theorem C11_double_free_amended_witness :
    PagesOK page_at dummy_at ∧ Reachable page_at dummy_at first_alloc.2 [(4112, 800)] ∧
    ∀ st1, my_free first_alloc.2 4112 = .ok st1 → my_free st1 4112 = .assert_fail := by
  have h := (C11_double_free_amended page_at_ok first_alloc_reach).2
  exact ⟨page_at_ok, first_alloc_reach,
    fun st1 hf => (h 4112 800 st1 (List.mem_cons_self _ _) hf).2⟩

/-- C11, counterexample to the claim as stated: in the state reached by `my_initialize`,
`my_malloc 800` (which returns 4112) and `my_free 4112`, the block at 4096 of the pointer
4112 is the head of the free list, and a second `my_free 4112` does not complete: it fails
the assertion of `my_add_to_free_list`. -/
theorem C11_double_free_counterexample :
    my_malloc page_at 3 2 ( my_initialize dummy_at blank) 800 = .ok (4112, first_alloc.2) ∧
    my_free first_alloc.2 4112 = .ok first_freed ∧
    Reachable page_at dummy_at first_freed [] ∧
    FreeList first_freed [4096, 4912, 64] ∧
    (first_freed.mem 4096).next = 4912 ∧
    my_free first_freed 4112 = .assert_fail :=
  ⟨rfl, rfl, first_freed_reach, by decide, rfl, rfl⟩

/-- C12: from any prior state, `my_initialize` yields a free list that consists of the
sentinel alone, with size 0 and link `NULL`; it touches no other header and requests no
page; `my_finalize` leaves every state unchanged; hence after `my_initialize` followed by
`my_finalize` the state is the initialised one, no page was requested and no pointer is
live. -/
theorem C12_lifecycle (sys : Nat → Nat) {dummy : Nat} (hd : dummy ≠ 0) (st0 : State) :
    FreeList ( my_initialize dummy st0) [dummy] ∧
    ( my_initialize dummy st0).free_head = dummy ∧
    ( my_initialize dummy st0).mem dummy = ⟨0, 0⟩ ∧
    (∀ x, x ≠ dummy → ( my_initialize dummy st0).mem x = st0.mem x) ∧
    ( my_initialize dummy st0).mmap_log = st0.mmap_log ∧
    (∀ st, my_finalize st = st) ∧
    my_finalize ( my_initialize dummy st0) = my_initialize dummy st0 ∧
    (my_finalize ( my_initialize dummy st0)).mmap_log = st0.mmap_log ∧
    Reachable sys dummy (my_finalize ( my_initialize dummy st0)) [] := by
  have hm : ( my_initialize dummy st0).mem dummy = ⟨0, 0⟩ := by
    simp [ my_initialize, set_next, set_size]
  refine ⟨⟨rfl, hd, ?_⟩, rfl, hm, ?_, rfl, fun _ => rfl, rfl, rfl, Reachable.init st0⟩
  · show (( my_initialize dummy st0).mem dummy).next = 0
    rw [hm]
  · intro x hx
    show set_next (set_size st0.mem dummy 0) dummy 0 x = _
    rw [set_next_other _ _ hx, set_size_other _ _ hx]

/-- Witness of C12 with the sentinel at `dummy_at` and the prior state `two_free`. -/
theorem C12_lifecycle_witness :
    dummy_at ≠ 0 ∧
    FreeList ( my_initialize dummy_at two_free) [dummy_at] ∧
    my_finalize ( my_initialize dummy_at two_free) = my_initialize dummy_at two_free ∧
    (my_finalize ( my_initialize dummy_at two_free)).mmap_log = two_free.mmap_log := by
  have h := C12_lifecycle page_at (show dummy_at ≠ 0 by decide) two_free
  exact ⟨by decide, h.1, h.2.2.2.2.2.2.1, h.2.2.2.2.2.2.2.1⟩

/-- C13: freed blocks are never merged.  Along every run of calls of `my_malloc` with valid
sizes and of `my_free` on live pointers that starts in a reachable state, every header of a
block (free or allocated) of the earlier state is the header of a block of the later state,
and its recorded size has not grown.  A call of `my_free` changes no recorded size and puts
the freed block in front of the free list, which keeps all its nodes: the freed block and the
blocks already free, adjacent or not, are separate nodes with their sizes unchanged. -/
theorem C13_never_merged {sys : Nat → Nat} {dummy : Nat} {st st1 : State}
    {live live1 : List (Nat × Nat)} (hp : PagesOK sys dummy)
    (hr : Reachable sys dummy st live) (hrun : Run sys dummy st live st1 live1) :
    ∃ fl fl1, FreeList st (fl ++ [dummy]) ∧ FreeList st1 (fl1 ++ [dummy]) ∧
      (∀ a, IsBlock fl live a →
        IsBlock fl1 live1 a ∧ (st1.mem a).size ≤ (st.mem a).size) ∧
      (∀ p r st2, (p, r) ∈ live1 → my_free st1 p = .ok st2 →
        (∀ x, (st2.mem x).size = (st1.mem x).size) ∧
        p - sizeof_my_metadata_t ∉ fl1 ∧
        FreeList st2 ((p - sizeof_my_metadata_t) :: fl1 ++ [dummy]) ∧
        (st2.mem (p - sizeof_my_metadata_t)).size = r ∧
        (∀ a ∈ fl1, a ∈ (p - sizeof_my_metadata_t) :: fl1 ∧ a ≠ p - sizeof_my_metadata_t ∧
          (st2.mem a).size = (st1.mem a).size) ∧
        ∀ a, IsBlock fl1 live1 a →
          IsBlock ((p - sizeof_my_metadata_t) :: fl1) (live1.filter fun q => q.1 ≠ p) a) := by
  obtain ⟨fl, hI⟩ := hr.inv hp
  obtain ⟨fl1, hI1, hmono⟩ := Run.blocks hp hI hrun
  refine ⟨fl, fl1, hI.chain, hI1.chain, hmono, ?_⟩
  intro p r st2 hq hf
  obtain ⟨hI2, hsz, hblk⟩ := Inv.free_blocks hp hI1 hq hf
  obtain ⟨_, gnf, gsz, _⟩ := hI1.live_hdr (p, r) hq
  refine ⟨hsz, gnf, hI2.chain, by rw [hsz]; exact gsz, ?_, hblk⟩
  intro a ha
  refine ⟨List.mem_cons_of_mem _ ha, ?_, hsz a⟩
  rintro rfl
  exact gnf ha

/-- Witness of C13: the run that consists of `my_free 4112` after the first `my_malloc 800`. -/
theorem C13_never_merged_witness :
    PagesOK page_at dummy_at ∧ Reachable page_at dummy_at first_alloc.2 [(4112, 800)] ∧
    Run page_at dummy_at first_alloc.2 [(4112, 800)] first_freed [] ∧
    ∃ fl fl1, FreeList first_alloc.2 (fl ++ [dummy_at]) ∧
      FreeList first_freed (fl1 ++ [dummy_at]) ∧
      ∀ a, IsBlock fl [(4112, 800)] a →
        IsBlock fl1 [] a ∧ (first_freed.mem a).size ≤ (first_alloc.2.mem a).size := by
  obtain ⟨fl, fl1, h1, h2, h3, _⟩ :=
    C13_never_merged page_at_ok first_alloc_reach first_freed_run
  exact ⟨page_at_ok, first_alloc_reach, first_freed_run, fl, fl1, h1, h2, h3⟩

/-- C15: in every reachable state the link of every allocated block is `NULL`, so a block
whose link is not `NULL` is a node of the free list (and every node of the free list before
the sentinel has a non-null link, the link of the sentinel being `NULL`).  The block handed
to `my_add_to_free_list` has link `NULL` at each of the three call sites: in `my_free` of a
live pointer by the invariant, in `grow_heap` and in the split of `take_block` because the
link is cleared just before.  Hence the assertion never fails: `my_free` of a live pointer
returns, and `my_malloc` with a valid size never ends in `assert_fail`, whatever the bounds,
and returns with enough fuel. -/
theorem C15_link_discipline {sys : Nat → Nat} {dummy : Nat} {st : State}
    {live : List (Nat × Nat)} (hp : PagesOK sys dummy) (hr : Reachable sys dummy st live) :
    (∃ fl, FreeList st (fl ++ [dummy]) ∧ (st.mem dummy).next = 0 ∧
      (∀ a ∈ fl, (st.mem a).next ≠ 0) ∧
      (∀ q ∈ live, q.1 - sizeof_my_metadata_t ∉ fl ++ [dummy] ∧
        (st.mem (q.1 - sizeof_my_metadata_t)).next = 0) ∧
      (∀ a, IsBlock fl live a → (st.mem a).next ≠ 0 → a ∈ fl)) ∧
    (∀ q ∈ live, my_free st q.1 = my_add_to_free_list st (q.1 - sizeof_my_metadata_t) ∧
      (st.mem (q.1 - sizeof_my_metadata_t)).next = 0 ∧ ∃ st1, my_free st q.1 = .ok st1) ∧
    (∀ st3 : State, ∃ st4, (st4.mem (sys st3.mmap_log.length)).next = 0 ∧
      grow_heap sys st3 = my_add_to_free_list st4 (sys st3.mmap_log.length) ∧
      ∃ st5, grow_heap sys st3 = .ok st5) ∧
    (∀ (st3 : State) (s b bp : Nat), size_t_sub (st3.mem b).size s > sizeof_my_metadata_t →
      ∃ st4, (st4.mem (b + sizeof_my_metadata_t + s)).next = 0 ∧
        take_block st3 s b bp = (my_add_to_free_list st4 (b + sizeof_my_metadata_t + s)).bind
          (fun st5 => .ok (b + sizeof_my_metadata_t, st5)) ∧
        ∃ st5, take_block st3 s b bp = .ok (b + sizeof_my_metadata_t, st5)) ∧
    (∀ s, ValidSize s →
      (∀ fuel depth, my_malloc sys fuel depth st s ≠ .assert_fail) ∧
      ∃ N p st1, ∀ fuel depth, N ≤ fuel → 2 ≤ depth →
        my_malloc sys fuel depth st s = .ok (p, st1)) := by
  obtain ⟨fl, hI⟩ := hr.inv hp
  have hdn : (st.mem dummy).next = 0 := by
    have h := hI.chain
    have : ∀ (l : List Nat) (hd : Nat), Chain st.mem hd (l ++ [dummy]) →
        (st.mem dummy).next = 0 := by
      intro l
      induction l with
      | nil => intro hd hc; exact hc.2.2
      | cons a l ih => intro hd hc; exact ih _ hc.2.2
    exact this fl st.free_head h
  refine ⟨⟨fl, hI.chain, hdn, fun a ha => Chain.link_ne_zero fl st.free_head a hI.chain ha,
    ?_, ?_⟩, ?_, ?_, ?_, ?_⟩
  · intro q hq
    obtain ⟨g16, gnf, _, gnx⟩ := hI.live_hdr q hq
    refine ⟨?_, gnx⟩
    intro hm
    rcases List.mem_append.1 hm with h | h
    · exact gnf h
    · have hblk : IsBlock fl live (q.1 - sizeof_my_metadata_t) := Or.inr ⟨q, hq, by omega⟩
      exact (hI.block_ne hp hblk).1 (by simpa using h)
  · intro a ha hn
    rcases ha with ha | ⟨q, hq, hq1⟩
    · exact ha
    · exfalso
      obtain ⟨_, _, _, gnx⟩ := hI.live_hdr q hq
      have : q.1 - sizeof_my_metadata_t = a := by omega
      rw [this] at gnx
      exact hn gnx
  · intro q hq
    obtain ⟨_, _, _, gnx⟩ := hI.live_hdr q hq
    have hq' : (q.1, q.2) ∈ live := hq
    exact ⟨rfl, gnx, _, (Inv.free hp hI hq').1⟩
  · intro st3
    refine ⟨State.mk st3.free_head
      (set_next (set_size st3.mem (sys st3.mmap_log.length)
        (size_t_sub 4096 sizeof_my_metadata_t)) (sys st3.mmap_log.length) 0)
      (4096 :: st3.mmap_log), by simp, rfl, grow_heap_ok sys st3⟩
  · intro st3 s b bp hsplit
    obtain ⟨st5, e, _⟩ := take_block_total st3 s b bp
    refine ⟨State.mk (my_remove_from_free_list st3 b bp).free_head
      (set_next (set_size (set_size (my_remove_from_free_list st3 b bp).mem b s)
        (b + sizeof_my_metadata_t + s)
        (size_t_sub (size_t_sub (st3.mem b).size s) sizeof_my_metadata_t))
        (b + sizeof_my_metadata_t + s) 0)
      (my_remove_from_free_list st3 b bp).mmap_log, by simp, ?_, st5, e⟩
    unfold take_block
    simp only [if_pos hsplit]
  · intro s hs
    obtain ⟨b, st1, _, hret, _⟩ := Inv.malloc hp hI hs
    exact ⟨fun fuel depth => my_malloc_no_assert sys s depth fuel st,
      fl.length + 3, b + sizeof_my_metadata_t, st1, hret⟩

/-- Witness of C15 on the state reached by the first `my_malloc 800`. -/
theorem C15_link_discipline_witness :
    PagesOK page_at dummy_at ∧ Reachable page_at dummy_at first_alloc.2 [(4112, 800)] ∧
    (∀ q ∈ [((4112 : Nat), (800 : Nat))],
      my_free first_alloc.2 q.1
        = my_add_to_free_list first_alloc.2 (q.1 - sizeof_my_metadata_t) ∧
      (first_alloc.2.mem (q.1 - sizeof_my_metadata_t)).next = 0 ∧
      ∃ st1, my_free first_alloc.2 q.1 = .ok st1) ∧
    (∀ s, ValidSize s →
      (∀ fuel depth, my_malloc page_at fuel depth first_alloc.2 s ≠ .assert_fail) ∧
      ∃ N p st1, ∀ fuel depth, N ≤ fuel → 2 ≤ depth →
        my_malloc page_at fuel depth first_alloc.2 s = .ok (p, st1)) := by
  obtain ⟨_, h2, _, _, h5⟩ := C15_link_discipline page_at_ok first_alloc_reach
  exact ⟨page_at_ok, first_alloc_reach, h2, h5⟩

/-- C16: in every state reachable from `my_initialize` by calls of `my_malloc` with sizes of
at least 8 and calls of `my_free` on live pointers, the free list is a finite chain without a
repeated node whose last node is the sentinel, with size 0 and link `NULL`: the sentinel is
never unlinked.  It is never selected: whatever the fuel, the search of `my_malloc s` with
`s ≥ 8` does not return the sentinel as `best`.  It is never returned: no live pointer and
no pointer returned by a call of `my_malloc s` with `s ≥ 8` is the payload address of the
sentinel, and the state after such a call is reachable in the same sense, so that its free
list ends with the sentinel again. -/
theorem C16_sentinel {sys : Nat → Nat} {dummy : Nat} {st : State}
    {live : List (Nat × Nat)} (hp : PagesOK sys dummy) (hr : Reachable8 sys dummy st live) :
    ∃ fl, FreeList st (fl ++ [dummy]) ∧ (fl ++ [dummy]).Nodup ∧
      (fl ++ [dummy]).getLast? = some dummy ∧ dummy ∉ fl ∧
      st.mem dummy = ⟨0, 0⟩ ∧
      (∀ q ∈ live, q.1 ≠ dummy + sizeof_my_metadata_t) ∧
      (∀ s fuel b bp, 8 ≤ s →
        best_fit_loop st.mem s fuel st.free_head 0 0 0 = .ok (b, bp) →
        b ≠ dummy ∧ bp ≠ dummy) ∧
      (∀ s fuel depth p st1, 8 ≤ s → my_malloc sys fuel depth st s = .ok (p, st1) →
        p ≠ dummy + sizeof_my_metadata_t ∧
        Reachable8 sys dummy st1 ((p, (st1.mem (p - sizeof_my_metadata_t)).size) :: live) ∧
        ∃ fl1, FreeList st1 (fl1 ++ [dummy]) ∧ st1.mem dummy = ⟨0, 0⟩) ∧
      (∀ p r st1, (p, r) ∈ live → my_free st p = .ok st1 →
        Reachable8 sys dummy st1 (live.filter fun q => q.1 ≠ p) ∧
        ∃ fl1, FreeList st1 (fl1 ++ [dummy]) ∧ st1.mem dummy = ⟨0, 0⟩) := by
  have h16 : sizeof_my_metadata_t = 16 := rfl
  have hsent : ∀ {st : State} {fl : List Nat} {live : List (Nat × Nat)},
      Inv0 sys dummy st fl live → st.mem dummy = ⟨0, 0⟩ := by
    intro st fl live hI
    have h1 := hI.dummy_size
    have h2 := Chain.last_link fl st.free_head hI.chain
    cases hm : st.mem dummy with
    | mk sz nx =>
      rw [hm] at h1 h2
      simp only at h1 h2
      rw [h1, h2]
  obtain ⟨fl, hI⟩ := hr.inv0 hp
  have hnd : (fl ++ [dummy]).Nodup := Chain.nodup hI.chain
  have hdfl : dummy ∉ fl := by
    intro hm
    have := List.disjoint_of_nodup_append hnd hm
    simp at this
  refine ⟨fl, hI.chain, hnd, by simp, hdfl, hsent hI, ?_, ?_, ?_, ?_⟩
  · intro q hq e
    obtain ⟨g16, _⟩ := hI.live_hdr q hq
    have hblk : IsBlock fl live (q.1 - sizeof_my_metadata_t) := Or.inr ⟨q, hq, by omega⟩
    apply (hI.weak_block_ne hp hblk).1
    omega
  · intro s fuel b bp hs hloop
    obtain ⟨_, hcase⟩ := loop_selected hI.chain hloop
    rcases hcase with ⟨h0, hsmall⟩ | ⟨_, pre, post, hl, hbp, hsb, _, _⟩
    · have hd0 := hp.dummy_nonnull
      refine ⟨by omega, ?_⟩
      -- nothing was selected: the predecessor recorded is still `NULL`
      have hscan : best_fit_loop st.mem s (max fuel ((fl ++ [dummy]).length + 1))
          st.free_head 0 0 0 = .ok (b, bp) :=
        best_fit_loop_mono _ _ _ _ _ _ _ _ _ (le_max_left _ _) hloop
      rw [best_fit_loop_eq_scan st.mem s (fl ++ [dummy]) _ _ 0 0 0 hI.chain
        (lt_of_lt_of_le (Nat.lt_succ_self _) (le_max_right _ _)),
        scan_none _ 0 0 0 hsmall] at hscan
      have e2 : 0 = bp := congrArg Prod.snd (Outcome.ok.inj hscan)
      omega
    · have hbd : b ≠ dummy := by
        rintro rfl
        have := hI.dummy_size
        omega
      refine ⟨hbd, ?_⟩
      -- the predecessor is `NULL` or a node before `b`, hence before the sentinel
      obtain ⟨post1, hp1, hfl⟩ := split_snoc hl hbd
      rw [hbp]
      cases pre with
      | nil => exact Ne.symm hp.dummy_nonnull
      | cons q pre =>
        intro e
        have hm : lastD pre q ∈ q :: pre := lastD_mem pre q
        have : lastD (q :: pre) 0 = lastD pre q := rfl
        rw [this] at e
        rw [e] at hm
        apply hdfl
        rw [hfl]
        exact List.mem_append_left _ hm
  · intro s fuel depth p st1 hs hm
    obtain ⟨fl1, b, hpb, hbd, hI1⟩ := Inv0.malloc_any hp hs depth fuel st fl live p st1 hI hm
    refine ⟨by omega, Reachable8.malloc fuel depth s p st1 hr hs hm, fl1, hI1.chain, hsent hI1⟩
  · intro p r st1 hq hf
    obtain ⟨e, hI1⟩ := Inv0.weak_free hp hI hq
    rw [e] at hf
    have := Outcome.ok.inj hf
    subst this
    exact ⟨Reachable8.free p r _ hr hq e, _, hI1.chain, hsent hI1⟩

/-- Witness of C16: the state after `my_malloc 9` on the heap initialised from `blank`. -/
theorem C16_sentinel_witness :
    PagesOK page_at dummy_at ∧ Reachable8 page_at dummy_at odd_alloc.2 [(4112, 9)] ∧
    ∃ fl, FreeList odd_alloc.2 (fl ++ [dummy_at]) ∧ dummy_at ∉ fl ∧
      odd_alloc.2.mem dummy_at = ⟨0, 0⟩ ∧
      ∀ s fuel b bp, 8 ≤ s →
        best_fit_loop odd_alloc.2.mem s fuel odd_alloc.2.free_head 0 0 0 = .ok (b, bp) →
        b ≠ dummy_at ∧ bp ≠ dummy_at := by
  obtain ⟨fl, h1, _, _, h4, h5, _, h7, _⟩ := C16_sentinel page_at_ok odd_alloc_reach
  exact ⟨page_at_ok, odd_alloc_reach, fl, h1, h4, h5, h7⟩

/-- C17: in every state reached from `my_initialize` by calls of `my_malloc` with valid sizes
and calls of `my_free` on live pointers, every block (a node of the free list other than the
sentinel, or the block of a live pointer) lies in a page acquired since `my_initialize`, and
every such page `sys i` is exactly tiled by its blocks: the list `bs` of the blocks of the
page, ordered by strictly increasing address, is contiguous from the page start to the page
end (each block begins where the previous one ends, header and recorded size included), and
the sum over `bs` of `sizeof(my_metadata_t)` plus the recorded size is 4096. -/
theorem C17_page_tiling {sys : Nat → Nat} {dummy : Nat} {st0 st : State}
    {live : List (Nat × Nat)} (hp : PagesOK sys dummy)
    (hr : Run sys dummy ( my_initialize dummy st0) [] st live) :
    ∃ fl, FreeList st (fl ++ [dummy]) ∧
      st0.mmap_log.length ≤ st.mmap_log.length ∧
      (∀ a, IsBlock fl live a → ∃ i, st0.mmap_log.length ≤ i ∧ i < st.mmap_log.length ∧
        sys i ≤ a ∧ a < sys i + 4096) ∧
      ∀ i, st0.mmap_log.length ≤ i → i < st.mmap_log.length →
        ∃ bs, (∀ a, a ∈ bs ↔ (IsBlock fl live a ∧ sys i ≤ a ∧ a < sys i + 4096)) ∧
          bs.Pairwise (· < ·) ∧
          Tiling st.mem (sys i) bs (sys i + 4096) ∧
          (bs.map fun a => sizeof_my_metadata_t + (st.mem a).size).sum = 4096 := by
  obtain ⟨fl, hI, hT⟩ := Run.tiled hp hr
  refine ⟨fl, hI.chain, hT.base, hT.home, ?_⟩
  intro i h1 h2
  obtain ⟨bs, ht, hm⟩ := hT.tiles i h1 h2
  refine ⟨bs, hm, Tiling.pairwise bs _ _ ht, ht, ?_⟩
  have := Tiling.sum bs _ _ ht
  omega

/-- Witness of C17: the state after the first `my_malloc 800` on the heap initialised from
`blank`, whose single page is tiled by the allocated block and the rest of the split. -/
theorem C17_page_tiling_witness :
    PagesOK page_at dummy_at ∧
    Run page_at dummy_at ( my_initialize dummy_at blank) [] first_alloc.2 [(4112, 800)] ∧
    ∃ fl, FreeList first_alloc.2 (fl ++ [dummy_at]) ∧
      ∀ i, blank.mmap_log.length ≤ i → i < first_alloc.2.mmap_log.length →
        ∃ bs, (∀ a, a ∈ bs ↔
            (IsBlock fl [(4112, 800)] a ∧ page_at i ≤ a ∧ a < page_at i + 4096)) ∧
          bs.Pairwise (· < ·) ∧
          Tiling first_alloc.2.mem (page_at i) bs (page_at i + 4096) ∧
          (bs.map fun a => sizeof_my_metadata_t + (first_alloc.2.mem a).size).sum = 4096 := by
  obtain ⟨fl, h1, _, _, h4⟩ := C17_page_tiling page_at_ok first_alloc_run
  exact ⟨page_at_ok, first_alloc_run, fl, h1, h4⟩

/-- C18 (as amended): in every reachable state every free block other than the sentinel has
size at least 8, and for every valid size `s` the call `my_malloc s` returns the payload of a
block `b`
selected by the search in the state `stm` (the state of the call, or the state after
`grow_heap` when no block fits).  With `c` the size of `b` in `stm`: `s ≤ c`, so the
subtraction `c - s` of `size_t` values does not wrap around; the recorded size `r` of `b`
after the call satisfies `s ≤ r ≤ s + 16`.  When the block is split (`c - s > 16`), `r` is
exactly `s`, the subtraction `c - s - 16` does not wrap around either, and the remainder
block, at `b + 16 + s` at the head of the free list, has size `c - s - 16`, which is at
least 8.  When it is not split, `r = c` and no block is added.  After the call again, every
free block other than the sentinel has size at least 8, and the sentinel has size 0.  Hence
`r = s` if and only if the block is split or fits exactly (`c = s`). -/
theorem C18_size_bounds_amended {sys : Nat → Nat} {dummy : Nat} {st : State}
    {live : List (Nat × Nat)} (hp : PagesOK sys dummy) (hr : Reachable sys dummy st live)
    {s : Nat} (hs : ValidSize s) :
    (∃ fl, FreeList st (fl ++ [dummy]) ∧ (st.mem dummy).size = 0 ∧
      ∀ a ∈ fl, 8 ≤ (st.mem a).size) ∧
    ∃ N stm flm b bp st1 fl1,
      (∀ fuel depth, N ≤ fuel → 2 ≤ depth →
        my_malloc sys fuel depth st s = .ok (b + sizeof_my_metadata_t, st1)) ∧
      (stm = st ∨ grow_heap sys st = .ok stm) ∧
      FreeList stm (flm ++ [dummy]) ∧
      (∀ fuel, N ≤ fuel → best_fit_loop stm.mem s fuel stm.free_head 0 0 0 = .ok (b, bp)) ∧
      b ∈ flm ∧
      s ≤ (stm.mem b).size ∧ (stm.mem b).size < 2 ^ 64 ∧
      size_t_sub (stm.mem b).size s = (stm.mem b).size - s ∧
      s ≤ (st1.mem b).size ∧ (st1.mem b).size ≤ s + sizeof_my_metadata_t ∧
      FreeList st1 (fl1 ++ [dummy]) ∧ (st1.mem dummy).size = 0 ∧
      (∀ a ∈ fl1, 8 ≤ (st1.mem a).size) ∧
      ((size_t_sub (stm.mem b).size s > sizeof_my_metadata_t ∧
          (st1.mem b).size = s ∧
          size_t_sub (size_t_sub (stm.mem b).size s) sizeof_my_metadata_t
            = (stm.mem b).size - s - sizeof_my_metadata_t ∧
          (st1.mem (b + sizeof_my_metadata_t + s)).size
            = (stm.mem b).size - s - sizeof_my_metadata_t ∧
          8 ≤ (st1.mem (b + sizeof_my_metadata_t + s)).size ∧
          fl1 = (b + sizeof_my_metadata_t + s) :: flm.erase b) ∨
       (¬ size_t_sub (stm.mem b).size s > sizeof_my_metadata_t ∧
          (st1.mem b).size = (stm.mem b).size ∧ fl1 = flm.erase b)) ∧
      ((st1.mem b).size = s ↔
        (size_t_sub (stm.mem b).size s > sizeof_my_metadata_t ∨ (stm.mem b).size = s)) := by
  have h16 : sizeof_my_metadata_t = 16 := rfl
  obtain ⟨fl, hI⟩ := hr.inv hp
  refine ⟨⟨fl, hI.chain, hI.dummy_size, fun a ha => (hI.in_page a (Or.inl ha)).choose_spec.2.2.2.2.2⟩,
    ?_⟩
  obtain ⟨stm, flm, b, bp, st1, fl1, hstm, hIm, hloop, _, hsel, _, hret, _, hI1, _,
    pre, post, hfl, _, hdetail⟩ := Inv.malloc_detail hp hI hs
  obtain ⟨_, hsb, _⟩ := hsel.minimum
  have hbm : b ∈ flm := by rw [hfl]; simp
  obtain ⟨i, _, hb1, hb2, _, hb4, _⟩ := hIm.in_page b (Or.inl hbm)
  have hw : (stm.mem b).size < 2 ^ 64 := by
    have : (stm.mem b).size ≤ 4096 := by omega
    exact lt_of_le_of_lt this (by decide)
  have hsub : size_t_sub (stm.mem b).size s = (stm.mem b).size - s := size_t_sub_of_le hsb hw
  have hlen : flm.length ≤ fl.length + 1 := by
    rcases hstm with ⟨_, h⟩ | ⟨_, _, h, _⟩
    · rw [h]; omega
    · rw [h]; simp
  have hnd : (flm ++ [dummy]).Nodup := Chain.nodup hIm.chain
  have hbpre : b ∉ pre := by
    intro hm
    have h1 : (pre ++ b :: post).Nodup := by
      rw [← hfl]; exact List.Nodup.of_append_left hnd
    have := List.disjoint_of_nodup_append h1 hm
    simp at this
  have her : flm.erase b = pre ++ post := by rw [hfl]; exact erase_mid hbpre
  have hfree1 : ∀ a ∈ fl1, 8 ≤ (st1.mem a).size :=
    fun a ha => (hI1.in_page a (Or.inl ha)).choose_spec.2.2.2.2.2
  have hr1 : s ≤ (st1.mem b).size ∧ (st1.mem b).size ≤ s + sizeof_my_metadata_t := by
    rcases hdetail with ⟨h1, _, h3⟩ | ⟨_, _, h3, _⟩
    · rw [h3 b]; omega
    · rw [h3]; omega
  refine ⟨fl.length + 3, stm, flm, b, bp, st1, fl1, hret, ?_, hIm.chain, ?_, hbm, hsb, hw, hsub,
    hr1.1, hr1.2, hI1.chain, hI1.dummy_size, hfree1, ?_, ?_⟩
  · rcases hstm with ⟨h, _⟩ | ⟨_, h, _⟩
    · exact Or.inl h
    · exact Or.inr h
  · intro fuel hf
    exact hloop fuel (by omega)
  · rcases hdetail with ⟨h1, h2, h3⟩ | ⟨h1, h2, h3, h4, _⟩
    · exact Or.inr ⟨by rw [hsub]; omega, h3 b, by rw [h2, her]⟩
    · have hrest : 8 ≤ (st1.mem (b + sizeof_my_metadata_t + s)).size :=
        hfree1 _ (by rw [h2]; simp)
      refine Or.inl ⟨by rw [hsub]; exact h1, h3, ?_, h4, hrest, by rw [h2, her]⟩
      rw [hsub]
      exact size_t_sub_of_le (Nat.le_of_lt h1) (by omega)
  · rw [hsub]
    rcases hdetail with ⟨h1, _, h3⟩ | ⟨h1, _, h3, _⟩
    · rw [h3 b]
      constructor
      · intro h
        exact Or.inr h
      · rintro (h | h)
        · omega
        · exact h
    · exact ⟨fun _ => Or.inl h1, fun _ => h3⟩

/-- Witness of C18 (as amended): a request of 800 bytes in the state reached by a first
`my_malloc 800`. -/
theorem C18_size_bounds_amended_witness :
    PagesOK page_at dummy_at ∧ Reachable page_at dummy_at first_alloc.2 [(4112, 800)] ∧
    ValidSize 800 ∧
    ∃ N b st1,
      (∀ fuel depth, N ≤ fuel → 2 ≤ depth →
        my_malloc page_at fuel depth first_alloc.2 800
          = .ok (b + sizeof_my_metadata_t, st1)) ∧
      800 ≤ (st1.mem b).size ∧ (st1.mem b).size ≤ 800 + sizeof_my_metadata_t := by
  obtain ⟨_, N, _, _, b, _, st1, _, h1, _, _, _, _, _, _, _, h2, h3, _⟩ :=
    C18_size_bounds_amended page_at_ok first_alloc_reach valid_800
  exact ⟨page_at_ok, first_alloc_reach, valid_800, N, b, st1, h1, h2, h3⟩

/-- C18, counterexample to the claim as stated: an exact fit.  In the state reached by
`my_initialize`, `my_malloc 800` (which returns 4112) and `my_free 4112`, the free list
holds the block at 4096, of size 800.  `my_malloc 800` selects it; the difference of the
sizes is 0, so the block is not split (the free list afterwards holds the other block only);
yet the recorded size of the returned block equals the request. -/
theorem C18_size_bounds_counterexample :
    Reachable page_at dummy_at first_freed [] ∧ ValidSize 800 ∧
    FreeList first_freed [4096, 4912, 64] ∧ (first_freed.mem 4096).size = 800 ∧
    best_fit_loop first_freed.mem 800 4 first_freed.free_head 0 0 0 = .ok (4096, 0) ∧
    ¬ size_t_sub (first_freed.mem 4096).size 800 > sizeof_my_metadata_t ∧
    ∃ st1, my_malloc page_at 4 2 first_freed 800 = .ok (4112, st1) ∧
      (st1.mem 4096).size = 800 ∧ FreeList st1 [4912, 64] :=
  ⟨first_freed_reach, valid_800, by decide, rfl, rfl, by decide,
    ((my_malloc page_at 4 2 first_freed 800).getD (0, blank)).2, rfl, rfl, by decide⟩

/-- C19: on every well-formed free list `pre ++ h :: post` whose headers are kept apart, with
`prev` the last node of `pre` (`NULL` when `pre` is empty, that is when `h` is the head;
otherwise the node whose link is `h`), `my_remove_from_free_list h prev` yields the free
list `pre ++ post` (`h` deleted, the order of the other nodes unchanged), sets the link of
`h` to `NULL` and changes no size and no page log; a following `my_add_to_free_list h`
passes its assertion and yields the free list `h :: pre ++ post`, again without a change of
size.  The headers of both lists are kept apart. -/
theorem C19_remove_then_insert {st : State} {pre post : List Nat} {h : Nat}
    (hc : FreeList st (pre ++ h :: post)) (hsep : Separated (pre ++ h :: post)) :
    (pre = [] → st.free_head = h) ∧
    (pre ≠ [] → lastD pre 0 ∈ pre ∧ (st.mem (lastD pre 0)).next = h ∧
      (lastD pre 0 + sizeof_my_metadata_t ≤ h ∨ h + sizeof_my_metadata_t ≤ lastD pre 0)) ∧
    FreeList (my_remove_from_free_list st h (lastD pre 0)) (pre ++ post) ∧
    h ∉ pre ++ post ∧ Separated (pre ++ post) ∧
    ((my_remove_from_free_list st h (lastD pre 0)).mem h).next = 0 ∧
    (∀ x, ((my_remove_from_free_list st h (lastD pre 0)).mem x).size = (st.mem x).size) ∧
    (my_remove_from_free_list st h (lastD pre 0)).mmap_log = st.mmap_log ∧
    ∃ st2, my_add_to_free_list (my_remove_from_free_list st h (lastD pre 0)) h = .ok st2 ∧
      FreeList st2 (h :: (pre ++ post)) ∧ Separated (h :: (pre ++ post)) ∧
      ∀ x, (st2.mem x).size = (st.mem x).size := by
  obtain ⟨r1, r2, r3, _, r5⟩ := remove_spec hc
  have hnd : (pre ++ h :: post).Nodup := Chain.nodup hc
  have hh0 : h ≠ 0 := Chain.ne_zero hc h (by simp)
  have hnot : h ∉ pre ++ post := by
    intro hm
    rcases List.mem_append.1 hm with hm | hm
    · have := List.disjoint_of_nodup_append hnd hm
      simp at this
    · exact (List.nodup_cons.1 (List.Nodup.of_append_right hnd)).1 hm
  have hnext : ((my_remove_from_free_list st h (lastD pre 0)).mem h).next = 0 := by rw [r2]
  obtain ⟨a1, a2⟩ := add_spec r1 hnot hh0 hnext
  have hs1 : Separated (pre ++ post) := by
    refine hsep.subset ?_
    intro x hx
    rcases List.mem_append.1 hx with hx | hx
    · exact List.mem_append_left _ hx
    · exact List.mem_append_right _ (List.mem_cons_of_mem _ hx)
  have hs2 : Separated (h :: (pre ++ post)) := by
    refine hsep.subset ?_
    intro x hx
    rcases List.mem_cons.1 hx with rfl | hx
    · simp
    · rcases List.mem_append.1 hx with hx | hx
      · exact List.mem_append_left _ hx
      · exact List.mem_append_right _ (List.mem_cons_of_mem _ hx)
  refine ⟨?_, ?_, r1, hnot, hs1, hnext, r3, r5, _, a1, a2, hs2, ?_⟩
  · rintro rfl
    exact hc.1
  · intro hne
    cases pre with
    | nil => exact absurd rfl hne
    | cons q pre =>
      have hm : lastD (q :: pre) 0 ∈ q :: pre := lastD_mem pre q
      refine ⟨hm, Chain.pred_link pre q st.free_head hc, ?_⟩
      refine hsep.2 _ (List.mem_append_left _ hm) h (by simp) ?_
      intro e
      apply hnot
      rw [← e]
      exact List.mem_append_left _ hm
  · intro x
    show (set_next _ h _ x).size = _
    rw [set_next_size]; exact r3 x

/-- Witness of C19: removing the block at 4144 of `two_free`, whose predecessor is 4096. -/
theorem C19_remove_then_insert_witness :
    FreeList two_free ([4096] ++ 4144 :: [64]) ∧ Separated ([4096] ++ 4144 :: [64]) ∧
    FreeList (my_remove_from_free_list two_free 4144 (lastD [4096] 0)) ([4096] ++ [64]) ∧
    ((my_remove_from_free_list two_free 4144 (lastD [4096] 0)).mem 4144).next = 0 ∧
    (∀ x, ((my_remove_from_free_list two_free 4144 (lastD [4096] 0)).mem x).size
      = (two_free.mem x).size) ∧
    ∃ st2, my_add_to_free_list (my_remove_from_free_list two_free 4144 (lastD [4096] 0)) 4144
        = .ok st2 ∧
      FreeList st2 (4144 :: ([4096] ++ [64])) ∧ Separated (4144 :: ([4096] ++ [64])) := by
  have h := C19_remove_then_insert (show FreeList two_free ([4096] ++ 4144 :: [64]) from
    two_free_list) (by decide)
  obtain ⟨_, _, h1, _, _, h2, h3, _, st2, h4, h5, h6, _⟩ := h
  exact ⟨two_free_list, by decide, h1, h2, h3, st2, h4, h5, h6⟩

end Malloc
